import Mathlib

/-!
# NetworkManager of `site-footer.js`: a shallow embedding

The development models the fetch / cache / concurrency manager of
`src/site-footer.js` (class `NetworkManager`, lines 192-407), `fetchJSON` (lines
451-457) and the helpers for the clean addresses of the results page (lines 36-150).

Conventions of the embedding.

* JavaScript strings are Lean strings; `s.length` is `jsLength s` (UTF-16 code units).
* JavaScript numbers are exact: mathematical integers (`Int`) in arithmetic, and in JSON
  also decimal fractions (`Json.dec`); nothing is rounded to a double (no rounding at
  2^53 or past 17 digits, no overflow to `Infinity`, no underflow to 0), and an integer
  is printed with all its digits (JavaScript turns to the exponent form from 10^21 on).
* JSON payloads are values of `Json`; a JavaScript value that may also be `undefined`
  is a `Value`.
* `Date.now()` is an explicit argument `now`.
* Platform services (`btoa`, `JSON.stringify`, `JSON.parse`, `Map`, `sessionStorage`)
  are modelled by executable definitions; an operation that throws returns `none`.
* Asynchrony is modelled by events on a system state `Sys`: the synchronous body of
  `fetch`, and the settlement of a request (its `.then` / `.catch` handler).
* Timers are not modelled: the timeout of line 324 shows as a transport attempt that
  throws an `AbortError`, a backoff wait as the delay handed to `setTimeout`, and the
  sweep interval as an event.
* The persistent-tier operations are given a second time with every platform call able
  to throw at will (`Faults`); with no added fault they are the first definitions
  (`faults_none_agree`).
-/

namespace MDC

/-! ## Constants (lines 5-23) -/

def CACHE_VERSION : String := "v1"
def TIMEOUT_DEFAULT : Int := 10000
def MEMORY_TTL : Int := 300000
def SESSION_TTL : Int := 600000
def MAX_SESSION_SIZE : Nat := 512000
def CONCURRENT_REQUESTS : Int := 6

/-! ## JavaScript strings -/

/-- Number of UTF-16 code units of one character. -/
def codeUnits (c : Char) : Nat := if c.toNat < 65536 then 1 else 2

/-- The JavaScript `length` of a list of characters. -/
def jsLengthChars : List Char → Nat
  | [] => 0
  | c :: cs => codeUnits c + jsLengthChars cs

/-- The JavaScript `s.length`. -/
def jsLength (s : String) : Nat := jsLengthChars s.data

/-- Whether the character list `s` begins with `pat`. -/
def startsWithChars : List Char → List Char → Bool
  | [], _ => true
  | _ :: _, [] => false
  | p :: ps, c :: cs => p == c && startsWithChars ps cs

/-- Whether `pat` occurs in `s` as a contiguous run. -/
def includesChars (pat : List Char) : List Char → Bool
  | [] => startsWithChars pat []
  | c :: cs => startsWithChars pat (c :: cs) || includesChars pat cs

/-- The JavaScript `s.includes(pat)`. -/
def includes (s pat : String) : Bool := includesChars pat.data s.data

/-- The JavaScript `s.startsWith(pat)`. -/
def startsWith (s pat : String) : Bool := startsWithChars pat.data s.data

/-- The JavaScript `s.toUpperCase()`, exact on ASCII (HTTP method names); other
characters are left as they are. -/
def toUpperCase (s : String) : String := ⟨s.data.map Char.toUpper⟩

/-- Truthiness of a string: only the empty string is falsy. -/
def truthyString (s : String) : Bool := !s.data.isEmpty

/-! ## JSON values -/

/-- A JSON value. A number is an integer (`num`) or a decimal fraction that is not an
integer (`dec`): `dec neg whole init last` is the number written `whole.d1 ... dk`,
whose fraction digits are those of `init` followed by the non-zero digit `last + 1`,
and which is negative when `neg` holds. An object lists its properties in order. -/
inductive Json where
  | null : Json
  | bool (b : Bool) : Json
  | num (n : Int) : Json
  | dec (neg : Bool) (whole : Nat) (init : List (Fin 10)) (last : Fin 9) : Json
  | str (s : String) : Json
  | arr (xs : List Json) : Json
  | obj (kvs : List (String × Json)) : Json

/-- A JavaScript value that is either `undefined` or a JSON value. -/
inductive Value where
  | undefined : Value
  | json (j : Json) : Value

/-- The test `v === null`. -/
def Value.isNull : Value → Bool
  | .json .null => true
  | _ => false

/-- Truthiness of a JSON value: `null`, `false`, `0` and `""` are falsy. -/
def Json.truthy : Json → Bool
  | .null => false
  | .bool b => b
  | .num n => n != 0
  | .dec _ _ _ _ => true
  | .str s => truthyString s
  | .arr _ => true
  | .obj _ => true

def dquote : Char := Char.ofNat 34
def backslash : Char := Char.ofNat 92

/-- A lower-case hexadecimal digit. -/
def hexDigit (n : Nat) : Char :=
  if n < 10 then Char.ofNat (48 + n) else Char.ofNat (87 + n)

/-- The escape of one character inside a JSON string literal (`QuoteJSONString`). -/
def escapeChar (c : Char) : List Char :=
  if c = dquote then [backslash, dquote]
  else if c = backslash then [backslash, backslash]
  else if c.toNat = 8 then [backslash, 'b']
  else if c.toNat = 9 then [backslash, 't']
  else if c.toNat = 10 then [backslash, 'n']
  else if c.toNat = 12 then [backslash, 'f']
  else if c.toNat = 13 then [backslash, 'r']
  else if c.toNat < 32 then
    [backslash, 'u', '0', '0', hexDigit (c.toNat / 16), hexDigit (c.toNat % 16)]
  else [c]

def escapeChars : List Char → List Char
  | [] => []
  | c :: cs => escapeChar c ++ escapeChars cs

/-- A JSON string literal for `s`. -/
def quoteChars (s : String) : List Char := dquote :: (escapeChars s.data ++ [dquote])

/-- The digits of the fraction `init`, `last + 1`. -/
def fracChars (init : List (Fin 10)) (last : Fin 9) : List Char :=
  init.map (fun d => Nat.digitChar d.val) ++ [Nat.digitChar (last.val + 1)]

/-- The number of zero digits at the head of a list of digits. -/
def leadingZeros : List (Fin 10) → Nat
  | [] => 0
  | d :: ds => if d.val = 0 then leadingZeros ds + 1 else 0

/-- The digits `d1 d2 ... dn` of a number in exponent form: `d1.d2 ... dn`, or `d1`
alone. -/
def mantissaChars : List Char → List Char
  | [] => []
  | [d] => [d]
  | d :: rest => d :: '.' :: rest

/-- The characters of `String(x)` for a positive decimal fraction `x`
(`Number::toString`): the digits with a decimal point, or, for a magnitude below
`10^-6`, the significant digits followed by `e-` and the exponent. -/
def decBody (whole : Nat) (init : List (Fin 10)) (last : Fin 9) : List Char :=
  if whole = 0 ∧ 6 ≤ leadingZeros init then
    mantissaChars (fracChars (init.drop (leadingZeros init)) last)
      ++ 'e' :: '-' :: Nat.toDigits 10 (leadingZeros init + 1)
  else Nat.toDigits 10 whole ++ '.' :: fracChars init last

/-- The characters of `String(x)` for a decimal fraction `x`: a sign for a negative
one, then the characters of its magnitude. -/
def decChars (neg : Bool) (whole : Nat) (init : List (Fin 10)) (last : Fin 9) : List Char :=
  (if neg then ['-'] else []) ++ decBody whole init last

mutual
/-- The characters of `JSON.stringify(j)`. -/
def stringifyChars : Json → List Char
  | .null => "null".data
  | .bool true => "true".data
  | .bool false => "false".data
  | .num n => (toString n).data
  | .dec neg whole init last => decChars neg whole init last
  | .str s => quoteChars s
  | .arr xs => '[' :: (stringifyElems xs ++ [']'])
  | .obj kvs => Char.ofNat 123 :: (stringifyFields kvs ++ [Char.ofNat 125])
/-- The elements of an array, separated by commas. -/
def stringifyElems : List Json → List Char
  | [] => []
  | [x] => stringifyChars x
  | x :: y :: xs => stringifyChars x ++ ',' :: stringifyElems (y :: xs)
/-- The properties of an object, separated by commas. -/
def stringifyFields : List (String × Json) → List Char
  | [] => []
  | [(k, v)] => quoteChars k ++ ':' :: stringifyChars v
  | (k, v) :: kv :: kvs =>
    quoteChars k ++ ':' :: (stringifyChars v ++ ',' :: stringifyFields (kv :: kvs))
end

/-- The JavaScript `JSON.stringify(j)`. -/
def stringify (j : Json) : String := ⟨stringifyChars j⟩

/-- The serialization `JSON.stringify({ data, expires })` of a cache record; a property
whose value is `undefined` is left out. -/
def stringifyRecord (data : Value) (expires : Int) : String :=
  match data with
  | .undefined => stringify (.obj [("expires", .num expires)])
  | .json d => stringify (.obj [("data", d), ("expires", .num expires)])

/-! ## `JSON.parse` -/

/-- JSON white space. -/
def isWs (c : Char) : Bool :=
  c.toNat == 32 || c.toNat == 9 || c.toNat == 10 || c.toNat == 13

def skipWs : List Char → List Char
  | [] => []
  | c :: cs => if isWs c then skipWs cs else c :: cs

def isDigit (c : Char) : Bool := 48 ≤ c.toNat && c.toNat ≤ 57

/-- The value of a hexadecimal digit. -/
def hexVal (c : Char) : Option Nat :=
  if 48 ≤ c.toNat && c.toNat ≤ 57 then some (c.toNat - 48)
  else if 97 ≤ c.toNat && c.toNat ≤ 102 then some (c.toNat - 87)
  else if 65 ≤ c.toNat && c.toNat ≤ 70 then some (c.toNat - 55)
  else none

/-- The value of four hexadecimal digits. -/
def hex4 (a b c d : Char) : Option Nat :=
  match hexVal a, hexVal b, hexVal c, hexVal d with
  | some x, some y, some z, some w => some (((x * 16 + y) * 16 + z) * 16 + w)
  | _, _, _, _ => none

/-- Reads decimal digits, accumulating their value. -/
def parseDigits : List Char → Nat → Nat × List Char
  | [], acc => (acc, [])
  | c :: cs, acc => if isDigit c then parseDigits cs (acc * 10 + (c.toNat - 48)) else (acc, c :: cs)

/-- Whether a number literal goes on with a fraction or an exponent. -/
def startsFraction : List Char → Bool
  | c :: _ => c == '.' || c == 'e' || c == 'E'
  | [] => false

/-- Reads decimal digits, as the list of their values. -/
def readDigits : List Char → List Nat × List Char
  | [] => ([], [])
  | c :: cs =>
    if isDigit c then ((c.toNat - 48) :: (readDigits cs).1, (readDigits cs).2)
    else ([], c :: cs)

/-- The integer part of a JSON number literal: `0`, or a non-zero digit followed by
digits. -/
def parseNat : List Char → Option (Nat × List Char)
  | [] => none
  | c :: cs =>
    if c == '0' then
      match cs with
      | d :: _ => if isDigit d then none else some (0, cs)
      | [] => some (0, [])
    else if isDigit c then some (parseDigits cs (c.toNat - 48))
    else none

/-- The fraction of a JSON number literal: nothing, or `.` and at least one digit. -/
def parseFraction : List Char → Option (List Nat × List Char)
  | [] => some ([], [])
  | c :: r =>
    if c == '.' then
      match r with
      | d :: _ => if isDigit d then some (readDigits r) else none
      | [] => none
    else some ([], c :: r)

/-- At least one digit, read as a number. -/
def parseExpDigits : List Char → Option (Nat × List Char)
  | [] => none
  | d :: cs => if isDigit d then some (parseDigits (d :: cs) 0) else none

/-- The exponent of a JSON number literal: nothing, or `e` or `E`, an optional sign and
at least one digit. -/
def parseExponent : List Char → Option (Int × List Char)
  | [] => some (0, [])
  | c :: r =>
    if c == 'e' || c == 'E' then
      match r with
      | [] => none
      | s :: r2 =>
        if s == '-' then (parseExpDigits r2).map (fun p => (-(p.1 : Int), p.2))
        else if s == '+' then (parseExpDigits r2).map (fun p => ((p.1 : Int), p.2))
        else (parseExpDigits (s :: r2)).map (fun p => ((p.1 : Int), p.2))
    else some (0, c :: r)

/-- The number written with the digits `ds` after those of `acc`. -/
def digitsValue : List Nat → Nat → Nat
  | [], acc => acc
  | d :: ds, acc => digitsValue ds (acc * 10 + d)

/-- The integer `n`, or `-n`. -/
def signed (neg : Bool) (n : Nat) : Int := if neg then -(n : Int) else (n : Int)

/-- The JSON number `m / 10^k`, negated when `neg`, in its one form: an integer when it
is one, else the fraction without trailing zeros. -/
def decimal (neg : Bool) (m : Nat) : Nat → Json
  | 0 => .num (signed neg m)
  | k + 1 =>
    if m % 10 = 0 then decimal neg (m / 10) k
    else
      .dec neg (m / 10 ^ (k + 1))
        ((List.range k).reverse.map (fun i => Fin.ofNat (m / 10 ^ (i + 1) % 10)))
        (Fin.ofNat (m % 10 - 1))

/-- The JSON number written `whole.frac` times `10^exp`, negated when `neg`. -/
def mkNumber (neg : Bool) (whole : Nat) (frac : List Nat) (exp : Int) : Json :=
  if exp ≥ (frac.length : Int) then
    .num (signed neg (digitsValue frac whole * 10 ^ (exp - (frac.length : Int)).toNat))
  else decimal neg (digitsValue frac whole) ((frac.length : Int) - exp).toNat

/-- A JSON number literal: an optional minus sign, the integer part, an optional
fraction and an optional exponent. -/
def parseNumber : List Char → Option (Json × List Char)
  | [] => none
  | c :: cs =>
    match parseNat (if c == '-' then cs else c :: cs) with
    | none => none
    | some (whole, r1) =>
      match parseFraction r1 with
      | none => none
      | some (frac, r2) =>
        match parseExponent r2 with
        | none => none
        | some (exp, r3) => some (mkNumber (c == '-') whole frac exp, r3)

/-- The body of a JSON string literal after its opening quote; `acc` holds the characters
read so far, in reverse. A lone surrogate escape has no Lean character (`none`). -/
def parseStringBody : List Char → List Char → Option (String × List Char)
  | [], _ => none
  | c :: cs, acc =>
    if c = dquote then some (⟨acc.reverse⟩, cs)
    else if c = backslash then
      match cs with
      | 'u' :: a :: b :: x :: y :: rest =>
        match hex4 a b x y with
        | none => none
        | some hi =>
          if 55296 ≤ hi && hi ≤ 56319 then
            match rest with
            | e :: 'u' :: a2 :: b2 :: x2 :: y2 :: rest2 =>
              if e = backslash then
                match hex4 a2 b2 x2 y2 with
                | some lo =>
                  if 56320 ≤ lo && lo ≤ 57343 then
                    parseStringBody rest2
                      (Char.ofNat (65536 + (hi - 55296) * 1024 + (lo - 56320)) :: acc)
                  else none
                | none => none
              else none
            | _ => none
          else if 56320 ≤ hi && hi ≤ 57343 then none
          else parseStringBody rest (Char.ofNat hi :: acc)
      | e :: rest =>
        if e = dquote then parseStringBody rest (dquote :: acc)
        else if e = backslash then parseStringBody rest (backslash :: acc)
        else if e = '/' then parseStringBody rest ('/' :: acc)
        else if e = 'b' then parseStringBody rest (Char.ofNat 8 :: acc)
        else if e = 'f' then parseStringBody rest (Char.ofNat 12 :: acc)
        else if e = 'n' then parseStringBody rest (Char.ofNat 10 :: acc)
        else if e = 'r' then parseStringBody rest (Char.ofNat 13 :: acc)
        else if e = 't' then parseStringBody rest (Char.ofNat 9 :: acc)
        else none
      | [] => none
    else if c.toNat < 32 then none
    else parseStringBody cs (c :: acc)

mutual
/-- Parses one JSON value (after optional white space); the fuel bounds the nesting
and the number of elements read. -/
def parseValue : Nat → List Char → Option (Json × List Char)
  | 0, _ => none
  | fuel + 1, cs =>
    match skipWs cs with
    | [] => none
    | c :: r =>
      if c = 'n' then
        match r with
        | 'u' :: 'l' :: 'l' :: r1 => some (.null, r1)
        | _ => none
      else if c = 't' then
        match r with
        | 'r' :: 'u' :: 'e' :: r1 => some (.bool true, r1)
        | _ => none
      else if c = 'f' then
        match r with
        | 'a' :: 'l' :: 's' :: 'e' :: r1 => some (.bool false, r1)
        | _ => none
      else if c = dquote then
        (parseStringBody r []).map (fun p => (Json.str p.1, p.2))
      else if c = '[' then
        match skipWs r with
        | [] => none
        | d :: r1 =>
          if d = ']' then some (.arr [], r1)
          else (parseElems fuel (d :: r1)).map (fun p => (Json.arr p.1, p.2))
      else if c = Char.ofNat 123 then
        match skipWs r with
        | [] => none
        | d :: r1 =>
          if d = Char.ofNat 125 then some (.obj [], r1)
          else (parseMembers fuel (d :: r1)).map (fun p => (Json.obj p.1, p.2))
      else parseNumber (c :: r)
/-- Parses `value (, value)* ]`. -/
def parseElems : Nat → List Char → Option (List Json × List Char)
  | 0, _ => none
  | fuel + 1, cs =>
    match parseValue fuel cs with
    | none => none
    | some (v, r) =>
      match skipWs r with
      | [] => none
      | d :: r1 =>
        if d = ']' then some ([v], r1)
        else if d = ',' then (parseElems fuel r1).map (fun p => (v :: p.1, p.2))
        else none
/-- Parses `string : value (, string : value)* }`. -/
def parseMembers : Nat → List Char → Option (List (String × Json) × List Char)
  | 0, _ => none
  | fuel + 1, cs =>
    match skipWs cs with
    | [] => none
    | q :: r =>
      if q = dquote then
        match parseStringBody r [] with
        | none => none
        | some (k, r1) =>
          match skipWs r1 with
          | [] => none
          | colon :: r2 =>
            if colon = ':' then
              match parseValue fuel r2 with
              | none => none
              | some (v, r3) =>
                match skipWs r3 with
                | [] => none
                | d :: r4 =>
                  if d = Char.ofNat 125 then some ([(k, v)], r4)
                  else if d = ',' then
                    (parseMembers fuel r4).map (fun p => ((k, v) :: p.1, p.2))
                  else none
            else none
      else none
end

/-- The JavaScript `JSON.parse(s)`; `none` when it throws. Every step of the parser
consumes a character, so the fuel `2 * length + 2` is never exhausted. -/
def jsonParse (s : String) : Option Json :=
  match parseValue (2 * s.data.length + 2) s.data with
  | some (v, rest) => if (skipWs rest).isEmpty then some v else none
  | none => none

/-- The value of the last property named `k`. -/
def lookupLast (k : String) : List (String × Json) → Option Json
  | [] => none
  | (k1, v) :: rest =>
    match lookupLast k rest with
    | some w => some w
    | none => if k1 = k then some v else none

/-- Property access `j.name` on a parsed JSON value, for a name that no prototype
defines (`data`, `expires`): `none` when `j` is `null` (a `TypeError`), `undefined`
when the property is absent. -/
def Json.prop (j : Json) (name : String) : Option Value :=
  match j with
  | .null => none
  | .obj kvs =>
    match lookupLast name kvs with
    | some v => some (.json v)
    | none => some .undefined
  | _ => some .undefined

/-! ## Conversion to a number, for `Date.now() > cached.expires` -/

mutual
/-- The characters of `String(j)`. -/
def toStringChars : Json → List Char
  | .null => "null".data
  | .bool true => "true".data
  | .bool false => "false".data
  | .num n => (toString n).data
  | .dec neg whole init last => decChars neg whole init last
  | .str s => s.data
  | .arr xs => joinElems xs
  | .obj _ => "[object Object]".data
/-- The characters of `xs.join(",")`: a `null` element gives the empty string. -/
def joinElems : List Json → List Char
  | [] => []
  | [.null] => []
  | [x] => toStringChars x
  | .null :: y :: xs => ',' :: joinElems (y :: xs)
  | x :: y :: xs => toStringChars x ++ ',' :: joinElems (y :: xs)
end

/-- White space stripped by the string-to-number conversion (the ASCII part). -/
def isStrWs (c : Char) : Bool :=
  c.toNat == 32 || (9 ≤ c.toNat && c.toNat ≤ 13)

def dropStrWs : List Char → List Char
  | [] => []
  | c :: cs => if isStrWs c then dropStrWs cs else c :: cs

/-- Whether a non-empty list holds decimal digits only. -/
def allDigits : List Char → Bool
  | [] => false
  | [c] => isDigit c
  | c :: d :: cs => isDigit c && allDigits (d :: cs)

/-- The number a string converts to; `none` is `NaN`. Decimal integers only: other
numeric spellings (fractions, exponents, hexadecimal, `Infinity`) are outside the
modelled universe and count as `NaN`. -/
def stringToNumber (cs : List Char) : Option Int :=
  match (dropStrWs (dropStrWs cs).reverse).reverse with
  | [] => some 0
  | c :: r =>
    if c == '-' then
      if allDigits r then some (-((parseDigits r 0).1 : Int)) else none
    else if c == '+' then
      if allDigits r then some ((parseDigits r 0).1 : Int) else none
    else if allDigits (c :: r) then some ((parseDigits (c :: r) 0).1 : Int) else none

/-- The JavaScript `ToNumber(v)` when it is an integer; `none` is `NaN`, and also a
decimal fraction, which `jsGreater` compares by itself. -/
def toNumber : Value → Option Int
  | .undefined => none
  | .json .null => some 0
  | .json (.bool true) => some 1
  | .json (.bool false) => some 0
  | .json (.num n) => some n
  | .json (.dec _ _ _ _) => none
  | .json (.str s) => stringToNumber s.data
  | .json (.arr xs) => stringToNumber (joinElems xs)
  | .json (.obj _) => none

/-- The comparison `now > v` for an integer `now`. Against the fraction `whole + f`,
where `0 < f < 1`, it holds exactly when `now > whole`; against `-(whole + f)` exactly
when `now ≥ -whole`. -/
def jsGreater (now : Int) (v : Value) : Bool :=
  match v with
  | .json (.dec neg whole _ _) =>
    if neg then decide (now ≥ -(whole : Int)) else decide (now > (whole : Int))
  | _ =>
    match toNumber v with
    | some n => decide (now > n)
    | none => false

/-! ## `btoa` and the keys (lines 205-212) -/

/-- The base-64 digit of a value below 64. -/
def b64Char (n : Nat) : Char :=
  if n < 26 then Char.ofNat (65 + n)
  else if n < 52 then Char.ofNat (71 + n)
  else if n < 62 then Char.ofNat (n - 4)
  else if n = 62 then '+'
  else '/'

/-- Base-64 encoding of a list of bytes, with `=` padding. -/
def btoaBytes : List Nat → List Char
  | [] => []
  | [a] => [b64Char (a / 4), b64Char (a % 4 * 16), '=', '=']
  | [a, b] => [b64Char (a / 4), b64Char (a % 4 * 16 + b / 16), b64Char (b % 16 * 4), '=']
  | a :: b :: c :: rest =>
    b64Char (a / 4) :: b64Char (a % 4 * 16 + b / 16) :: b64Char (b % 16 * 4 + c / 64)
      :: b64Char (c % 64) :: btoaBytes rest

/-- The browser `btoa(s)`: throws (`none`) when a character is above U+00FF. -/
def btoa (s : String) : Option String :=
  if s.data.all (fun c => decide (c.toNat < 256)) then some ⟨btoaBytes (s.data.map Char.toNat)⟩
  else none

/-- The replacement `.replace(/[+/=]/g, '')`. -/
def stripBase64Marks (s : String) : String :=
  ⟨s.data.filter (fun c => !(c == '+' || c == '/' || c == '='))⟩

/-- Request options, as far as `NetworkManager` reads them; `none` is an absent
(`undefined`) property. -/
structure Options where
  method : Option String
  body : Option Json
  timeout : Option Int
  retries : Option Int
  retryDelay : Option Int
  useCache : Option Bool
  useSessionCache : Option Bool

/-- The empty options object. -/
def Options.empty : Options :=
  ⟨none, none, none, none, none, none, none⟩

/-- The method part of the key: `(options.method || 'GET').toUpperCase()`. -/
def methodOf (options : Options) : String :=
  match options.method with
  | some m => if truthyString m then toUpperCase m else "GET"
  | none => "GET"

/-- The body part of the key: `options.body ? JSON.stringify(options.body) : ''`. -/
def bodyOf (options : Options) : String :=
  match options.body with
  | some b => if b.truthy then stringify b else ""
  | none => ""

/-- `getCacheKey(url, options)`, lines 205-209. -/
def getCacheKey (url : String) (options : Options) : String :=
  methodOf options ++ ":" ++ url ++ ":" ++ bodyOf options

/-- The head of every persistent key, `mdc_cache_${CONSTANTS.CACHE.VERSION}_`. -/
def sessionKeyHead : String := "mdc_cache_" ++ CACHE_VERSION ++ "_"

/-- `getSessionKey(cacheKey)`, lines 210-212; `none` when `btoa` throws. -/
def getSessionKey (cacheKey : String) : Option String :=
  (btoa cacheKey).map (fun b => sessionKeyHead ++ stripBase64Marks b)

/-! ## `Map` and `sessionStorage` -/

/-- A JavaScript `Map` with string keys, in insertion order, one pair per key. -/
abbrev JSMap (α : Type) := List (String × α)

namespace JSMap

def get {α : Type} : JSMap α → String → Option α
  | [], _ => none
  | (k1, v) :: rest, k => if k1 = k then some v else get rest k

def has {α : Type} (m : JSMap α) (k : String) : Bool := (get m k).isSome

/-- `m.set(k, v)`: replaces the value in place, or appends a new pair. -/
def set {α : Type} : JSMap α → String → α → JSMap α
  | [], k, v => [(k, v)]
  | (k1, v1) :: rest, k, v => if k1 = k then (k1, v) :: rest else (k1, v1) :: set rest k v

/-- `m.delete(k)`. -/
def delete {α : Type} : JSMap α → String → JSMap α
  | [], _ => []
  | (k1, v1) :: rest, k => if k1 = k then delete rest k else (k1, v1) :: delete rest k

end JSMap

/-- The session storage of the origin: its records, whether access is blocked (every
operation then throws), and the quota in code units that `setItem` enforces. -/
structure Storage where
  items : JSMap String
  blocked : Bool
  quota : Nat

namespace Storage

/-- The code units held by a list of records, keys and values. -/
def size : JSMap String → Nat
  | [] => 0
  | (k, v) :: rest => jsLength k + jsLength v + size rest

/-- The method `getItem(k)`: `none` when it throws, `some none` for `null`. -/
def getItem (st : Storage) (k : String) : Option (Option String) :=
  if st.blocked then none else some (JSMap.get st.items k)

/-- The method `setItem(k, v)`: `none` when it throws (blocked, or quota exceeded). -/
def setItem (st : Storage) (k v : String) : Option Storage :=
  if st.blocked then none
  else if size (JSMap.set st.items k v) > st.quota then none
  else some { st with items := JSMap.set st.items k v }

/-- The method `removeItem(k)`: `none` when it throws. -/
def removeItem (st : Storage) (k : String) : Option Storage :=
  if st.blocked then none else some { st with items := JSMap.delete st.items k }

/-- The keys `sessionStorage.key(0)`, ..., `key(length - 1)`; `none` when access throws. -/
def keys (st : Storage) : Option (List String) :=
  if st.blocked then none else some (st.items.map (fun kv => kv.1))

end Storage

/-! ## The cache tiers (lines 213-257) -/

/-- A memory-tier entry `{ data, expires }`. -/
structure CacheEntry where
  data : Value
  expires : Int

/-- One element of `requestQueue`: `{ url, options, promise }`. -/
structure QueueEntry where
  url : String
  options : Options
  promise : Nat

/-- The fields of a `NetworkManager` (lines 193-200); a promise is named by a number. -/
structure NetworkManager where
  memoryCache : JSMap CacheEntry
  inFlight : JSMap Nat
  requestQueue : List QueueEntry
  activeRequests : Int

/-- The manager after its constructor. -/
def NetworkManager.new : NetworkManager := ⟨[], [], [], 0⟩

/-- The JavaScript `null`. -/
def jsNull : Value := .json .null

/-- `getFromMemoryCache(cacheKey)`, lines 213-221, at time `now`. -/
def getFromMemoryCache (nm : NetworkManager) (now : Int) (cacheKey : String) :
    Value × NetworkManager :=
  match JSMap.get nm.memoryCache cacheKey with
  | none => (jsNull, nm)
  | some cached =>
    if now > cached.expires then
      (jsNull, { nm with memoryCache := JSMap.delete nm.memoryCache cacheKey })
    else (cached.data, nm)

/-- The body of the `try` block of `getFromSessionCache`, lines 224-236; `none` when
it throws. -/
def getFromSessionCacheTry (st : Storage) (now : Int) (cacheKey : String) :
    Option (Value × Storage) :=
  match getSessionKey cacheKey with
  | none => none
  | some sessionKey =>
    match st.getItem sessionKey with
    | none => none
    | some none => some (jsNull, st)
    | some (some stored) =>
      if !truthyString stored then some (jsNull, st)
      else
        match jsonParse stored with
        | none => none
        | some cached =>
          match cached.prop "expires" with
          | none => none
          | some expires =>
            if jsGreater now expires then
              (st.removeItem sessionKey).map (fun st1 => (jsNull, st1))
            else if jsLength stored > MAX_SESSION_SIZE then
              (st.removeItem sessionKey).map (fun st1 => (jsNull, st1))
            else (cached.prop "data").map (fun d => (d, st))

/-- `getFromSessionCache(cacheKey)`, lines 222-240: the `catch` returns `null`. -/
def getFromSessionCache (st : Storage) (now : Int) (cacheKey : String) : Value × Storage :=
  match getFromSessionCacheTry st now cacheKey with
  | some r => r
  | none => (jsNull, st)

/-- `setMemoryCache(cacheKey, data, ttl)`, lines 241-243. -/
def setMemoryCache (nm : NetworkManager) (now : Int) (cacheKey : String) (data : Value)
    (ttl : Int) : NetworkManager :=
  { nm with memoryCache := JSMap.set nm.memoryCache cacheKey ⟨data, now + ttl⟩ }

/-- The body of the `try` block of `setSessionCache`, lines 246-253; `none` when it
throws. -/
def setSessionCacheTry (st : Storage) (now : Int) (cacheKey : String) (data : Value)
    (ttl : Int) : Option Storage :=
  match getSessionKey cacheKey with
  | none => none
  | some sessionKey =>
    let serialized := stringifyRecord data (now + ttl)
    if jsLength serialized > MAX_SESSION_SIZE then some st
    else st.setItem sessionKey serialized

/-- `setSessionCache(cacheKey, data, ttl)`, lines 244-257: the `catch` only logs. -/
def setSessionCache (st : Storage) (now : Int) (cacheKey : String) (data : Value)
    (ttl : Int) : Storage :=
  match setSessionCacheTry st now cacheKey data ttl with
  | some st1 => st1
  | none => st

/-! ## Sweep, eligibility and `clearCache` (lines 258-283, 387-406) -/

/-- Whether the sweep removes the record stored under a persistent key (lines 269-274):
its JSON does not parse, reading `expires` throws, or it has expired. -/
def sweepRemoves (now : Int) (stored : String) : Bool :=
  match jsonParse stored with
  | none => true
  | some cached =>
    match cached.prop "expires" with
    | none => true
    | some expires => jsGreater now expires

/-- The keys collected in `keysToRemove` by the sweep (lines 265-276). -/
def sweepKeys (now : Int) : JSMap String → List String
  | [] => []
  | (key, stored) :: rest =>
    if truthyString key && startsWith key sessionKeyHead && sweepRemoves now stored then
      key :: sweepKeys now rest
    else sweepKeys now rest

/-- A sequence of `removeItem` calls (`keysToRemove.forEach`). -/
def removeAll (st : Storage) : List String → Option Storage
  | [] => some st
  | k :: ks =>
    match st.removeItem k with
    | none => none
    | some st1 => removeAll st1 ks

/-- The memory half of `cleanupExpiredCache`, lines 260-262. -/
def sweepMemory (now : Int) (m : JSMap CacheEntry) : JSMap CacheEntry :=
  m.filter (fun kv => !decide (now > kv.2.expires))

/-- The persistent half of `cleanupExpiredCache`, lines 263-278. -/
def sweepSession (now : Int) (st : Storage) : Storage :=
  if st.blocked then st
  else
    match removeAll st (sweepKeys now st.items) with
    | some st1 => st1
    | none => st

/-- `shouldUseSessionCache(url)`, lines 280-283. -/
def shouldUseSessionCache (url : String) : Bool :=
  ["/site/properties", "/property", "/site/properties-similar"].any
    (fun endpoint => includes url endpoint)

/-- Whether `if (pattern)` holds: a non-empty string. -/
def patternGiven : Option String → Bool
  | some p => truthyString p
  | none => false

/-- The memory half of `clearCache(pattern)`, lines 388-394. -/
def clearMemory (pattern : Option String) (m : JSMap CacheEntry) : JSMap CacheEntry :=
  match pattern with
  | some p => if truthyString p then m.filter (fun kv => !includes kv.1 p) else []
  | none => []

/-- The keys collected in `keysToRemove` by `clearCache`, lines 397-403. -/
def clearKeys (pattern : Option String) : JSMap String → List String
  | [] => []
  | (key, _) :: rest =>
    if truthyString key && startsWith key sessionKeyHead
        && (!patternGiven pattern || includes key (pattern.getD "")) then
      key :: clearKeys pattern rest
    else clearKeys pattern rest

/-- The persistent half of `clearCache(pattern)`, lines 395-405. -/
def clearSession (pattern : Option String) (st : Storage) : Storage :=
  if st.blocked then st
  else
    match removeAll st (clearKeys pattern st.items) with
    | some st1 => st1
    | none => st

/-! ## `executeRequest` (lines 352-379) -/

/-- A JavaScript error, as far as the code inspects it. -/
structure JsError where
  name : String
  message : String
  deriving DecidableEq

/-- What one call of the transport (`fetch(url, ...)` followed by `response.json()`)
gives: a response with its status and the result of reading its JSON body, or a thrown
error (network failure, abort). -/
inductive Attempt where
  | response (status : Nat) (body : Except JsError Json) : Attempt
  | thrown (e : JsError) : Attempt

/-- The test `response.ok`. -/
def statusOk (status : Nat) : Bool := 200 ≤ status && status ≤ 299

/-- The error thrown on line 364. -/
def httpError (status : Nat) (url : String) : JsError :=
  ⟨"Error", "HTTP " ++ toString status ++ " for " ++ url⟩

/-- The `try` block of one iteration, lines 363-365: the payload, or the error caught. -/
def attemptResult (url : String) : Attempt → Except JsError Json
  | .thrown e => .error e
  | .response status body => if statusOk status then body else .error (httpError status url)

/-- How a promise settles. -/
inductive Outcome where
  | resolved (v : Value) : Outcome
  | rejected (e : JsError) : Outcome

/-- What a run of `executeRequest` did: how its promise settles, how many transport
calls it started, and the delays it waited, in order. -/
structure ExecResult where
  outcome : Outcome
  calls : Nat
  waits : List Int

/-- The `while` loop of lines 361-378, entered with `attempt` failed attempts behind
it; `transport k` is what the transport call number `k` (from 0) gives. The fuel
bounds the iterations; a loop that ends without `return` or `throw` resolves with
`undefined`. -/
def executeLoop (url : String) (transport : Nat → Attempt) (maxAttempts retryDelay : Int) :
    Nat → Nat → List Int → ExecResult
  | 0, attempt, waits => ⟨.resolved .undefined, attempt, waits⟩
  | fuel + 1, attempt, waits =>
    if (attempt : Int) < maxAttempts then
      match attemptResult url (transport attempt) with
      | .ok data => ⟨.resolved (.json data), attempt + 1, waits⟩
      | .error error =>
        if error.name = "AbortError" then ⟨.rejected error, attempt + 1, waits⟩
        else if includes error.message "HTTP 4" then ⟨.rejected error, attempt + 1, waits⟩
        else if ((attempt + 1 : Nat) : Int) < maxAttempts then
          executeLoop url transport maxAttempts retryDelay fuel (attempt + 1)
            (waits ++ [retryDelay * 2 ^ (attempt + 1 - 1)])
        else ⟨.rejected error, attempt + 1, waits⟩
    else ⟨.resolved .undefined, attempt, waits⟩

/-- `executeRequest(url, options, controller, retries, retryDelay)`, lines 352-379,
against the transport `transport`. The loop runs at most `retries + 1` times, which is
the fuel given. -/
def executeRequest (url : String) (retries retryDelay : Int) (transport : Nat → Attempt) :
    ExecResult :=
  executeLoop url transport (retries + 1) retryDelay (retries + 1).toNat 0 []

/-! ## `fetch`, `processQueue` and the completion handlers (lines 284-351, 380-386) -/

/-- The page the script runs in. `urlWithOrigin url` is what lines 296-299 compute for
`url`: `new URL(url)`, the `_origin` parameter set when it is missing, `u.toString()`;
`none` when the `URL` constructor throws. -/
structure Env where
  urlWithOrigin : String → Option String

/-- The request URL of lines 293-301. -/
def requestUrlOf (env : Env) (url : String) : String :=
  if includes url "webhook" || includes url "n8n" then
    match env.urlWithOrigin url with
    | some u => u
    | none => url
  else url

/-- What the closures of one call of `fetch` that reached line 325 hold: the promise
`requestPromise` (by number), and the variables its handlers and `executeRequest` read. -/
structure Request where
  id : Nat
  requestUrl : String
  cacheKey : String
  useCache : Bool
  useSession : Bool
  retries : Int
  retryDelay : Int

/-- The state of the system: the manager, the session storage, and the requests whose
`executeRequest` has been started and has not settled (`pending`). The other fields
record history: every `executeRequest` started, every settlement, every entry pushed
on `requestQueue`, and every entry taken from it by `processQueue`, in order. -/
structure Sys where
  nm : NetworkManager
  session : Storage
  pending : List Request
  nextId : Nat
  started : List Request
  settled : List (Nat × Outcome)
  enqueued : List QueueEntry
  admitted : List QueueEntry

/-- A fresh manager over a given session storage. -/
def Sys.init (st : Storage) : Sys := ⟨NetworkManager.new, st, [], 0, [], [], [], []⟩

/-- What `fetch` returns: a promise already resolved with a cached value
(`Promise.resolve(cached)`), or the promise of a request. -/
inductive FetchReturn where
  | resolved (v : Value) : FetchReturn
  | promise (id : Nat) : FetchReturn

/-- The request promise returned, if any. -/
def FetchReturn.promiseId : FetchReturn → Option Nat
  | .resolved _ => none
  | .promise id => some id

/-- The cache lookup of lines 304-318: the value found, if any, and the state after
the lookup (lazy eviction, promotion to the memory tier). -/
def lookupCaches (now : Int) (cacheKey : String) (useSession : Bool) (s : Sys) :
    Option Value × Sys :=
  let r := getFromMemoryCache s.nm now cacheKey
  if !r.1.isNull then (some r.1, { s with nm := r.2 })
  else if useSession then
    let q := getFromSessionCache s.session now cacheKey
    if !q.1.isNull then
      (some q.1, { s with nm := setMemoryCache r.2 now cacheKey q.1 MEMORY_TTL, session := q.2 })
    else (none, { s with nm := r.2, session := q.2 })
  else (none, { s with nm := r.2 })

/-- Lines 319-350: an in-flight promise for the key is returned; otherwise
`executeRequest` is called (line 325, which starts the transport), and the new request
is queued or admitted. -/
def dispatch (requestUrl cacheKey url : String) (options : Options)
    (useCache useSession : Bool) (s : Sys) : FetchReturn × Sys :=
  match JSMap.get s.nm.inFlight cacheKey with
  | some p => (.promise p, s)
  | none =>
    let req : Request :=
      ⟨s.nextId, requestUrl, cacheKey, useCache, useSession,
        options.retries.getD 0, options.retryDelay.getD 1000⟩
    let s1 : Sys :=
      { s with nextId := s.nextId + 1, pending := s.pending ++ [req],
               started := s.started ++ [req] }
    if s1.nm.activeRequests ≥ CONCURRENT_REQUESTS then
      let entry : QueueEntry := ⟨url, options, req.id⟩
      (.promise req.id,
        { s1 with nm := { s1.nm with requestQueue := s1.nm.requestQueue ++ [entry] },
                  enqueued := s1.enqueued ++ [entry] })
    else
      (.promise req.id,
        { s1 with nm := { s1.nm with activeRequests := s1.nm.activeRequests + 1,
                                     inFlight := JSMap.set s1.nm.inFlight cacheKey req.id } })

/-- The synchronous body of `fetch(url, options)`, lines 284-351, at time `now`. -/
def fetch (env : Env) (now : Int) (url : String) (options : Options) (s : Sys) :
    FetchReturn × Sys :=
  let useCache := options.useCache.getD true
  let useSessionCache := options.useSessionCache.getD false
  let requestUrl := requestUrlOf env url
  let cacheKey := getCacheKey requestUrl options
  let useSession := useSessionCache || shouldUseSessionCache url
  let hit := if useCache then lookupCaches now cacheKey useSession s else (none, s)
  match hit.1 with
  | some cached => (.resolved cached, hit.2)
  | none => dispatch requestUrl cacheKey url options useCache useSession hit.2

/-- `processQueue()`, lines 380-386; also gives the entry `next` it took, if any. -/
def processQueue (nm : NetworkManager) : Option QueueEntry × NetworkManager :=
  match nm.requestQueue with
  | [] => (none, nm)
  | next :: rest =>
    if nm.activeRequests ≥ CONCURRENT_REQUESTS then (none, nm)
    else
      (some next,
        { nm with requestQueue := rest,
                  activeRequests := nm.activeRequests + 1,
                  inFlight := JSMap.set nm.inFlight (getCacheKey next.url next.options)
                    next.promise })

/-- The common head of both handlers, lines 327-330 and 338-341: the key leaves
`inFlight`, the counter goes down, `processQueue` runs. -/
def release (req : Request) (s : Sys) : Sys :=
  let nm1 : NetworkManager :=
    { s.nm with inFlight := JSMap.delete s.nm.inFlight req.cacheKey,
                activeRequests := s.nm.activeRequests - 1 }
  let r := processQueue nm1
  { s with nm := r.2, admitted := s.admitted ++ r.1.toList }

/-- The `.then` handler, lines 326-336, run at time `now` with the payload `data`. -/
def onFulfilled (now : Int) (req : Request) (data : Value) (s : Sys) : Sys :=
  let s1 := release req s
  if req.useCache then
    let nm2 := setMemoryCache s1.nm now req.cacheKey data MEMORY_TTL
    if req.useSession then
      { s1 with nm := nm2,
                session := setSessionCache s1.session now req.cacheKey data SESSION_TTL }
    else { s1 with nm := nm2 }
  else s1

/-- The `.catch` handler, lines 337-343. -/
def onRejected (req : Request) (s : Sys) : Sys := release req s

/-- The pending request with a given promise number. -/
def findRequest (id : Nat) : List Request → Option Request
  | [] => none
  | r :: rs => if r.id = id then some r else findRequest id rs

/-- The `executeRequest` promise of request `id` settles with `outcome` at time `now`
and its handler runs. Nothing happens when no such request is pending. -/
def settle (now : Int) (id : Nat) (outcome : Outcome) (s : Sys) : Sys :=
  match findRequest id s.pending with
  | none => s
  | some req =>
    let s0 : Sys :=
      { s with pending := s.pending.filter (fun r => r.id != id),
               settled := s.settled ++ [(id, outcome)] }
    match outcome with
    | .resolved data => onFulfilled now req data s0
    | .rejected _ => onRejected req s0

/-- `cleanupExpiredCache()`, lines 258-279, at time `now`. -/
def cleanupExpiredCache (now : Int) (s : Sys) : Sys :=
  { s with nm := { s.nm with memoryCache := sweepMemory now s.nm.memoryCache },
           session := sweepSession now s.session }

/-- `clearCache(pattern)`, lines 387-406. -/
def clearCache (pattern : Option String) (s : Sys) : Sys :=
  { s with nm := { s.nm with memoryCache := clearMemory pattern s.nm.memoryCache },
           session := clearSession pattern s.session }

/-- What can happen to the system. -/
inductive Event where
  | fetch (now : Int) (url : String) (options : Options) : Event
  | settle (now : Int) (id : Nat) (outcome : Outcome) : Event
  | cleanup (now : Int) : Event
  | clearCache (pattern : Option String) : Event

/-- The state after one event. -/
def step (env : Env) (s : Sys) : Event → Sys
  | .fetch now url options => (fetch env now url options s).2
  | .settle now id outcome => settle now id outcome s
  | .cleanup now => cleanupExpiredCache now s
  | .clearCache pattern => clearCache pattern s

/-- The state after a sequence of events. -/
def run (env : Env) (s : Sys) (events : List Event) : Sys := events.foldl (step env) s

/-- The states a fresh manager can reach. -/
def Reachable (env : Env) (s : Sys) : Prop :=
  ∃ (st : Storage) (events : List Event), s = run env (Sys.init st) events

/-! ## Definitions used to state the properties -/

/-- An attempt that fails with an error the loop retries: not an `AbortError`, and a
message without `HTTP 4`. -/
def failsTransiently (url : String) (a : Attempt) : Prop :=
  ∃ e, attemptResult url a = .error e ∧ e.name ≠ "AbortError" ∧ includes e.message "HTTP 4" = false

/-- An attempt that fails the way the specification calls transient, with nothing that
reads as `HTTP 4`: a response with a status from 500 to 599 for an address without
`HTTP 4`, or a thrown error other than an `AbortError` whose message is without
`HTTP 4`. -/
def plainTransient (url : String) (a : Attempt) : Prop :=
  (∃ status body, 500 ≤ status ∧ status ≤ 599 ∧ a = .response status body
      ∧ includes url "HTTP 4" = false)
  ∨ (∃ e, a = .thrown e ∧ e.name ≠ "AbortError" ∧ includes e.message "HTTP 4" = false)

/-- The delays `retryDelay * 2 ^ a`, ..., `retryDelay * 2 ^ (a + k - 1)`. -/
def backoffFrom (retryDelay : Int) (a : Nat) : Nat → List Int
  | 0 => []
  | k + 1 => (retryDelay * 2 ^ a) :: backoffFrom retryDelay (a + 1) k

/-- A transport whose every response has status 503. -/
def always503 : Nat → Attempt := fun _ => .response 503 (.ok .null)

/-- A transport whose first response has status 503 and whose later ones have 404. -/
def then404 : Nat → Attempt
  | 0 => .response 503 (.ok .null)
  | _ => .response 404 (.ok .null)

/-- A transport that fails once with status 503 and then answers with the payload 7. -/
def thenPayload : Nat → Attempt
  | 0 => .response 503 (.ok .null)
  | _ => .response 200 (.ok (.num 7))

/-- The queue invariant: what was taken from the queue, followed by what is still in it,
is what was pushed on it. -/
def QueueInv (s : Sys) : Prop := s.admitted ++ s.nm.requestQueue = s.enqueued

/-- A memory tier with one entry that expires at time 100. -/
def memoryAt100 : NetworkManager :=
  ⟨[("GET:/a:", ⟨.json (.num 1), 100⟩)], [], [], 0⟩

/-- A session storage with one record, for the key `GET:/a:`, that expires at time 100. -/
def sessionAt100 : Storage :=
  ⟨[("mdc_cache_v1_R0VUOi9hOg", "\x7b\"data\":1,\"expires\":100\x7d")], false, 5000000⟩

/-- Every pending request has a promise number below the next one to be given. -/
def PendingInv (s : Sys) : Prop := ∀ r, r ∈ s.pending → r.id < s.nextId

/-- The request `req` has been created, and no other pending request bears its promise
number. -/
def Keeps (req : Request) (s : Sys) : Prop :=
  req.id < s.nextId ∧ ∀ r, r ∈ s.pending → r.id = req.id → r = req

/-- The state in which `fetch` reaches line 319: after the cache lookup, if caching
is on. -/
def afterLookup (env : Env) (now : Int) (url : String) (options : Options) (s : Sys) : Sys :=
  (if options.useCache.getD true then
    lookupCaches now (getCacheKey (requestUrlOf env url) options)
      (options.useSessionCache.getD false || shouldUseSessionCache url) s
  else (none, s)).2

/-- The closure data of the request that `fetch(url, options)` creates in state `s`. -/
def requestOf (env : Env) (url : String) (options : Options) (s : Sys) : Request :=
  ⟨s.nextId, requestUrlOf env url, getCacheKey (requestUrlOf env url) options,
    options.useCache.getD true,
    options.useSessionCache.getD false || shouldUseSessionCache url,
    options.retries.getD 0, options.retryDelay.getD 1000⟩

/-- The cache lookup made by `fetch(url, options)`, lines 304-318: the value found, if
any, and the state in which line 319 is reached. -/
def lookupOf (env : Env) (now : Int) (url : String) (options : Options) (s : Sys) :
    Option Value × Sys :=
  if options.useCache.getD true then
    lookupCaches now (getCacheKey (requestUrlOf env url) options)
      (options.useSessionCache.getD false || shouldUseSessionCache url) s
  else (none, s)

/-- A system with a fresh manager and an empty, working session storage. -/
def freshSys : Sys := Sys.init ⟨[], false, 5000000⟩

/-- A page where the `URL` constructor rejects every address given to it. -/
def plainEnv : Env := ⟨fun _ => none⟩

/-- Options with `useCache: false`. -/
def noCacheOptions : Options := ⟨none, none, none, none, none, some false, none⟩

/-- The events `fetch(u)` at time 0, with no options, for each address of a list. -/
def fetchAll (urls : List String) : List Event :=
  urls.map (fun u => Event.fetch 0 u Options.empty)

/-- The state after six calls of `fetch` for six different addresses. -/
def sixActive : Sys :=
  run plainEnv freshSys (fetchAll ["/a0", "/a1", "/a2", "/a3", "/a4", "/a5"])

/-- The state after ten calls of `fetch` for ten different addresses. -/
def tenIssued : Sys :=
  run plainEnv freshSys
    (fetchAll ["/a0", "/a1", "/a2", "/a3", "/a4", "/a5", "/a6", "/a7", "/a8", "/a9"])

/-- A payload that is a string of 500000 letters. -/
def bigPayload : Value := .json (.str ⟨List.replicate 500000 'a'⟩)

/-! ## `fetchJSON` (lines 451-457) -/

/-- The options that `fetchJSON(url, options)` hands to `networkManager.fetch`: the
caller's options with `useCache: options.useCache !== false` and
`useSessionCache: options.useSessionCache !== false`. -/
def fetchJSONOptions (options : Options) : Options :=
  { options with useCache := some (options.useCache != some false),
                 useSessionCache := some (options.useSessionCache != some false) }

/-- The synchronous part of `fetchJSON(url, options)`, lines 451-457. -/
def fetchJSON (env : Env) (now : Int) (url : String) (options : Options) (s : Sys) :
    FetchReturn × Sys :=
  fetch env now url (fetchJSONOptions options) s

/-- How `requestPromise` settles, given how the `executeRequest` promise settled: the
`.then` handler returns `data` (line 335), the `.catch` handler rethrows `error`
(line 342). -/
def requestPromiseOutcome : Outcome → Outcome
  | .resolved data => .resolved data
  | .rejected error => .rejected error

/-- The state in which the handler of request `id` starts to run: the request has left
`pending` and its settlement is on record. -/
def settling (id : Nat) (outcome : Outcome) (s : Sys) : Sys :=
  { s with pending := s.pending.filter (fun r => r.id != id),
           settled := s.settled ++ [(id, outcome)] }

/-- Options with `useSessionCache: true`. -/
def sessionOptions : Options := ⟨none, none, none, none, none, none, some true⟩

/-- A payload that is a string of 599972 letters; its record, with a six-digit expiry
time, serializes to 600000 code units. -/
def payload600000 : Value := .json (.str ⟨List.replicate 599972 'a'⟩)

/-- A memory tier whose entry for `GET:/a:` holds the payload `null` until time 100. -/
def nullEntrySys : Sys :=
  { freshSys with nm := ⟨[("GET:/a:", ⟨jsNull, 100⟩)], [], [], 0⟩ }

/-- A system whose session storage holds, for the key `GET:/site/filters-dynamic:`, the
payload 7 with expiry time 600010. -/
def filtersStored : Sys :=
  Sys.init ⟨[("mdc_cache_v1_R0VUOi9zaXRlL2ZpbHRlcnMtZHluYW1pYzo",
    "\x7b\"data\":7,\"expires\":600010\x7d")], false, 5000000⟩

/-- A system whose session storage holds the record of `sessionAt100`. -/
def storedAt100 : Sys := Sys.init sessionAt100

/-- The text of a record whose data holds decimal fractions, with the expiry time
100.5. -/
def priceRecord : String :=
  "\x7b\"data\":\x7b\"price\":99.5,\"lat\":46.77\x7d,\"expires\":100.5\x7d"

/-- The data of `priceRecord`: `{ price: 99.5, lat: 46.77 }`. -/
def priceData : Json :=
  .obj [("price", .dec false 99 [] 4), ("lat", .dec false 46 [7] 6)]

/-- A session storage that holds `priceRecord` for the key `GET:/a:`. -/
def sessionWithPrices : Storage :=
  ⟨[("mdc_cache_v1_R0VUOi9hOg", priceRecord)], false, 5000000⟩

/-- The state after `fetch('/site/properties?page=1')` on a fresh manager has succeeded
with the payload 7 at time 10: both tiers hold the payload. -/
def propertiesCached : Sys :=
  settle 10 0 (.resolved (.json (.num 7)))
    (fetch plainEnv 0 "/site/properties?page=1" Options.empty freshSys).2

/-- The state after seven calls of `fetch` (the seventh, for `/q`, is queued) and the
success of the seventh request with the payload 7 at time 10. -/
def queuedSettled : Sys :=
  run plainEnv freshSys
    (fetchAll ["/a0", "/a1", "/a2", "/a3", "/a4", "/a5", "/q"]
      ++ [Event.settle 10 6 (.resolved (.json (.num 7)))])

/-- Options with a method and a body only. -/
def methodBody (method : String) (body : Option Json) : Options :=
  ⟨some method, body, none, none, none, none, none⟩

/-! ## The persistent-tier operations with every platform call able to throw

The definitions above let a platform call throw when the platform must (a blocked
storage, an exceeded quota, a character that `btoa` rejects, a text that is not JSON).
Here any call may throw in addition, as a value of `Faults` says, and a function
gives `none` when an exception leaves it; the storage is given as the exception leaves
it. -/

/-- Which platform calls throw, beyond the cases in which they must. -/
structure Faults where
  btoa : String → Bool
  parse : String → Bool
  stringify : Value → Int → Bool
  getItem : String → Bool
  setItem : String → String → Bool
  removeItem : String → Bool
  length : Bool
  key : Nat → Bool

/-- No call throws beyond the cases in which it must. -/
def Faults.none : Faults :=
  ⟨fun _ => false, fun _ => false, fun _ _ => false, fun _ => false, fun _ _ => false,
    fun _ => false, false, fun _ => false⟩

/-- `try { body } catch { handler }`, for computations on the session storage: `body`
gives its value, or `none` when it throws, and the storage as it leaves it. -/
def tryCatch {α : Type} (body : Option α × Storage)
    (handler : Storage → Option α × Storage) : Option α × Storage :=
  match body.1 with
  | some a => (some a, body.2)
  | none => handler body.2

def getSessionKeyF (f : Faults) (cacheKey : String) : Option String :=
  if f.btoa cacheKey then none else getSessionKey cacheKey

def getItemF (f : Faults) (st : Storage) (k : String) : Option (Option String) :=
  if f.getItem k then none else st.getItem k

def setItemF (f : Faults) (st : Storage) (k v : String) : Option Storage :=
  if f.setItem k v then none else st.setItem k v

def removeItemF (f : Faults) (st : Storage) (k : String) : Option Storage :=
  if f.removeItem k then none else st.removeItem k

def parseF (f : Faults) (text : String) : Option Json :=
  if f.parse text then none else jsonParse text

def stringifyF (f : Faults) (data : Value) (expires : Int) : Option String :=
  if f.stringify data expires then none else some (stringifyRecord data expires)

/-- The `removeItem(sessionKey); return null;` of lines 229-230 and 233-234. -/
def removeAndMiss (f : Faults) (st : Storage) (sessionKey : String) : Option Value × Storage :=
  match removeItemF f st sessionKey with
  | none => (none, st)
  | some st1 => (some jsNull, st1)

/-- The `try` block of `getFromSessionCache`, lines 224-236. -/
def getFromSessionCacheBody (f : Faults) (st : Storage) (now : Int) (cacheKey : String) :
    Option Value × Storage :=
  match getSessionKeyF f cacheKey with
  | none => (none, st)
  | some sessionKey =>
    match getItemF f st sessionKey with
    | none => (none, st)
    | some none => (some jsNull, st)
    | some (some stored) =>
      if !truthyString stored then (some jsNull, st)
      else
        match parseF f stored with
        | none => (none, st)
        | some cached =>
          match cached.prop "expires" with
          | none => (none, st)
          | some expires =>
            if jsGreater now expires then removeAndMiss f st sessionKey
            else if jsLength stored > MAX_SESSION_SIZE then removeAndMiss f st sessionKey
            else (cached.prop "data", st)

/-- `getFromSessionCache(cacheKey)`, lines 222-240, with `catch { return null; }`. -/
def getFromSessionCacheF (f : Faults) (st : Storage) (now : Int) (cacheKey : String) :
    Option Value × Storage :=
  tryCatch (getFromSessionCacheBody f st now cacheKey) (fun st1 => (some jsNull, st1))

/-- The `try` block of `setSessionCache`, lines 246-253. -/
def setSessionCacheBody (f : Faults) (st : Storage) (now : Int) (cacheKey : String)
    (data : Value) (ttl : Int) : Option Unit × Storage :=
  match getSessionKeyF f cacheKey with
  | none => (none, st)
  | some sessionKey =>
    match stringifyF f data (now + ttl) with
    | none => (none, st)
    | some serialized =>
      if jsLength serialized > MAX_SESSION_SIZE then (some (), st)
      else
        match setItemF f st sessionKey serialized with
        | none => (none, st)
        | some st1 => (some (), st1)

/-- `setSessionCache(cacheKey, data, ttl)`, lines 244-257; the `catch` only logs. -/
def setSessionCacheF (f : Faults) (st : Storage) (now : Int) (cacheKey : String)
    (data : Value) (ttl : Int) : Option Unit × Storage :=
  tryCatch (setSessionCacheBody f st now cacheKey data ttl) (fun st1 => (some (), st1))

/-- The `keysToRemove.forEach(k => sessionStorage.removeItem(k))` of lines 277 and 404:
the removals made before one throws stay made. -/
def removeAllF (f : Faults) (st : Storage) : List String → Option Unit × Storage
  | [] => (some (), st)
  | k :: ks =>
    match removeItemF f st k with
    | none => (none, st)
    | some st1 => removeAllF f st1 ks

/-- The inner `try` of the sweep, lines 269-274, with its `catch`: whether the key,
under which `stored` is held, is pushed on `keysToRemove`. -/
def sweepRemovesF (f : Faults) (now : Int) (key stored : String) : Bool :=
  if f.getItem key then true
  else
    match parseF f stored with
    | none => true
    | some cached =>
      match cached.prop "expires" with
      | none => true
      | some expires => jsGreater now expires

/-- The loop of lines 266-276 from index `i` on, over the records still to visit: the
keys to remove, or `none` when `sessionStorage.key(i)` throws. -/
def sweepLoopF (f : Faults) (now : Int) : Nat → JSMap String → Option (List String)
  | _, [] => some []
  | i, (key, stored) :: rest =>
    if f.key i then none
    else
      match sweepLoopF f now (i + 1) rest with
      | none => none
      | some ks =>
        if truthyString key && startsWith key sessionKeyHead
            && sweepRemovesF f now key stored then
          some (key :: ks)
        else some ks

/-- The `try` block of the sweep, lines 264-277. -/
def sweepSessionBody (f : Faults) (st : Storage) (now : Int) : Option Unit × Storage :=
  if f.length || st.blocked then (none, st)
  else
    match sweepLoopF f now 0 st.items with
    | none => (none, st)
    | some ks => removeAllF f st ks

/-- `cleanupExpiredCache()`, lines 258-279: the memory loop, then the `try` block with
an empty `catch`. -/
def cleanupExpiredCacheF (f : Faults) (now : Int) (s : Sys) : Option Unit × Sys :=
  let r := tryCatch (sweepSessionBody f s.session now) (fun st1 => (some (), st1))
  (r.1, { s with nm := { s.nm with memoryCache := sweepMemory now s.nm.memoryCache },
                 session := r.2 })

/-- The loop of lines 398-403 from index `i` on. -/
def clearLoopF (f : Faults) (pattern : Option String) :
    Nat → JSMap String → Option (List String)
  | _, [] => some []
  | i, (key, _) :: rest =>
    if f.key i then none
    else
      match clearLoopF f pattern (i + 1) rest with
      | none => none
      | some ks =>
        if truthyString key && startsWith key sessionKeyHead
            && (!patternGiven pattern || includes key (pattern.getD "")) then
          some (key :: ks)
        else some ks

/-- The `try` block of `clearCache`, lines 396-404. -/
def clearSessionBody (f : Faults) (pattern : Option String) (st : Storage) :
    Option Unit × Storage :=
  if f.length || st.blocked then (none, st)
  else
    match clearLoopF f pattern 0 st.items with
    | none => (none, st)
    | some ks => removeAllF f st ks

/-- `clearCache(pattern)`, lines 387-406: the memory part, then the `try` block with an
empty `catch`. -/
def clearCacheF (f : Faults) (pattern : Option String) (s : Sys) : Option Unit × Sys :=
  let r := tryCatch (clearSessionBody f pattern s.session) (fun st1 => (some (), st1))
  (r.1, { s with nm := { s.nm with memoryCache := clearMemory pattern s.nm.memoryCache },
                 session := r.2 })

/-- A session storage whose record for `GET:/a:` is not JSON. -/
def corruptStore : Storage :=
  ⟨[("mdc_cache_v1_R0VUOi9hOg", "\x7bnot json")], false, 5000000⟩

/-! ### Responses that carry the time at which they were obtained -/

/-- A payload that is the time `t` at which the transport gave it. -/
def stamp (t : Int) : Value := .json (.num t)

/-- Whether `fetch(url, options)` uses the persistent tier (line 303). -/
def usesSession (url : String) (options : Options) : Bool :=
  options.useSessionCache.getD false || shouldUseSessionCache url

/-- An event of a run in which every response carries the time at which it was obtained;
with `session` false, no `fetch` of the run uses the persistent tier. -/
def Event.timestamped (session : Bool) : Event → Prop
  | .fetch _ url options => session = false → usesSession url options = false
  | .settle now _ (.resolved data) => data = stamp now
  | .settle _ _ (.rejected _) => True
  | .cleanup _ => True
  | .clearCache _ => True

/-- How long after it was obtained a payload may stay in the memory tier: `MEMORY_TTL`,
and `SESSION_TTL + MEMORY_TTL` when the persistent tier is in use. -/
def memoryBound (session : Bool) : Int :=
  if session then SESSION_TTL + MEMORY_TTL else MEMORY_TTL

/-- Every memory entry holds a stamped payload and expires at most `memoryBound` after
the stamp. -/
def StampedEntries (session : Bool) (m : JSMap CacheEntry) : Prop :=
  ∀ kv ∈ m, ∃ t, kv.2.data = stamp t ∧ kv.2.expires ≤ t + memoryBound session

/-- Every stored record is the serialization of a stamped payload with an expiry time at
most `SESSION_TTL` after the stamp; there is none when the persistent tier is not in use. -/
def StampedRecords (session : Bool) (st : Storage) : Prop :=
  ∀ kv ∈ st.items, session = true
    ∧ ∃ t e, kv.2 = stringifyRecord (stamp t) e ∧ e ≤ t + SESSION_TTL

/-- The two tiers hold stamped payloads only, within their bounds, and a pending request
writes to the persistent tier only when that tier is in use. -/
def Fresh (session : Bool) (s : Sys) : Prop :=
  StampedEntries session s.nm.memoryCache
  ∧ StampedRecords session s.session
  ∧ ∀ r ∈ s.pending, r.useSession = true → session = true

/-- A run on `/site/properties`: the response obtained at time 0 is stored in both tiers,
and the call at time 600000 finds it in the persistent tier. -/
def promotionRun : List Event :=
  [Event.fetch 0 "/site/properties" Options.empty,
   Event.settle 0 0 (.resolved (stamp 0)),
   Event.fetch 600000 "/site/properties" Options.empty]

/-- The admission invariant: the counter and the queue account for the requests that
have not settled (a queued request counts in the queue, not in the counter); the
counter never exceeds the ceiling, which it has reached whenever a request is queued;
and the pending requests bear different promise numbers, all given already. -/
def AdmissionInv (s : Sys) : Prop :=
  s.nm.activeRequests + s.nm.requestQueue.length = s.pending.length
  ∧ s.nm.activeRequests ≤ CONCURRENT_REQUESTS
  ∧ (s.nm.requestQueue ≠ [] → s.nm.activeRequests = CONCURRENT_REQUESTS)
  ∧ (∀ r ∈ s.pending, r.id < s.nextId)
  ∧ (s.pending.map (fun r => r.id)).Nodup

/-- A transport whose every response has status 200 and the payload 7. -/
def always200 : Nat → Attempt := fun _ => .response 200 (.ok (.num 7))

/-- Options with `retries: -1`. -/
def negativeRetries : Options := ⟨none, none, none, some (-1), none, none, none⟩

/-- The address of the filters endpoint, which holds both `webhook` and `n8n`. -/
def filtersUrl : String := "https://n8n.flwrks.com/webhook/site/filters-dynamic"

/-- The same address with the `_origin` parameter of a page at `https://example.com`. -/
def filtersUrlWithOrigin : String :=
  "https://n8n.flwrks.com/webhook/site/filters-dynamic?_origin=https%3A%2F%2Fexample.com"

/-- A page at `https://example.com`: lines 296-299 turn the address of the filters
endpoint into the address with `_origin`, and the `URL` constructor rejects every other
address. -/
def originEnv : Env := ⟨fun u => if u = filtersUrl then some filtersUrlWithOrigin else none⟩

/-- Six requests are active, a seventh, for the filters endpoint, is queued, and the
first request succeeds: `processQueue` takes the seventh from the queue. -/
def webhookDequeued : Sys :=
  run originEnv freshSys
    (fetchAll ["/a0", "/a1", "/a2", "/a3", "/a4", "/a5", filtersUrl]
      ++ [Event.settle 10 0 (.resolved (.json (.num 7)))])

/-- Every queued entry belongs to a request that was started with the promise of the
entry and with the cache key of the entry's address as `fetch` rewrites it. -/
def QueueKeys (env : Env) (s : Sys) : Prop :=
  ∀ e ∈ s.nm.requestQueue, ∃ r ∈ s.started,
    r.id = e.promise ∧ r.cacheKey = getCacheKey (requestUrlOf env e.url) e.options

/-- The state after `fetch('/search?q=abc>d', { useSessionCache: true })` on a fresh
manager has succeeded with the payload 7 at time 10. -/
def searchCached : Sys :=
  settle 10 0 (.resolved (.json (.num 7)))
    (fetch plainEnv 0 "/search?q=abc>d" sessionOptions freshSys).2
/-- A character in `[A-Za-z0-9]`. -/
def isAlnum (c : Char) : Bool :=
  (65 ≤ c.toNat && c.toNat ≤ 90) || (97 ≤ c.toNat && c.toNat ≤ 122)
    || (48 ≤ c.toNat && c.toNat ≤ 57)

/-- A `Map`, and the session storage, hold each key once. -/
def JSMap.keysDistinct {α : Type} (m : JSMap α) : Prop := (m.map (fun kv => kv.1)).Nodup

/-- A state with an expired and a valid entry in each tier, at time 200: the entries
of `GET:/a:` expired at time 100, those of `GET:/b:` are valid until time 900. -/
def halfExpired : Sys :=
  { freshSys with
    nm := ⟨[("GET:/a:", ⟨.json (.num 1), 100⟩), ("GET:/b:", ⟨.json (.num 2), 900⟩)], [], [], 0⟩,
    session := ⟨[("mdc_cache_v1_R0VUOi9hOg", "\x7b\"data\":1,\"expires\":100\x7d"),
                 ("mdc_cache_v1_R0VUOi9iOg", "\x7b\"data\":2,\"expires\":900\x7d")],
                false, 5000000⟩ }

/-! ## The clean addresses of the results page (lines 36-150)

Object lookups such as `TYPE_TO_SLUG[typeNorm]` are modelled on the properties written
in the source; a name inherited from `Object.prototype` (`constructor`, `toString`, ...)
is outside the modelled universe. -/

/-- White space, as `trim` and the class `\s` take it. -/
def isSpaceChar (c : Char) : Bool :=
  c.toNat == 32 || (9 ≤ c.toNat && c.toNat ≤ 13) || c.toNat == 160 || c.toNat == 5760
    || (8192 ≤ c.toNat && c.toNat ≤ 8202) || c.toNat == 8232 || c.toNat == 8233
    || c.toNat == 8239 || c.toNat == 8287 || c.toNat == 12288 || c.toNat == 65279

/-- The characters of `s.trim()`. -/
def trimChars (cs : List Char) : List Char :=
  ((cs.dropWhile isSpaceChar).reverse.dropWhile isSpaceChar).reverse

/-- The lower-case form of one character: exact on ASCII and on the Romanian capital
letters with diacritics (U+0102, U+00C2, U+00CE, U+0218, U+015E, U+021A, U+0162); other
characters are left as they are. -/
def lowerChar (c : Char) : Char :=
  if 65 ≤ c.toNat && c.toNat ≤ 90 then Char.ofNat (c.toNat + 32)
  else if c.toNat = 258 then Char.ofNat 259
  else if c.toNat = 194 then Char.ofNat 226
  else if c.toNat = 206 then Char.ofNat 238
  else if c.toNat = 536 then Char.ofNat 537
  else if c.toNat = 350 then Char.ofNat 351
  else if c.toNat = 538 then Char.ofNat 539
  else if c.toNat = 354 then Char.ofNat 355
  else c

/-- The characters of `s.toLowerCase()`. -/
def toLowerChars (cs : List Char) : List Char := cs.map lowerChar

/-- The seven replacements of line 39: U+0103 and U+00E2 become `a`, U+00EE becomes
`i`, U+0219 and U+015F become `s`, U+021B and U+0163 become `t`. -/
def plainLetter (c : Char) : Char :=
  if c.toNat = 259 then 'a'
  else if c.toNat = 226 then 'a'
  else if c.toNat = 238 then 'i'
  else if c.toNat = 537 then 's'
  else if c.toNat = 351 then 's'
  else if c.toNat = 539 then 't'
  else if c.toNat = 355 then 't'
  else c

/-- A character of `[a-z0-9]`. -/
def isLowerAlnum (c : Char) : Bool :=
  (97 ≤ c.toNat && c.toNat ≤ 122) || (48 ≤ c.toNat && c.toNat ≤ 57)

/-- Every maximal run of characters for which `keep` fails becomes one `-`; `inRun`
says that the character before was of such a run. This is `.replace(/[^a-z0-9]+/g,
'-')` with `keep = isLowerAlnum` and `.replace(/\s+/g, '-')` with `keep` the
complement of `isSpaceChar`. -/
def dashRuns (keep : Char → Bool) : Bool → List Char → List Char
  | _, [] => []
  | inRun, c :: cs =>
    if keep c then c :: dashRuns keep false cs
    else if inRun then dashRuns keep true cs
    else '-' :: dashRuns keep true cs

/-- Leading and trailing occurrences of `c` removed: `.replace(/^-+|-+$/g, '')` for
`-`, `.replace(/^\/+|\/+$/g, '')` for `/`. -/
def stripEnds (c : Char) (cs : List Char) : List Char :=
  ((cs.dropWhile (fun d => d == c)).reverse.dropWhile (fun d => d == c)).reverse

/-- `slugifyCity(str)`, lines 36-42; `none` is a value that is not a string. -/
def slugifyCity (str : Option String) : String :=
  match str with
  | none => ""
  | some s =>
    if !truthyString s then ""
    else
      ⟨stripEnds '-' (dashRuns isLowerAlnum false
        ((toLowerChars (trimChars s.data)).map plainLetter))⟩

/-- `TYPE_TO_SLUG`, lines 43-51. -/
def TYPE_TO_SLUG : List (String × String) :=
  [("apartament", "apartamente"), ("casa", "case"), ("vila", "case"), ("teren", "terenuri"),
   ("spatiu comercial", "spatii-comerciale"), ("spațiu comercial", "spatii-comerciale"),
   ("birou", "birouri"), ("hala", "hale"), ("hotel", "hoteluri-pensiuni"),
   ("pensiune", "hoteluri-pensiuni"), ("hotel / pensiune", "hoteluri-pensiuni")]

/-- `SLUG_TO_TYPE`, lines 52-61; `none` is the value `null`. -/
def SLUG_TO_TYPE : List (String × Option String) :=
  [("apartamente", some "apartament"), ("case", some "casa"), ("terenuri", some "teren"),
   ("spatii-comerciale", some "spatiu comercial"), ("birouri", some "birou"),
   ("hale", some "hala"), ("hoteluri-pensiuni", some "apartament"), ("proprietati", none)]

/-- `CITY_SLUG_TO_NAME`, lines 62-83. -/
def CITY_SLUG_TO_NAME : List (String × String) :=
  [("cluj-napoca", "Cluj-Napoca"), ("bucuresti", "București"), ("timisoara", "Timișoara"),
   ("iasi", "Iași"), ("constanta", "Constanța"), ("craiova", "Craiova"),
   ("brasov", "Brașov"), ("galati", "Galați"), ("ploiesti", "Ploiești"),
   ("oradea", "Oradea"), ("sibiu", "Sibiu"), ("arad", "Arad"), ("pitesti", "Pitești"),
   ("bacau", "Bacău"), ("targu-mures", "Târgu Mureș"), ("baia-mare", "Baia Mare"),
   ("buzau", "Buzău"), ("satu-mare", "Satu Mare"), ("botosani", "Botoșani"),
   ("suceava", "Suceava")]

/-- The own property `name` of an object literal. -/
def lookupProp {α : Type} (name : String) : List (String × α) → Option α
  | [] => none
  | (k, v) :: rest => if k = name then some v else lookupProp name rest

/-- A character of `[a-z0-9-]` with the flag `i`. -/
def isSlugChar (c : Char) : Bool :=
  isLowerAlnum c || (65 ≤ c.toNat && c.toNat ≤ 90) || c == '-'

/-- The prefix of line 90 for a type that is a non-empty string. -/
def typePrefix (type : String) : String :=
  let typeNorm := trimChars (toLowerChars type.data)
  match lookupProp ⟨typeNorm⟩ TYPE_TO_SLUG with
  | some slug => slug
  | none =>
    let cleaned :=
      toLowerChars ((dashRuns (fun c => !isSpaceChar c) false typeNorm).filter isSlugChar)
    if cleaned.isEmpty then "proprietati" else ⟨cleaned⟩

/-- `buildResultsCleanUrl({ transaction, type, city })`, lines 84-95; `none` is an
absent property, and the result `none` is `null`. -/
def buildResultsCleanUrl (transaction type city : Option String) : Option String :=
  match transaction, city with
  | some tr, some c =>
    if !truthyString tr || !truthyString c then none
    else
      let trSlug := if tr = "rent" then "de-inchiriere" else "de-vanzare"
      let citySlug := slugifyCity (some c)
      if !truthyString citySlug then none
      else
        let head :=
          match type with
          | some ty => if truthyString ty then typePrefix ty else "proprietati"
          | none => "proprietati"
        some ("/" ++ head ++ "-" ++ trSlug ++ "-" ++ citySlug)
  | _, _ => none

/-- The pieces of `s.split(sep)` for a non-empty separator; `skip` counts the characters
of a separator just found that are still to be passed over, `acc` holds the current
piece in reverse. -/
def splitOnChars (sep : List Char) : Nat → List Char → List Char → List (List Char)
  | _, [], acc => [acc.reverse]
  | skip + 1, _ :: cs, acc => splitOnChars sep skip cs acc
  | 0, c :: cs, acc =>
    if startsWithChars sep (c :: cs) then acc.reverse :: splitOnChars sep (sep.length - 1) cs []
    else splitOnChars sep 0 cs (c :: acc)

/-- The pieces of `xs.join(sep)`. -/
def joinChars (sep : List Char) : List (List Char) → List Char
  | [] => []
  | [x] => x
  | x :: y :: rest => x ++ sep ++ joinChars sep (y :: rest)

/-- A character of the class `\w`. -/
def isWordChar (c : Char) : Bool :=
  isLowerAlnum c || (65 ≤ c.toNat && c.toNat ≤ 90) || c == '_'

/-- `.replace(/\b\w/g, c => c.toUpperCase())`: a word character that follows none is
put in upper case; `afterWord` says that the character before was a word character. -/
def capitalizeWords : Bool → List Char → List Char
  | _, [] => []
  | afterWord, c :: cs =>
    (if isWordChar c && !afterWord then c.toUpper else c) :: capitalizeWords (isWordChar c) cs

/-- What `parseResultsFromUrl` reads: the path, and the name-value pairs that
`new URLSearchParams(location.search)` holds (none for an empty `search`). -/
structure Location where
  pathname : String
  query : List (String × String)

/-- The object that `parseResultsFromUrl` returns; `none` is an absent property, and
for `tip` the value `some none` is `null`. -/
structure Results where
  transaction : String
  scope : String
  tip : Option (Option String)
  city : Option String
  zone : Option String
  country : Option String
  rooms : Option Int
  min_price : Option Int
  max_price : Option Int
  deriving DecidableEq

/-- `params.get(k)`; `none` is `null`. -/
def queryGet (query : List (String × String)) (k : String) : Option String :=
  lookupProp k query

/-- `getNum(k)`, line 102; `none` is `null`. Decimal integers only, as `toNumber`. -/
def getNum (query : List (String × String)) (k : String) : Option Int :=
  match queryGet query k with
  | some v => if truthyString v then stringToNumber v.data else none
  | none => none

/-- `getDecoded(k)`, line 103, for a given `decodeURIComponent`, which gives `none` when
it throws; the outer `none` is an exception, the inner one `null`. -/
def getDecoded (decode : String → Option String) (query : List (String × String))
    (k : String) : Option (Option String) :=
  match queryGet query k with
  | some v => if truthyString v then (decode v).map some else some none
  | none => some none

/-- `a || b` for two values that are a string or `null`. -/
def orElse (a b : Option String) : Option String :=
  match a with
  | some s => if truthyString s then some s else b
  | none => b

/-- A property of the legacy object after the deletions of lines 115-117. -/
def keptProp (v : Option String) : Option String :=
  match v with
  | some s => if truthyString s then some s else none
  | none => none

/-- The part of `parseResultsFromUrl` that reads the path, lines 122-132. -/
def parsePath (pathname : String) : Results :=
  let path := stripEnds '/' pathname.data
  let parts := if path.isEmpty then [] else splitOnChars "-de-".data 0 path []
  match parts with
  | typeSlug :: trSlug :: p2 :: more =>
    let citySlug := joinChars ['-'] (p2 :: more)
    let transaction :=
      if trSlug = "inchiriere".data then "rent"
      else if trSlug = "vanzare".data then "sale" else "any"
    let tip : Option String :=
      match lookupProp ⟨typeSlug⟩ SLUG_TO_TYPE with
      | some t => t
      | none =>
        if typeSlug = "proprietati".data then none
        else some ⟨typeSlug.map (fun c => if c = '-' then ' ' else c)⟩
    let city : String :=
      match lookupProp ⟨citySlug⟩ CITY_SLUG_TO_NAME with
      | some name => if truthyString name then name
        else ⟨capitalizeWords false (citySlug.map (fun c => if c = '-' then ' ' else c))⟩
      | none => ⟨capitalizeWords false (citySlug.map (fun c => if c = '-' then ' ' else c))⟩
    ⟨transaction, "any", some tip, some city, none, none, none, none, none⟩
  | _ => ⟨"any", "any", none, none, none, none, none, none, none⟩

/-- `getDecoded('type') || getDecoded('tip')`, lines 108 and 135: the second call is
made only when the first gives a falsy value. -/
def decodedTip (decode : String → Option String) (query : List (String × String)) :
    Option (Option String) :=
  match getDecoded decode query "type" with
  | none => none
  | some (some t) => if truthyString t then some (some t) else getDecoded decode query "tip"
  | some none => getDecoded decode query "tip"

/-- The legacy branch of `parseResultsFromUrl`, lines 104-121. -/
def parseLegacy (decode : String → Option String) (q : List (String × String)) :
    Option Results :=
  match decodedTip decode q, getDecoded decode q "city", getDecoded decode q "zone",
      getDecoded decode q "country" with
  | some tip, some city, some zone, some country =>
    some ⟨(orElse (queryGet q "transaction") (some "any")).getD "any",
      (orElse (queryGet q "scope") (some "any")).getD "any",
      (keptProp tip).map some, keptProp city, keptProp zone, keptProp country,
      getNum q "rooms", getNum q "min_price", getNum q "max_price"⟩
  | _, _, _, _ => none

/-- `parseResultsFromUrl(location)`, lines 96-150, for a given `decodeURIComponent`;
`none` when that function throws. -/
def parseResultsFromUrl (decode : String → Option String) (location : Location) :
    Option Results :=
  let q := location.query
  if location.pathname = "/results" || location.pathname = "/rezultate" then
    parseLegacy decode q
  else
    let r := parsePath location.pathname
    match getDecoded decode q "scope", decodedTip decode q, getDecoded decode q "zone",
        getDecoded decode q "country" with
    | some scope, some tip, some zone, some country =>
      some { r with
        scope := (orElse (orElse scope (queryGet q "scope")) (some r.scope)).getD r.scope,
        tip := match keptProp tip with
          | some t => some (some t)
          | none => r.tip,
        zone := keptProp zone,
        country := keptProp country,
        rooms := getNum q "rooms",
        min_price := getNum q "min_price",
        max_price := getNum q "max_price" }
    | _, _, _, _ => none

/-! ## Reading a JSON text

Definitions used to show that `JSON.stringify` gives different texts for different
values, and that the cache key tells its parts apart. -/

/-- A character of a number text: a digit, a sign, the decimal point or the exponent
mark. -/
def isNumChar (c : Char) : Bool := isDigit c || c == '-' || c == '.' || c == 'e'

/-- What follows a value in a text does not go on with a number: it is the end of the
text or a character that no number text holds. -/
def Terminated : List Char → Prop
  | [] => True
  | c :: _ => isNumChar c = false

/-- The inverse of `escapeChar`: reads one character of a string literal, escaped or
plain, and gives it with the rest of the text. -/
def unescapeHead : List Char → Option (Char × List Char)
  | [] => none
  | c :: cs =>
    if c = backslash then
      match cs with
      | [] => none
      | e :: rest =>
        if e = 'u' then
          match rest with
          | _ :: _ :: a :: b :: rest2 =>
            match hexVal a, hexVal b with
            | some x, some y => some (Char.ofNat (x * 16 + y), rest2)
            | _, _ => none
          | _ => none
        else if e = 'b' then some (Char.ofNat 8, rest)
        else if e = 't' then some (Char.ofNat 9, rest)
        else if e = 'n' then some (Char.ofNat 10, rest)
        else if e = 'f' then some (Char.ofNat 12, rest)
        else if e = 'r' then some (Char.ofNat 13, rest)
        else some (e, rest)
    else some (c, cs)

/-- The state of a reader that goes through a JSON text from left to right: whether it
is inside a string literal, whether the last character was an escaping backslash, and
how many brackets and braces are open. -/
structure Scan where
  inStr : Bool
  esc : Bool
  depth : Int

/-- The reader takes one character. -/
def Scan.step (q : Scan) (c : Char) : Scan :=
  if q.esc then ⟨q.inStr, false, q.depth⟩
  else if c = backslash then ⟨q.inStr, true, q.depth⟩
  else if c = dquote then ⟨!q.inStr, false, q.depth⟩
  else if q.inStr then q
  else if c = '[' ∨ c = Char.ofNat 123 then ⟨false, false, q.depth + 1⟩
  else if c = ']' ∨ c = Char.ofNat 125 then ⟨false, false, q.depth - 1⟩
  else q

/-- The reader takes a text. -/
def scan (q : Scan) (l : List Char) : Scan := l.foldl Scan.step q

/-- Every colon of the text is read inside a string literal or with more than `d`
brackets and braces open. -/
def colonsInside (d : Int) : Scan → List Char → Prop
  | _, [] => True
  | q, c :: cs =>
    (c = ':' → (q.step c).inStr = true ∨ d < (q.step c).depth) ∧ colonsInside d (q.step c) cs

/-- A character that changes nothing for a reader outside a string literal, and is no
colon. -/
def isPlainChar (c : Char) : Bool :=
  !(c == backslash || c == dquote || c == '[' || c == ']' || c == Char.ofNat 123
    || c == Char.ofNat 125 || c == ':')

/-! # Theorems -/

/-! ## Maps -/

theorem JSMap.get_set_self {α : Type} (m : JSMap α) (k : String) (v : α) :
    JSMap.get (JSMap.set m k v) k = some v := by
  induction m with
  | nil => simp [JSMap.set, JSMap.get]
  | cons p rest ih =>
    obtain ⟨k1, v1⟩ := p
    by_cases h : k1 = k
    · simp [JSMap.set, JSMap.get, h]
    · simp [JSMap.set, JSMap.get, h, ih]

theorem JSMap.get_set_other {α : Type} (m : JSMap α) (k k2 : String) (v : α) (h : k ≠ k2) :
    JSMap.get (JSMap.set m k v) k2 = JSMap.get m k2 := by
  induction m with
  | nil => simp [JSMap.set, JSMap.get, h]
  | cons p rest ih =>
    obtain ⟨k1, v1⟩ := p
    by_cases h1 : k1 = k
    · subst h1
      simp [JSMap.set, JSMap.get, h]
    · by_cases h2 : k1 = k2
      · subst h2
        simp [JSMap.set, JSMap.get, h1]
      · simp [JSMap.set, JSMap.get, h1, h2, ih]

theorem JSMap.get_delete_self {α : Type} (m : JSMap α) (k : String) :
    JSMap.get (JSMap.delete m k) k = none := by
  induction m with
  | nil => simp [JSMap.delete, JSMap.get]
  | cons p rest ih =>
    obtain ⟨k1, v1⟩ := p
    by_cases h : k1 = k
    · simp [JSMap.delete, h, ih]
    · simp [JSMap.delete, JSMap.get, h, ih]

theorem JSMap.get_delete_other {α : Type} (m : JSMap α) (k k2 : String) (h : k ≠ k2) :
    JSMap.get (JSMap.delete m k) k2 = JSMap.get m k2 := by
  induction m with
  | nil => simp [JSMap.delete, JSMap.get]
  | cons p rest ih =>
    obtain ⟨k1, v1⟩ := p
    by_cases h1 : k1 = k
    · subst h1
      simp [JSMap.delete, JSMap.get, h, ih]
    · by_cases h2 : k1 = k2
      · subst h2
        simp [JSMap.delete, JSMap.get, h1]
      · simp [JSMap.delete, JSMap.get, h1, h2, ih]

theorem JSMap.mem_of_get {α : Type} (m : JSMap α) (k : String) (v : α)
    (h : JSMap.get m k = some v) : (k, v) ∈ m := by
  induction m with
  | nil => simp [JSMap.get] at h
  | cons kv rest ih =>
    obtain ⟨k1, v1⟩ := kv
    simp only [JSMap.get] at h
    split_ifs at h with hk
    · injection h with h
      subst hk
      subst h
      exact List.mem_cons_self _ _
    · exact List.mem_cons_of_mem _ (ih h)

theorem JSMap.mem_set {α : Type} (m : JSMap α) (k : String) (v : α) (x : String × α)
    (h : x ∈ JSMap.set m k v) : x ∈ m ∨ x = (k, v) := by
  induction m with
  | nil =>
    simp only [JSMap.set, List.mem_singleton] at h
    exact Or.inr h
  | cons kv rest ih =>
    obtain ⟨k1, v1⟩ := kv
    simp only [JSMap.set] at h
    split_ifs at h with hk
    · rcases List.mem_cons.mp h with h | h
      · subst hk
        exact Or.inr h
      · exact Or.inl (List.mem_cons_of_mem _ h)
    · rcases List.mem_cons.mp h with h | h
      · exact Or.inl (h ▸ List.mem_cons_self _ _)
      · rcases ih h with h | h
        · exact Or.inl (List.mem_cons_of_mem _ h)
        · exact Or.inr h

theorem JSMap.mem_delete {α : Type} (m : JSMap α) (k : String) (x : String × α)
    (h : x ∈ JSMap.delete m k) : x ∈ m := by
  induction m with
  | nil => simp [JSMap.delete] at h
  | cons kv rest ih =>
    obtain ⟨k1, v1⟩ := kv
    simp only [JSMap.delete] at h
    split_ifs at h with hk
    · exact List.mem_cons_of_mem _ (ih h)
    · rcases List.mem_cons.mp h with h | h
      · exact h ▸ List.mem_cons_self _ _
      · exact List.mem_cons_of_mem _ (ih h)

theorem removeItem_items (st st1 : Storage) (k : String) (h : st.removeItem k = some st1)
    (x : String × String) (hx : x ∈ st1.items) : x ∈ st.items := by
  unfold Storage.removeItem at h
  split_ifs at h
  injection h with h
  subst h
  exact JSMap.mem_delete _ _ _ hx

theorem removeAll_items (ks : List String) : ∀ (st st1 : Storage),
    removeAll st ks = some st1 → ∀ x ∈ st1.items, x ∈ st.items := by
  induction ks with
  | nil =>
    intro st st1 h x hx
    simp only [removeAll] at h
    injection h with h
    subst h
    exact hx
  | cons k ks ih =>
    intro st st1 h x hx
    simp only [removeAll] at h
    cases hr : st.removeItem k with
    | none => simp [hr] at h
    | some st2 =>
      simp only [hr] at h
      exact removeItem_items st st2 k hr x (ih st2 st1 h x hx)

/-! ## Properties of `executeRequest` -/

theorem backoffFrom_length (d : Int) (a k : Nat) : (backoffFrom d a k).length = k := by
  induction k generalizing a with
  | zero => rfl
  | succ k ih => simp [backoffFrom, ih]

theorem backoffFrom_get (d : Int) (a k i : Nat) (h : i < k) :
    (backoffFrom d a k)[i]? = some (d * 2 ^ (a + i)) := by
  induction k generalizing a i with
  | zero => omega
  | succ k ih =>
    cases i with
    | zero => simp [backoffFrom]
    | succ i =>
      simp only [backoffFrom, List.getElem?_cons_succ]
      rw [ih (a + 1) i (by omega)]
      congr 3
      omega

theorem executeLoop_transient (url : String) (transport : Nat → Attempt) (M d : Int)
    (fuel attempt : Nat) (waits : List Int)
    (hf : failsTransiently url (transport attempt)) (hlt : ((attempt + 1 : Nat) : Int) < M) :
    executeLoop url transport M d (fuel + 1) attempt waits
      = executeLoop url transport M d fuel (attempt + 1) (waits ++ [d * 2 ^ attempt]) := by
  obtain ⟨e, he, hn, hm⟩ := hf
  have h0 : (attempt : Int) < M := by push_cast at hlt; omega
  simp only [executeLoop, h0, he, hn, hm, hlt, if_true, if_false, Nat.add_sub_cancel]
  simp

/-- After `k` transient failures with attempts to spare, the loop stands at attempt
`attempt + k` having waited the `k` backoff delays. -/
theorem executeLoop_skip (url : String) (transport : Nat → Attempt) (M d : Int) (k : Nat) :
    ∀ (fuel attempt : Nat) (waits : List Int),
      (∀ i, i < k → failsTransiently url (transport (attempt + i))) →
      ((attempt + k : Nat) : Int) < M →
      executeLoop url transport M d (fuel + k) attempt waits
        = executeLoop url transport M d fuel (attempt + k) (waits ++ backoffFrom d attempt k) := by
  induction k with
  | zero => intro fuel attempt waits _ _; simp [backoffFrom]
  | succ k ih =>
    intro fuel attempt waits hf hlt
    have h1 : ((attempt + 1 : Nat) : Int) < M := by push_cast at hlt ⊢; omega
    have hstep := executeLoop_transient url transport M d (fuel + k) attempt waits
      (by simpa using hf 0 (by omega)) h1
    have e1 : fuel + (k + 1) = fuel + k + 1 := by omega
    rw [e1, hstep, ih fuel (attempt + 1) _ (fun i hi => by
      have := hf (i + 1) (by omega)
      rwa [show attempt + (i + 1) = attempt + 1 + i by omega] at this)
      (by rwa [show attempt + 1 + k = attempt + (k + 1) by omega])]
    simp [backoffFrom, show attempt + 1 + k = attempt + (k + 1) by omega]

/-- The delays already waited stay at the head of the final list of delays. -/
theorem executeLoop_waits_head (url : String) (transport : Nat → Attempt) (M d : Int) :
    ∀ (fuel attempt : Nat) (waits : List Int),
      ∃ rest, (executeLoop url transport M d fuel attempt waits).waits = waits ++ rest := by
  intro fuel
  induction fuel with
  | zero => intro attempt waits; exact ⟨[], by simp [executeLoop]⟩
  | succ fuel ih =>
    intro attempt waits
    simp only [executeLoop]
    by_cases h0 : (attempt : Int) < M
    · simp only [h0, if_true]
      cases attemptResult url (transport attempt) with
      | ok data => exact ⟨[], by simp⟩
      | error e =>
        simp only []
        by_cases h1 : e.name = "AbortError"
        · exact ⟨[], by simp [h1]⟩
        · by_cases h2 : includes e.message "HTTP 4" = true
          · exact ⟨[], by simp [h1, h2]⟩
          · by_cases h3 : ((attempt + 1 : Nat) : Int) < M
            · obtain ⟨rest, hr⟩ := ih (attempt + 1) (waits ++ [d * 2 ^ (attempt + 1 - 1)])
              exact ⟨[d * 2 ^ (attempt + 1 - 1)] ++ rest, by simp only [h1, h2, h3, ↓reduceIte, Bool.false_eq_true]; rw [hr]; simp⟩
            · exact ⟨[], by simp only [h1, h2, h3, ↓reduceIte, Bool.false_eq_true]; simp⟩
    · exact ⟨[], by simp [h0]⟩

/-- The loop starts at most `fuel` transport calls beyond those behind it. -/
theorem executeLoop_calls_le (url : String) (transport : Nat → Attempt) (M d : Int) :
    ∀ (fuel attempt : Nat) (waits : List Int),
      (executeLoop url transport M d fuel attempt waits).calls ≤ attempt + fuel := by
  intro fuel
  induction fuel with
  | zero => intro attempt waits; simp [executeLoop]
  | succ fuel ih =>
    intro attempt waits
    simp only [executeLoop]
    by_cases h0 : (attempt : Int) < M
    · simp only [h0, if_true]
      cases attemptResult url (transport attempt) with
      | ok data => simp only []; omega
      | error e =>
        simp only []
        by_cases h1 : e.name = "AbortError"
        · simp only [h1, if_true]; omega
        · by_cases h2 : includes e.message "HTTP 4" = true
          · simp only [h1, h2, ↓reduceIte, Bool.false_eq_true]; omega
          · by_cases h3 : ((attempt + 1 : Nat) : Int) < M
            · simp only [h1, h2, h3, ↓reduceIte, Bool.false_eq_true]
              have := ih (attempt + 1) (waits ++ [d * 2 ^ (attempt + 1 - 1)]); omega
            · simp only [h1, h2, h3, ↓reduceIte, Bool.false_eq_true]; omega
    · simp only [h0, if_false]; omega

/-- A loop with enough fuel that resolves does so with the payload of the first
successful attempt, every earlier attempt having failed. -/
theorem executeLoop_resolved (url : String) (transport : Nat → Attempt) (M d : Int) :
    ∀ (fuel attempt : Nat) (waits : List Int) (v : Value),
      M ≤ ((attempt + fuel : Nat) : Int) → (attempt : Int) < M →
      (executeLoop url transport M d fuel attempt waits).outcome = .resolved v →
      ∃ k data, attempt ≤ k ∧ attemptResult url (transport k) = .ok data ∧ v = .json data
        ∧ (∀ i, attempt ≤ i → i < k → ∃ e, attemptResult url (transport i) = .error e)
        ∧ (executeLoop url transport M d fuel attempt waits).calls = k + 1 := by
  intro fuel
  induction fuel with
  | zero => intro attempt waits v hM h0; simp at hM; omega
  | succ fuel ih =>
    intro attempt waits v hM h0
    simp only [executeLoop, h0, if_true]
    cases hr : attemptResult url (transport attempt) with
    | ok data =>
      simp only []
      intro hv
      refine ⟨attempt, data, le_refl _, hr, ?_, fun i h1 h2 => by omega, rfl⟩
      injection hv with hv
      exact hv.symm
    | error e =>
      simp only []
      by_cases h1 : e.name = "AbortError"
      · simp [h1]
      · by_cases h2 : includes e.message "HTTP 4" = true
        · simp [h1, h2]
        · by_cases h3 : ((attempt + 1 : Nat) : Int) < M
          · simp only [h1, h2, h3, ↓reduceIte, Bool.false_eq_true]
            intro hv
            obtain ⟨k, data, hk, hok, hvd, hbefore, hcalls⟩ :=
              ih (attempt + 1) _ v (by push_cast at hM ⊢; omega) h3 hv
            refine ⟨k, data, by omega, hok, hvd, fun i hi1 hi2 => ?_, hcalls⟩
            by_cases hia : i = attempt
            · subst hia; exact ⟨e, hr⟩
            · exact hbefore i (by omega) hi2
          · simp only [h1, h2, h3, ↓reduceIte, Bool.false_eq_true]
            intro hv
            cases hv

theorem executeLoop_ok (url : String) (transport : Nat → Attempt) (M d : Int)
    (fuel attempt : Nat) (waits : List Int) (data : Json)
    (h0 : (attempt : Int) < M) (hr : attemptResult url (transport attempt) = .ok data) :
    executeLoop url transport M d (fuel + 1) attempt waits
      = ⟨.resolved (.json data), attempt + 1, waits⟩ := by
  simp only [executeLoop, h0, hr, ↓reduceIte]

theorem executeLoop_terminal (url : String) (transport : Nat → Attempt) (M d : Int)
    (fuel attempt : Nat) (waits : List Int) (e : JsError)
    (h0 : (attempt : Int) < M) (hr : attemptResult url (transport attempt) = .error e)
    (ht : e.name = "AbortError" ∨ includes e.message "HTTP 4" = true) :
    executeLoop url transport M d (fuel + 1) attempt waits
      = ⟨.rejected e, attempt + 1, waits⟩ := by
  simp only [executeLoop, h0, hr, ↓reduceIte]
  rcases ht with ht | ht
  · simp only [ht, ↓reduceIte]
  · by_cases h1 : e.name = "AbortError"
    · simp only [h1, ↓reduceIte]
    · simp only [h1, ht, ↓reduceIte]

theorem executeLoop_exhausted (url : String) (transport : Nat → Attempt) (M d : Int)
    (fuel attempt : Nat) (waits : List Int) (e : JsError)
    (h0 : (attempt : Int) < M) (hlast : ¬ ((attempt + 1 : Nat) : Int) < M)
    (hr : attemptResult url (transport attempt) = .error e) :
    executeLoop url transport M d (fuel + 1) attempt waits
      = ⟨.rejected e, attempt + 1, waits⟩ := by
  simp only [executeLoop, h0, hr, ↓reduceIte]
  by_cases h1 : e.name = "AbortError"
  · simp only [h1, ↓reduceIte]
  · cases h2 : includes e.message "HTTP 4"
    · simp only [h1, hlast, ↓reduceIte, Bool.false_eq_true]
    · simp only [h1, ↓reduceIte]

/-- The run of `executeRequest` whose first `k` attempts fail transiently, `k` being at
most `retries`: it stands before attempt `k` with the `k` backoff delays waited. -/
theorem executeRequest_skip (url : String) (transport : Nat → Attempt) (retries d : Int)
    (k : Nat) (hk : (k : Int) ≤ retries)
    (hfail : ∀ i, i < k → failsTransiently url (transport i)) :
    executeRequest url retries d transport
      = executeLoop url transport (retries + 1) d ((retries + 1).toNat - k) k
          (backoffFrom d 0 k) := by
  have hfuel : (retries + 1).toNat = ((retries + 1).toNat - k) + k := by omega
  unfold executeRequest
  conv_lhs => rw [hfuel]
  rw [executeLoop_skip url transport (retries + 1) d k ((retries + 1).toNat - k) 0 []
    (fun i hi => by simpa using hfail i hi) (by push_cast; omega)]
  simp

theorem startsWithChars_append (p rest : List Char) : startsWithChars p (p ++ rest) = true := by
  induction p with
  | nil => rfl
  | cons c cs ih => simp [startsWithChars, ih]

theorem status4xx_digits (status : Nat) (h1 : 400 ≤ status) (h2 : status ≤ 499) :
    ∃ rest, (toString status).data = '4' :: rest := by
  interval_cases status <;> exact ⟨_, rfl⟩

/-- The message of the error thrown for a status from 400 to 499 contains `HTTP 4`. -/
theorem httpError_4xx (status : Nat) (url : String) (h1 : 400 ≤ status) (h2 : status ≤ 499) :
    includes (httpError status url).message "HTTP 4" = true := by
  obtain ⟨rest, hrest⟩ := status4xx_digits status h1 h2
  have hd : ("HTTP " ++ toString status ++ " for " ++ url).data
      = "HTTP 4".data ++ (rest ++ " for ".data ++ url.data) := by
    simp only [String.data_append, hrest]
    rfl
  simp only [includes, httpError, hd]
  cases hp : "HTTP 4".data ++ (rest ++ " for ".data ++ url.data) with
  | nil => simp at hp
  | cons c cs =>
    simp only [includesChars]
    rw [← hp, startsWithChars_append]
    rfl

theorem always503_transient (i : Nat) : failsTransiently "/site/properties" (always503 i) :=
  ⟨httpError 503 "/site/properties", rfl, by decide, by decide⟩

/-- C6. When the first `k` attempts of `executeRequest` fail transiently and
`1 ≤ k ≤ retries`, the wait after the `k`-th failed attempt is `retryDelay * 2^(k-1)`;
and with `retries = 3`, `retryDelay = 1000` and all four attempts failing transiently
the waits are exactly 1000, 2000, 4000, with four transport calls and no wait after
the fourth. -/
theorem exponential_backoff (url : String) (transport : Nat → Attempt)
    (retries retryDelay : Int) (k : Nat) (hk1 : 1 ≤ k) (hk : (k : Int) ≤ retries)
    (hfail : ∀ i, i < k → failsTransiently url (transport i)) :
    (executeRequest url retries retryDelay transport).waits[k - 1]?
        = some (retryDelay * 2 ^ (k - 1))
    ∧ (retries = 3 → retryDelay = 1000 →
        (∀ i, i ≤ 3 → failsTransiently url (transport i)) →
        (executeRequest url retries retryDelay transport).waits = [1000, 2000, 4000]
        ∧ (executeRequest url retries retryDelay transport).calls = 4) := by
  constructor
  · rw [executeRequest_skip url transport retries retryDelay k hk hfail]
    obtain ⟨rest, hrest⟩ := executeLoop_waits_head url transport (retries + 1) retryDelay
      ((retries + 1).toNat - k) k (backoffFrom retryDelay 0 k)
    rw [hrest, List.getElem?_append_left (by rw [backoffFrom_length]; omega),
      backoffFrom_get retryDelay 0 k (k - 1) (by omega)]
    simp
  · intro h3 hd hall
    subst h3 hd
    rw [executeRequest_skip url transport 3 1000 3 (by norm_num) (fun i hi => hall i (by omega))]
    obtain ⟨e, he, _, _⟩ := hall 3 (le_refl _)
    have hx := executeLoop_exhausted url transport (3 + 1) 1000 0 3 (backoffFrom 1000 0 3) e
      (by norm_num) (by norm_num) he
    have hfu : ((3 : Int) + 1).toNat - 3 = 0 + 1 := by decide
    rw [hfu, hx]
    simp [backoffFrom]

/-- C6 at a concrete input: every response has status 503, `retries = 3`,
`retryDelay = 1000`. -/
theorem exponential_backoff_witness :
    (executeRequest "/site/properties" 3 1000 always503).waits[3 - 1]?
        = some (1000 * 2 ^ (3 - 1))
    ∧ (executeRequest "/site/properties" 3 1000 always503).waits = [1000, 2000, 4000]
    ∧ (executeRequest "/site/properties" 3 1000 always503).calls = 4 :=
  have h := exponential_backoff "/site/properties" always503 3 1000 3 (by decide) (by decide)
    (fun i _ => always503_transient i)
  ⟨h.1, h.2 rfl rfl (fun i _ => always503_transient i)⟩

/-- C7. When the attempt number `k` (counted from 0, at most `retries`, all earlier
attempts having failed transiently) fails with an HTTP status from 400 to 499 or with
an `AbortError`, `executeRequest` rejects with that error, has started `k + 1`
transport calls, and has waited only the `k` delays that came before that attempt. -/
theorem terminal_errors (url : String) (transport : Nat → Attempt)
    (retries retryDelay : Int) (k : Nat) (e : JsError) (hk : (k : Int) ≤ retries)
    (hbefore : ∀ i, i < k → failsTransiently url (transport i))
    (hterm : (∃ status body, 400 ≤ status ∧ status ≤ 499
                ∧ transport k = .response status body ∧ e = httpError status url)
             ∨ (attemptResult url (transport k) = .error e ∧ e.name = "AbortError")) :
    executeRequest url retries retryDelay transport
      = ⟨.rejected e, k + 1, backoffFrom retryDelay 0 k⟩ := by
  rw [executeRequest_skip url transport retries retryDelay k hk hbefore]
  have hfu : (retries + 1).toNat - k = ((retries + 1).toNat - k - 1) + 1 := by omega
  rw [hfu]
  apply executeLoop_terminal
  · omega
  · rcases hterm with ⟨status, body, h1, h2, ht, he⟩ | ⟨hr, _⟩
    · have hok : statusOk status = false := by
        simp only [statusOk, Bool.and_eq_false_imp, decide_eq_true_eq, decide_eq_false_iff_not]
        omega
      rw [ht, he]
      simp [attemptResult, hok]
    · exact hr
  · rcases hterm with ⟨status, body, h1, h2, _, he⟩ | ⟨_, hn⟩
    · right; rw [he]; exact httpError_4xx status url h1 h2
    · left; exact hn

/-- C7 at a concrete input: a 503 response, then a 404 response, with `retries = 3`:
two transport calls, one wait of 1000, and the 404 error. -/
theorem terminal_errors_witness :
    executeRequest "/site/properties" 3 1000 then404
      = ⟨.rejected (httpError 404 "/site/properties"), 1 + 1, backoffFrom 1000 0 1⟩ :=
  terminal_errors "/site/properties" then404 3 1000 1 (httpError 404 "/site/properties")
    (by decide)
    (fun i hi => by
      have h0 : i = 0 := by omega
      subst h0
      exact ⟨httpError 503 "/site/properties", rfl, by decide, by decide⟩)
    (Or.inl ⟨404, .ok .null, by decide, by decide, rfl, rfl⟩)

/-- C8. For `retries ≥ 0`, `executeRequest` starts at most `retries + 1` transport
calls; when it resolves, it does so with the payload of the first successful attempt,
and it resolves so whenever the attempts before that one failed transiently and it is
among the first `retries + 1`; when all `retries + 1` attempts fail transiently it
starts exactly `retries + 1` calls and rejects with the error of the last one; with
`retries = 0` there is exactly one call and no wait. -/
theorem retry_budget (url : String) (transport : Nat → Attempt) (retries retryDelay : Int)
    (h : 0 ≤ retries) :
    ((executeRequest url retries retryDelay transport).calls : Int) ≤ retries + 1
    ∧ (∀ v, (executeRequest url retries retryDelay transport).outcome = .resolved v →
        ∃ k data, attemptResult url (transport k) = .ok data ∧ v = .json data
          ∧ (∀ i, i < k → ∃ e, attemptResult url (transport i) = .error e)
          ∧ (executeRequest url retries retryDelay transport).calls = k + 1)
    ∧ (∀ (k : Nat) data, (k : Int) ≤ retries →
        (∀ i, i < k → failsTransiently url (transport i)) →
        attemptResult url (transport k) = .ok data →
        executeRequest url retries retryDelay transport
          = ⟨.resolved (.json data), k + 1, backoffFrom retryDelay 0 k⟩)
    ∧ (∀ e, (∀ i : Nat, (i : Int) ≤ retries → failsTransiently url (transport i)) →
        attemptResult url (transport retries.toNat) = .error e →
        executeRequest url retries retryDelay transport
          = ⟨.rejected e, retries.toNat + 1, backoffFrom retryDelay 0 retries.toNat⟩)
    ∧ (retries = 0 →
        (executeRequest url retries retryDelay transport).calls = 1
        ∧ (executeRequest url retries retryDelay transport).waits = []) := by
  refine ⟨?_, ?_, ?_, ?_, ?_⟩
  · have := executeLoop_calls_le url transport (retries + 1) retryDelay (retries + 1).toNat 0 []
    unfold executeRequest
    omega
  · intro v hv
    obtain ⟨k, data, _, hok, hvd, hb, hc⟩ :=
      executeLoop_resolved url transport (retries + 1) retryDelay (retries + 1).toNat 0 [] v
        (by push_cast; omega) (by push_cast; omega) hv
    exact ⟨k, data, hok, hvd, fun i hi => hb i (Nat.zero_le _) hi, hc⟩
  · intro k data hk hfail hok
    rw [executeRequest_skip url transport retries retryDelay k hk hfail]
    have hfu : (retries + 1).toNat - k = ((retries + 1).toNat - k - 1) + 1 := by omega
    rw [hfu]
    exact executeLoop_ok url transport (retries + 1) retryDelay _ k _ data (by omega) hok
  · intro e hall he
    rw [executeRequest_skip url transport retries retryDelay retries.toNat (by omega)
      (fun i hi => hall i (by omega))]
    have hfu : (retries + 1).toNat - retries.toNat = 0 + 1 := by omega
    rw [hfu]
    exact executeLoop_exhausted url transport (retries + 1) retryDelay 0 retries.toNat _ e
      (by omega) (by push_cast; omega) he
  · intro h0
    subst h0
    have hfu : ((0 : Int) + 1).toNat = 0 + 1 := by decide
    unfold executeRequest
    rw [hfu]
    simp only [executeLoop]
    cases attemptResult url (transport 0) with
    | ok data => simp
    | error e =>
      by_cases h1 : e.name = "AbortError"
      · simp [h1]
      · cases h2 : includes e.message "HTTP 4" <;> simp [h1]

/-- C8 at a concrete input: a 503 response, then a 200 response with payload 7, with
`retries = 3`. -/
theorem retry_budget_witness :
    ((executeRequest "/site/properties" 3 1000 thenPayload).calls : Int) ≤ 3 + 1
    ∧ executeRequest "/site/properties" 3 1000 thenPayload
        = ⟨.resolved (.json (.num 7)), 1 + 1, backoffFrom 1000 0 1⟩ :=
  have h := retry_budget "/site/properties" thenPayload 3 1000 (by decide)
  ⟨h.1, h.2.2.1 1 (.num 7) (by decide)
    (fun i hi => by
      have h0 : i = 0 := by omega
      subst h0
      exact ⟨httpError 503 "/site/properties", rfl, by decide, by decide⟩)
    rfl⟩

/-- C9 (the code at the failing input). A response with status 503 is a transient
failure, and with `retries = 3` it is retried for the address `/docs/page.json` (four
transport calls); for the address `/docs/HTTP 404.json` the error message
`HTTP 503 for /docs/HTTP 404.json` contains `HTTP 4`, and `executeRequest` rejects
after the first transport call without a retry. -/
theorem transient_failure_not_retried :
    executeRequest "/docs/HTTP 404.json" 3 1000 always503
      = ⟨.rejected (httpError 503 "/docs/HTTP 404.json"), 1, []⟩
    ∧ (httpError 503 "/docs/HTTP 404.json").message = "HTTP 503 for /docs/HTTP 404.json"
    ∧ executeRequest "/docs/page.json" 3 1000 always503
      = ⟨.rejected (httpError 503 "/docs/page.json"), 4, [1000, 2000, 4000]⟩ := by
  refine ⟨?_, ?_, ?_⟩
  · rfl
  · decide
  · rfl

theorem status5xx_digits (status : Nat) (h1 : 500 ≤ status) (h2 : status ≤ 599) :
    ∃ d1 d2, (toString status).data = ['5', d1, d2] ∧ d1 ≠ 'H' ∧ d2 ≠ 'H' := by
  interval_cases status <;> exact ⟨_, _, rfl, by decide, by decide⟩

theorem includes_http5xx (d1 d2 : Char) (h1 : d1 ≠ 'H') (h2 : d2 ≠ 'H') (u : List Char) :
    includesChars "HTTP 4".data
      ('H' :: 'T' :: 'T' :: 'P' :: ' ' :: '5' :: d1 :: d2 :: ' ' :: 'f' :: 'o' :: 'r' :: ' ' :: u)
      = includesChars "HTTP 4".data u := by
  have e1 : ('H' == d1) = false := by simpa using fun h => h1 h.symm
  have e2 : ('H' == d2) = false := by simpa using fun h => h2 h.symm
  simp [includesChars, startsWithChars, e1, e2]

/-- The error thrown for a status from 500 to 599 contains `HTTP 4` exactly when the
address does. -/
theorem httpError_5xx (status : Nat) (url : String) (h1 : 500 ≤ status) (h2 : status ≤ 599) :
    includes (httpError status url).message "HTTP 4" = includes url "HTTP 4" := by
  obtain ⟨d1, d2, hd, n1, n2⟩ := status5xx_digits status h1 h2
  have hmsg : ("HTTP " ++ toString status ++ " for " ++ url).data
      = 'H' :: 'T' :: 'T' :: 'P' :: ' ' :: '5' :: d1 :: d2 :: ' ' :: 'f' :: 'o' :: 'r' :: ' '
          :: url.data := by
    simp only [String.data_append, hd]
    rfl
  simp only [includes, httpError, hmsg]
  exact includes_http5xx d1 d2 n1 n2 url.data

theorem plainTransient_fails (url : String) (a : Attempt) (h : plainTransient url a) :
    failsTransiently url a := by
  rcases h with ⟨status, body, h1, h2, ha, hu⟩ | ⟨e, ha, hn, hm⟩
  · have hok : statusOk status = false := by
      simp only [statusOk, Bool.and_eq_false_imp, decide_eq_true_eq, decide_eq_false_iff_not]
      omega
    refine ⟨httpError status url, by rw [ha]; simp [attemptResult, hok], by simp [httpError], ?_⟩
    rw [httpError_5xx status url h1 h2, hu]
  · exact ⟨e, by rw [ha]; rfl, hn, hm⟩

theorem executeLoop_calls_ge (url : String) (transport : Nat → Attempt) (M d : Int)
    (fuel attempt : Nat) (waits : List Int) (h0 : (attempt : Int) < M) :
    attempt + 1 ≤ (executeLoop url transport M d (fuel + 1) attempt waits).calls := by
  induction fuel generalizing attempt waits with
  | zero =>
    simp only [executeLoop, h0, ↓reduceIte]
    cases attemptResult url (transport attempt) with
    | ok data => simp
    | error e =>
      simp only []
      by_cases h1 : e.name = "AbortError"
      · simp [h1]
      · cases h2 : includes e.message "HTTP 4"
        · by_cases h3 : ((attempt + 1 : Nat) : Int) < M
          · simp only [h1, h3, ↓reduceIte, Bool.false_eq_true, executeLoop]; omega
          · simp only [h1, h3, ↓reduceIte, Bool.false_eq_true]; omega
        · simp [h1]
  | succ fuel ih =>
    rw [executeLoop]
    simp only [h0, ↓reduceIte]
    cases attemptResult url (transport attempt) with
    | ok data => simp
    | error e =>
      simp only []
      by_cases h1 : e.name = "AbortError"
      · simp [h1]
      · cases h2 : includes e.message "HTTP 4"
        · by_cases h3 : ((attempt + 1 : Nat) : Int) < M
          · simp only [h1, h3, ↓reduceIte, Bool.false_eq_true]
            have := ih (attempt + 1) (waits ++ [d * 2 ^ (attempt + 1 - 1)]) h3
            omega
          · simp only [h1, h3, ↓reduceIte, Bool.false_eq_true]; omega
        · simp [h1]

/-- X2. Transient failures are retried when nothing reads as `HTTP 4`: if the first `k`
attempts of `executeRequest` each fail with a status from 500 to 599 for an address
without `HTTP 4`, or with a thrown error other than an `AbortError` whose message is
without `HTTP 4`, and `k ≤ retries`, then a further transport call is made (at least
`k + 1` calls) after the waits `retryDelay * 2^0, ..., retryDelay * 2^(k-1)`. -/
theorem transient_retried_without_http4 (url : String) (transport : Nat → Attempt)
    (retries retryDelay : Int) (k : Nat) (hk : (k : Int) ≤ retries)
    (hfail : ∀ i, i < k → plainTransient url (transport i)) :
    k + 1 ≤ (executeRequest url retries retryDelay transport).calls
    ∧ ∃ rest, (executeRequest url retries retryDelay transport).waits
        = backoffFrom retryDelay 0 k ++ rest := by
  rw [executeRequest_skip url transport retries retryDelay k hk
    (fun i hi => plainTransient_fails url _ (hfail i hi))]
  have hfu : (retries + 1).toNat - k = ((retries + 1).toNat - k - 1) + 1 := by omega
  rw [hfu]
  exact ⟨executeLoop_calls_ge url transport (retries + 1) retryDelay _ k _ (by omega),
    executeLoop_waits_head url transport (retries + 1) retryDelay _ k _⟩

/-- X2 at a concrete input: two responses with status 503 for `/site/properties`, with
`retries = 3`. -/
theorem transient_retried_without_http4_witness :
    2 + 1 ≤ (executeRequest "/site/properties" 3 1000 always503).calls
    ∧ ∃ rest, (executeRequest "/site/properties" 3 1000 always503).waits
        = backoffFrom 1000 0 2 ++ rest :=
  transient_retried_without_http4 "/site/properties" always503 3 1000 2 (by decide)
    (fun _ _ => Or.inl ⟨503, .ok .null, by decide, by decide, rfl, by decide⟩)

/-! ## The queue -/

theorem lookupCaches_queue (now : Int) (cacheKey : String) (useSession : Bool) (s : Sys) :
    (lookupCaches now cacheKey useSession s).2.nm.requestQueue = s.nm.requestQueue
    ∧ (lookupCaches now cacheKey useSession s).2.admitted = s.admitted
    ∧ (lookupCaches now cacheKey useSession s).2.enqueued = s.enqueued := by
  unfold lookupCaches getFromMemoryCache setMemoryCache
  cases JSMap.get s.nm.memoryCache cacheKey with
  | none => simp only []; split_ifs <;> simp
  | some cached => simp only []; split_ifs <;> simp

theorem dispatch_queue (requestUrl cacheKey url : String) (options : Options)
    (useCache useSession : Bool) (s : Sys) (h : QueueInv s) :
    QueueInv (dispatch requestUrl cacheKey url options useCache useSession s).2 := by
  unfold dispatch QueueInv at *
  cases JSMap.get s.nm.inFlight cacheKey with
  | some p => simpa using h
  | none =>
    simp only []
    split_ifs
    · simp [← h]
    · simpa using h

theorem release_queue (req : Request) (s : Sys) (h : QueueInv s) : QueueInv (release req s) := by
  unfold release processQueue QueueInv at *
  simp only []
  cases hq : s.nm.requestQueue with
  | nil => simp [← h, hq]
  | cons next rest =>
    simp only []
    split_ifs
    · simp [← h, hq]
    · simp [← h, hq]

theorem step_queue (env : Env) (s : Sys) (ev : Event) (h : QueueInv s) :
    QueueInv (step env s ev) := by
  cases ev with
  | fetch now url options =>
    simp only [step, fetch]
    split
    · split_ifs
      · obtain ⟨h1, h2, h3⟩ := lookupCaches_queue now
          (getCacheKey (requestUrlOf env url) options)
          (options.useSessionCache.getD false || shouldUseSessionCache url) s
        unfold QueueInv at *
        simp only [h1, h2, h3, h]
      · exact h
    · apply dispatch_queue
      split_ifs
      · obtain ⟨h1, h2, h3⟩ := lookupCaches_queue now
          (getCacheKey (requestUrlOf env url) options)
          (options.useSessionCache.getD false || shouldUseSessionCache url) s
        unfold QueueInv at *
        simp only [h1, h2, h3, h]
      · exact h
  | settle now id outcome =>
    simp only [step, settle]
    cases findRequest id s.pending with
    | none => exact h
    | some req =>
      simp only []
      have h0 : QueueInv { s with pending := s.pending.filter (fun r => r.id != id),
                                  settled := s.settled ++ [(id, outcome)] } := h
      cases outcome with
      | resolved data =>
        simp only [onFulfilled]
        have hr := release_queue req _ h0
        unfold QueueInv setMemoryCache at *
        split_ifs <;> simpa using hr
      | rejected e => exact release_queue req _ h0
  | cleanup now => exact h
  | clearCache pattern => exact h

theorem run_queue (env : Env) (events : List Event) :
    ∀ s, QueueInv s → QueueInv (run env s events) := by
  induction events with
  | nil => intro s h; exact h
  | cons ev rest ih => intro s h; exact ih _ (step_queue env s ev h)

/-- C3. After any sequence of events on a fresh manager, the entries that `processQueue`
took from `requestQueue`, in the order it took them, followed by the entries still
queued, are exactly the entries that `fetch` pushed, in the order it pushed them; and
`processQueue` only ever takes the entry at the head of the queue, which it admits: the
counter goes up by one and the promise is entered in `inFlight`. -/
theorem fifo_release (env : Env) (st : Storage) (events : List Event) :
    (run env (Sys.init st) events).admitted ++ (run env (Sys.init st) events).nm.requestQueue
      = (run env (Sys.init st) events).enqueued
    ∧ ∀ (nm : NetworkManager) (next : QueueEntry),
        (processQueue nm).1 = some next →
        nm.requestQueue = next :: (processQueue nm).2.requestQueue
        ∧ (processQueue nm).2.activeRequests = nm.activeRequests + 1
        ∧ JSMap.get (processQueue nm).2.inFlight (getCacheKey next.url next.options)
            = some next.promise := by
  constructor
  · exact run_queue env events (Sys.init st) rfl
  · intro nm next h
    unfold processQueue at *
    cases hq : nm.requestQueue with
    | nil => simp [hq] at h
    | cons a rest =>
      simp only [hq] at h ⊢
      split_ifs at h ⊢ with hc
      simp at h
      subst h
      exact ⟨rfl, rfl, JSMap.get_set_self _ _ _⟩

/-! ## Lazy expiry -/

theorem jsonParse_nonempty (stored : String) (cached : Json)
    (h : jsonParse stored = some cached) : truthyString stored = true := by
  cases hs : stored.data with
  | nil =>
    have : jsonParse stored = none := by
      simp [jsonParse, hs, parseValue, skipWs]
    rw [this] at h
    cases h
  | cons c cs => simp [truthyString, hs]

/-- C4 (counterexample). Read at the very time of expiry, `t = expires = 100`, both
tiers return the data, not a miss, and keep the entry. -/
theorem lazy_expiry_at_expiry_time :
    getFromMemoryCache memoryAt100 100 "GET:/a:" = (.json (.num 1), memoryAt100)
    ∧ (getFromMemoryCache memoryAt100 100 "GET:/a:").1.isNull = false
    ∧ getFromSessionCache sessionAt100 100 "GET:/a:" = (.json (.num 1), sessionAt100)
    ∧ (getFromSessionCache sessionAt100 100 "GET:/a:").1.isNull = false := by
  refine ⟨rfl, rfl, rfl, rfl⟩

/-- What `now > expires` is for an expiry time that is a number: for an integer `e` it
is `now > e`; for the fraction `whole + f` it is `now > whole`, the same as
`now > whole + f` since `now` is an integer; for `-(whole + f)` it is `now ≥ -whole`. -/
theorem jsGreater_number (now : Int) :
    (∀ e : Int, jsGreater now (.json (.num e)) = decide (now > e))
    ∧ (∀ whole init last, jsGreater now (.json (.dec false whole init last))
        = decide (now > (whole : Int)))
    ∧ (∀ whole init last, jsGreater now (.json (.dec true whole init last))
        = decide (now ≥ -(whole : Int))) :=
  ⟨fun _ => rfl, fun _ _ _ => rfl, fun _ _ _ => rfl⟩

/-- C4 (amended). Memory tier: an entry read at a time `now > expires` is a miss and is
gone from the tier afterwards; read at a time `now ≤ expires` it is returned and the
tier is left as it was. Persistent tier, for every stored record that `JSON.parse`
accepts and whose `expires` and `data` can be read: when `now > expires` holds the read
is a miss and the record is gone afterwards; when it does not hold and the record has
at most `MAX_SESSION_SIZE` code units, the data is returned and the storage is left as
it was. For an expiry time that is an integer `e`, `now > expires` is `now > e`; for
one that is a fraction it is the comparison with that fraction. -/
theorem lazy_expiry (nm : NetworkManager) (st : Storage) (now : Int) (cacheKey : String) :
    (∀ entry, JSMap.get nm.memoryCache cacheKey = some entry →
      (now > entry.expires →
          (getFromMemoryCache nm now cacheKey).1 = jsNull
          ∧ JSMap.get (getFromMemoryCache nm now cacheKey).2.memoryCache cacheKey = none)
      ∧ (now ≤ entry.expires → getFromMemoryCache nm now cacheKey = (entry.data, nm)))
    ∧ (∀ sessionKey stored cached expires d,
      getSessionKey cacheKey = some sessionKey →
      st.getItem sessionKey = some (some stored) →
      jsonParse stored = some cached →
      cached.prop "expires" = some expires →
      cached.prop "data" = some d →
      (jsGreater now expires = true →
          (getFromSessionCache st now cacheKey).1 = jsNull
          ∧ (getFromSessionCache st now cacheKey).2.getItem sessionKey = some none)
      ∧ (jsGreater now expires = false → jsLength stored ≤ MAX_SESSION_SIZE →
          getFromSessionCache st now cacheKey = (d, st)))
    ∧ (∀ e : Int, jsGreater now (.json (.num e)) = decide (now > e))
    ∧ (∀ whole init last, jsGreater now (.json (.dec false whole init last))
        = decide (now > (whole : Int)))
    ∧ (∀ whole init last, jsGreater now (.json (.dec true whole init last))
        = decide (now ≥ -(whole : Int))) := by
  refine ⟨?_, ?_, (jsGreater_number now).1, (jsGreater_number now).2.1,
    (jsGreater_number now).2.2⟩
  · intro entry hm
    refine ⟨?_, ?_⟩
    · intro hgt
      simp [getFromMemoryCache, hm, hgt, JSMap.get_delete_self]
    · intro hle
      have : ¬ now > entry.expires := by omega
      simp [getFromMemoryCache, hm, this]
  · intro sessionKey stored cached expires d hk hs hp he hd
    have hne := jsonParse_nonempty stored cached hp
    have hb : st.blocked = false := by
      cases hbl : st.blocked with
      | false => rfl
      | true => simp [Storage.getItem, hbl] at hs
    refine ⟨?_, ?_⟩
    · intro hj
      have hrem : st.removeItem sessionKey
          = some { st with items := JSMap.delete st.items sessionKey } := by
        simp [Storage.removeItem, hb]
      simp only [getFromSessionCache, getFromSessionCacheTry, hk, hs, hne, hp, he, hj, hrem,
        Bool.not_true, Bool.false_eq_true, ↓reduceIte, Option.map_some']
      simp [Storage.getItem, hb, JSMap.get_delete_self]
    · intro hj hlen
      have hl : ¬ jsLength stored > MAX_SESSION_SIZE := by omega
      simp only [getFromSessionCache, getFromSessionCacheTry, hk, hs, hne, hp, he, hj, hl, hd,
        Bool.not_true, Bool.false_eq_true, ↓reduceIte, Option.map_some']

/-- C4 at concrete inputs: both tiers hold an entry that expires at 100 and are read at
time 101; and a record with decimal data that expires at 100.5 is returned at time 100
and is a miss at time 101. -/
theorem lazy_expiry_witness :
    ((getFromMemoryCache memoryAt100 101 "GET:/a:").1 = jsNull
      ∧ JSMap.get (getFromMemoryCache memoryAt100 101 "GET:/a:").2.memoryCache "GET:/a:" = none)
    ∧ ((getFromSessionCache sessionAt100 101 "GET:/a:").1 = jsNull
      ∧ (getFromSessionCache sessionAt100 101 "GET:/a:").2.getItem "mdc_cache_v1_R0VUOi9hOg"
          = some none)
    ∧ getFromSessionCache sessionWithPrices 100 "GET:/a:" = (.json priceData, sessionWithPrices)
    ∧ ((getFromSessionCache sessionWithPrices 101 "GET:/a:").1 = jsNull
      ∧ (getFromSessionCache sessionWithPrices 101 "GET:/a:").2.getItem
          "mdc_cache_v1_R0VUOi9hOg" = some none) :=
  ⟨((lazy_expiry memoryAt100 sessionAt100 101 "GET:/a:").1 ⟨.json (.num 1), 100⟩ rfl).1
      (by decide),
    ((lazy_expiry memoryAt100 sessionAt100 101 "GET:/a:").2.1 "mdc_cache_v1_R0VUOi9hOg"
      "\x7b\"data\":1,\"expires\":100\x7d" (.obj [("data", .num 1), ("expires", .num 100)])
      (.json (.num 100)) (.json (.num 1)) (by decide) rfl rfl rfl rfl).1 (by decide),
    ((lazy_expiry memoryAt100 sessionWithPrices 100 "GET:/a:").2.1 "mdc_cache_v1_R0VUOi9hOg"
      priceRecord (.obj [("data", priceData), ("expires", .dec false 100 [] 4)])
      (.json (.dec false 100 [] 4)) (.json priceData) (by decide) rfl rfl rfl rfl).2
      (by decide) (by decide),
    ((lazy_expiry memoryAt100 sessionWithPrices 101 "GET:/a:").2.1 "mdc_cache_v1_R0VUOi9hOg"
      priceRecord (.obj [("data", priceData), ("expires", .dec false 100 [] 4)])
      (.json (.dec false 100 [] 4)) (.json priceData) (by decide) rfl rfl rfl rfl).1
      (by decide)⟩

/-! ## Idempotence of `fetch` within the memory TTL -/

theorem lookupCaches_frame (now : Int) (cacheKey : String) (useSession : Bool) (s : Sys) :
    (lookupCaches now cacheKey useSession s).2.pending = s.pending
    ∧ (lookupCaches now cacheKey useSession s).2.nextId = s.nextId
    ∧ (lookupCaches now cacheKey useSession s).2.started = s.started := by
  unfold lookupCaches getFromMemoryCache setMemoryCache
  cases JSMap.get s.nm.memoryCache cacheKey with
  | none => simp only []; split_ifs <;> simp
  | some cached => simp only []; split_ifs <;> simp

theorem afterLookup_frame (env : Env) (now : Int) (url : String) (options : Options) (s : Sys) :
    (afterLookup env now url options s).pending = s.pending
    ∧ (afterLookup env now url options s).nextId = s.nextId
    ∧ (afterLookup env now url options s).started = s.started := by
  unfold afterLookup
  split_ifs
  · exact lookupCaches_frame _ _ _ _
  · exact ⟨rfl, rfl, rfl⟩

theorem dispatch_frame (requestUrl cacheKey url : String) (options : Options)
    (useCache useSession : Bool) (s : Sys) :
    ((dispatch requestUrl cacheKey url options useCache useSession s).2.nextId = s.nextId
      ∧ (dispatch requestUrl cacheKey url options useCache useSession s).2.pending = s.pending
      ∧ (dispatch requestUrl cacheKey url options useCache useSession s).2.started = s.started)
    ∨ ((dispatch requestUrl cacheKey url options useCache useSession s).2.nextId = s.nextId + 1
      ∧ (dispatch requestUrl cacheKey url options useCache useSession s).2.pending
          = s.pending ++ [⟨s.nextId, requestUrl, cacheKey, useCache, useSession,
              options.retries.getD 0, options.retryDelay.getD 1000⟩]
      ∧ (dispatch requestUrl cacheKey url options useCache useSession s).2.started
          = s.started ++ [⟨s.nextId, requestUrl, cacheKey, useCache, useSession,
              options.retries.getD 0, options.retryDelay.getD 1000⟩]) := by
  unfold dispatch
  cases JSMap.get s.nm.inFlight cacheKey with
  | some p => left; exact ⟨rfl, rfl, rfl⟩
  | none =>
    right
    simp only []
    split_ifs <;> exact ⟨rfl, rfl, rfl⟩

/-- A call of `fetch` either leaves the requests as they are, or starts exactly one. -/
theorem fetch_frame (env : Env) (now : Int) (url : String) (options : Options) (s : Sys) :
    ((fetch env now url options s).2.nextId = s.nextId
      ∧ (fetch env now url options s).2.pending = s.pending
      ∧ (fetch env now url options s).2.started = s.started)
    ∨ ((fetch env now url options s).2.nextId = s.nextId + 1
      ∧ (fetch env now url options s).2.pending = s.pending ++ [requestOf env url options s]
      ∧ (fetch env now url options s).2.started = s.started ++ [requestOf env url options s]) := by
  obtain ⟨h1, h2, h3⟩ := afterLookup_frame env now url options s
  unfold afterLookup at h1 h2 h3
  simp only [fetch]
  split
  · left; exact ⟨h2, h1, h3⟩
  · rcases dispatch_frame (requestUrlOf env url) (getCacheKey (requestUrlOf env url) options)
      url options (options.useCache.getD true)
      (options.useSessionCache.getD false || shouldUseSessionCache url)
      (if options.useCache.getD true then
        lookupCaches now (getCacheKey (requestUrlOf env url) options)
          (options.useSessionCache.getD false || shouldUseSessionCache url) s
      else (none, s)).2 with ⟨a, b, c⟩ | ⟨a, b, c⟩
    · left; exact ⟨a.trans h2, b.trans h1, c.trans h3⟩
    · right
      rw [a, b, c, h1, h2, h3]
      exact ⟨rfl, rfl, rfl⟩

theorem release_frame (req : Request) (s : Sys) :
    (release req s).pending = s.pending ∧ (release req s).nextId = s.nextId
    ∧ (release req s).started = s.started
    ∧ (release req s).nm.memoryCache = s.nm.memoryCache
    ∧ (release req s).session = s.session := by
  unfold release processQueue
  cases hq : s.nm.requestQueue with
  | nil => simp [hq]
  | cons next rest =>
    by_cases hc : s.nm.activeRequests - 1 ≥ CONCURRENT_REQUESTS <;> simp [hq, hc]

theorem onFulfilled_frame (now : Int) (req : Request) (data : Value) (s : Sys) :
    (onFulfilled now req data s).pending = s.pending
    ∧ (onFulfilled now req data s).nextId = s.nextId
    ∧ (onFulfilled now req data s).started = s.started := by
  obtain ⟨h1, h2, h3, _, _⟩ := release_frame req s
  unfold onFulfilled
  simp only []
  split_ifs <;> exact ⟨h1, h2, h3⟩

theorem step_pending (env : Env) (s : Sys) (ev : Event) (h : PendingInv s) :
    PendingInv (step env s ev) := by
  cases ev with
  | fetch now url options =>
    simp only [step]
    rcases fetch_frame env now url options s with ⟨a, b, _⟩ | ⟨a, b, _⟩
    · intro r hr; rw [b] at hr; rw [a]; exact h r hr
    · intro r hr
      rw [b] at hr; rw [a]
      rcases List.mem_append.1 hr with hr | hr
      · exact Nat.lt_succ_of_lt (h r hr)
      · simp at hr; subst hr; simp [requestOf]
  | settle now id outcome =>
    simp only [step, settle]
    cases findRequest id s.pending with
    | none => exact h
    | some req =>
      simp only []
      have h0 : PendingInv { s with pending := s.pending.filter (fun r => r.id != id),
                                    settled := s.settled ++ [(id, outcome)] } := by
        intro r hr
        exact h r (List.mem_of_mem_filter hr)
      cases outcome with
      | resolved data =>
        obtain ⟨a, b, _⟩ := onFulfilled_frame now req data
          { s with pending := s.pending.filter (fun r => r.id != id),
                   settled := s.settled ++ [(id, .resolved data)] }
        intro r hr
        simp only [] at hr ⊢
        rw [a] at hr; rw [b]; exact h0 r hr
      | rejected e =>
        obtain ⟨a, b, _⟩ := release_frame req
          { s with pending := s.pending.filter (fun r => r.id != id),
                   settled := s.settled ++ [(id, .rejected e)] }
        intro r hr
        simp only [onRejected] at hr ⊢
        rw [a] at hr; rw [b]; exact h0 r hr
  | cleanup now => exact h
  | clearCache pattern => exact h

theorem run_pending (env : Env) (events : List Event) :
    ∀ s, PendingInv s → PendingInv (run env s events) := by
  induction events with
  | nil => intro s h; exact h
  | cons ev rest ih => intro s h; exact ih _ (step_pending env s ev h)

theorem findRequest_new (req : Request) (pending : List Request)
    (h : ∀ r, r ∈ pending → r.id < req.id) :
    findRequest req.id (pending ++ [req]) = some req := by
  induction pending with
  | nil => simp [findRequest]
  | cons a rest ih =>
    have ha : a.id ≠ req.id := by
      have := h a (List.mem_cons_self _ _); omega
    simp only [List.cons_append, findRequest, ha, ↓reduceIte]
    exact ih (fun r hr => h r (List.mem_cons_of_mem _ hr))

theorem onFulfilled_memory (now : Int) (req : Request) (data : Value) (s : Sys)
    (h : req.useCache = true) :
    JSMap.get (onFulfilled now req data s).nm.memoryCache req.cacheKey
      = some ⟨data, now + MEMORY_TTL⟩ := by
  unfold onFulfilled setMemoryCache
  simp only [h, ↓reduceIte]
  split_ifs <;> exact JSMap.get_set_self _ _ _

/-- A memory-tier entry that has not expired and whose data is not `null` makes `fetch`
return that data at once and leave the whole state as it is. -/
theorem fetch_memory_hit (env : Env) (now : Int) (url : String) (options : Options) (s : Sys)
    (d : Value) (e : Int) (hcache : options.useCache.getD true = true)
    (hget : JSMap.get s.nm.memoryCache (getCacheKey (requestUrlOf env url) options)
              = some ⟨d, e⟩)
    (hnow : ¬ now > e) (hd : d.isNull = false) :
    fetch env now url options s = (.resolved d, s) := by
  simp only [fetch, hcache, ↓reduceIte, lookupCaches, getFromMemoryCache, hget, hnow, hd,
    Bool.not_false]

/-- C5 (counterexample). After `fetch('/a')` has resolved with the JSON payload `null`
at time 10, an identical `fetch('/a')` at time 20 starts a second transport execution;
and so does, after a `fetch('/a', { useCache: false })` that resolved with the payload
7, an identical call at time 20. -/
theorem fetch_again_after_null_payload :
    (fetch plainEnv 0 "/a" Options.empty freshSys).1.promiseId = some 0
    ∧ (fetch plainEnv 20 "/a" Options.empty
        (settle 10 0 (.resolved jsNull)
          (fetch plainEnv 0 "/a" Options.empty freshSys).2)).1.promiseId = some 1
    ∧ (fetch plainEnv 20 "/a" Options.empty
        (settle 10 0 (.resolved jsNull)
          (fetch plainEnv 0 "/a" Options.empty freshSys).2)).2.started.length = 2
    ∧ (fetch plainEnv 20 "/a" noCacheOptions
        (settle 10 0 (.resolved (.json (.num 7)))
          (fetch plainEnv 0 "/a" noCacheOptions freshSys).2)).1.promiseId = some 1
    ∧ (fetch plainEnv 20 "/a" noCacheOptions
        (settle 10 0 (.resolved (.json (.num 7)))
          (fetch plainEnv 0 "/a" noCacheOptions freshSys).2)).2.started.length = 2 := by
  refine ⟨rfl, rfl, rfl, rfl, rfl⟩

theorem step_keeps (env : Env) (req : Request) (s : Sys) (ev : Event) (h : Keeps req s) :
    Keeps req (step env s ev) := by
  obtain ⟨hlt, hk⟩ := h
  cases ev with
  | fetch now url options =>
    simp only [step]
    rcases fetch_frame env now url options s with ⟨a, b, _⟩ | ⟨a, b, _⟩
    · exact ⟨by rw [a]; exact hlt, fun r hr => by rw [b] at hr; exact hk r hr⟩
    · refine ⟨by rw [a]; omega, fun r hr hid => ?_⟩
      rw [b] at hr
      rcases List.mem_append.1 hr with hr | hr
      · exact hk r hr hid
      · simp at hr
        subst hr
        simp [requestOf] at hid
        omega
  | settle now id outcome =>
    simp only [step, settle]
    cases findRequest id s.pending with
    | none => exact ⟨hlt, hk⟩
    | some q =>
      simp only []
      cases outcome with
      | resolved data =>
        obtain ⟨a, b, _⟩ := onFulfilled_frame now q data
          { s with pending := s.pending.filter (fun r => r.id != id),
                   settled := s.settled ++ [(id, .resolved data)] }
        refine ⟨by rw [b]; exact hlt, fun r hr hid => ?_⟩
        rw [a] at hr
        exact hk r (List.mem_of_mem_filter hr) hid
      | rejected e =>
        obtain ⟨a, b, _⟩ := release_frame q
          { s with pending := s.pending.filter (fun r => r.id != id),
                   settled := s.settled ++ [(id, .rejected e)] }
        refine ⟨by simp only [onRejected]; rw [b]; exact hlt, fun r hr hid => ?_⟩
        simp only [onRejected] at hr
        rw [a] at hr
        exact hk r (List.mem_of_mem_filter hr) hid
  | cleanup now => exact ⟨hlt, hk⟩
  | clearCache pattern => exact ⟨hlt, hk⟩

theorem run_keeps (env : Env) (req : Request) (events : List Event) :
    ∀ s, Keeps req s → Keeps req (run env s events) := by
  induction events with
  | nil => intro s h; exact h
  | cons ev rest ih => intro s h; exact ih _ (step_keeps env req s ev h)

theorem findRequest_some (id : Nat) (pending : List Request) (r : Request)
    (h : findRequest id pending = some r) : r ∈ pending ∧ r.id = id := by
  induction pending with
  | nil => simp [findRequest] at h
  | cons a rest ih =>
    simp only [findRequest] at h
    split_ifs at h with ha
    · injection h with h
      subst h
      exact ⟨List.mem_cons_self _ _, ha⟩
    · exact ⟨List.mem_cons_of_mem _ (ih h).1, (ih h).2⟩

/-- C5 (amended). In a reachable state, let `fetch(url, options)` with caching on start
a new request; let any events follow during which that request stays pending; and let
the request then resolve at time `now1` with a payload `d` other than `null`. Then an
identical `fetch` at a time `now2` with `now2 - now1 < MEMORY_TTL` returns a promise
resolved with `d` and changes nothing: no transport execution is started. -/
theorem fetch_idempotence (env : Env) (s : Sys) (between : List Event)
    (now0 now1 now2 : Int) (url : String) (options : Options) (d : Value)
    (hreach : Reachable env s)
    (hcache : options.useCache.getD true = true)
    (hd : d.isNull = false)
    (hnew : (fetch env now0 url options s).2.nextId = s.nextId + 1)
    (hstill : (findRequest s.nextId
        (run env (fetch env now0 url options s).2 between).pending).isSome = true)
    (ht : now2 - now1 < MEMORY_TTL) :
    fetch env now2 url options
        (settle now1 s.nextId (.resolved d) (run env (fetch env now0 url options s).2 between))
      = (.resolved d,
          settle now1 s.nextId (.resolved d)
            (run env (fetch env now0 url options s).2 between)) := by
  obtain ⟨st, events, rfl⟩ := hreach
  have hp : PendingInv (run env (Sys.init st) events) :=
    run_pending env events (Sys.init st) (fun r hr => by cases hr)
  generalize run env (Sys.init st) events = s at hp hnew hstill ⊢
  rcases fetch_frame env now0 url options s with ⟨a, _, _⟩ | ⟨a, b, _⟩
  · omega
  · have hk0 : Keeps (requestOf env url options s) (fetch env now0 url options s).2 := by
      refine ⟨by rw [a]; simp [requestOf], fun r hr hid => ?_⟩
      rw [b] at hr
      rcases List.mem_append.1 hr with hr | hr
      · have := hp r hr
        simp [requestOf] at hid
        omega
      · simpa using hr
    have hk := run_keeps env _ between _ hk0
    cases hfind : findRequest s.nextId (run env (fetch env now0 url options s).2 between).pending with
    | none => rw [hfind] at hstill; cases hstill
    | some r =>
      obtain ⟨hmem, hid⟩ := findRequest_some _ _ _ hfind
      have hr : r = requestOf env url options s := hk.2 r hmem (by rw [hid]; rfl)
      subst hr
      apply fetch_memory_hit env now2 url options _ d (now1 + MEMORY_TTL) hcache _ (by omega) hd
      simp only [settle, hfind]
      exact onFulfilled_memory now1 (requestOf env url options s) d _ hcache

/-- C5 at a concrete input: `fetch('/a')` at time 0, another request and a sweep in
between, resolution with payload 7 at time 10, and `fetch('/a')` again at time 20. -/
theorem fetch_idempotence_witness :
    fetch plainEnv 20 "/a" Options.empty
        (settle 10 freshSys.nextId (.resolved (.json (.num 7)))
          (run plainEnv (fetch plainEnv 0 "/a" Options.empty freshSys).2
            [Event.fetch 1 "/b" Options.empty, Event.cleanup 5]))
      = (.resolved (.json (.num 7)),
          settle 10 freshSys.nextId (.resolved (.json (.num 7)))
            (run plainEnv (fetch plainEnv 0 "/a" Options.empty freshSys).2
              [Event.fetch 1 "/b" Options.empty, Event.cleanup 5])) :=
  fetch_idempotence plainEnv freshSys [Event.fetch 1 "/b" Options.empty, Event.cleanup 5]
    0 10 20 "/a" Options.empty (.json (.num 7))
    ⟨⟨[], false, 5000000⟩, [], rfl⟩ rfl rfl rfl rfl (by decide)

/-! ## Deduplication and the concurrency ceiling -/

/-- C1 (the code at the failing input). With six requests active, `fetch('/same')`
starts a transport execution (request 6) that is queued and not entered in `inFlight`;
a second `fetch('/same')` issued while the first is pending finds no cache entry and no
`inFlight` entry, starts a second transport execution (request 7) and returns a
different promise. Both executions run with `retries = 0`, so each has issued its one
transport call, and neither has settled. -/
theorem queued_request_not_deduplicated :
    sixActive.nm.activeRequests = 6
    ∧ (fetch plainEnv 0 "/same" Options.empty sixActive).1.promiseId = some 6
    ∧ JSMap.has (fetch plainEnv 0 "/same" Options.empty sixActive).2.nm.inFlight
        (getCacheKey "/same" Options.empty) = false
    ∧ (fetch plainEnv 0 "/same" Options.empty
        (fetch plainEnv 0 "/same" Options.empty sixActive).2).1.promiseId = some 7
    ∧ ((fetch plainEnv 0 "/same" Options.empty
        (fetch plainEnv 0 "/same" Options.empty sixActive).2).2.pending.map
          (fun r => (r.id, r.cacheKey))).drop 6 = [(6, "GET:/same:"), (7, "GET:/same:")]
    ∧ (fetch plainEnv 0 "/same" Options.empty
        (fetch plainEnv 0 "/same" Options.empty sixActive).2).2.started.length
        = sixActive.started.length + 2
    ∧ ((fetch plainEnv 0 "/same" Options.empty
        (fetch plainEnv 0 "/same" Options.empty sixActive).2).2.started.map
          (fun r => r.retries)).drop 6 = [0, 0]
    ∧ (fetch plainEnv 0 "/same" Options.empty
        (fetch plainEnv 0 "/same" Options.empty sixActive).2).2.settled.length = 0 := by
  refine ⟨by decide, by decide, by decide, by decide, by decide, by decide, by decide,
    by decide⟩

/-- C2 (the code at the failing input). After ten calls of `fetch` for ten different
uncached addresses, ten transport executions have been started and none has finished,
more than `CONCURRENT_REQUESTS = 6`; four of the ten requests also sit in
`requestQueue`, their transport already started. Each execution runs with
`retries = 0`, so each has issued its one transport call. -/
theorem ceiling_exceeded :
    tenIssued.started.length = 10
    ∧ tenIssued.pending.length = 10
    ∧ tenIssued.settled.length = 0
    ∧ tenIssued.nm.requestQueue.map (fun q => q.promise) = [6, 7, 8, 9]
    ∧ tenIssued.pending.map (fun r => r.id) = [0, 1, 2, 3, 4, 5, 6, 7, 8, 9]
    ∧ tenIssued.started.map (fun r => r.retries) = [0, 0, 0, 0, 0, 0, 0, 0, 0, 0]
    ∧ tenIssued.nm.activeRequests = 6
    ∧ CONCURRENT_REQUESTS = 6 := by
  refine ⟨by decide, by decide, by decide, by decide, by decide, by decide, by decide,
    by decide⟩

theorem lookupCaches_manager (now : Int) (cacheKey : String) (useSession : Bool) (s : Sys) :
    (lookupCaches now cacheKey useSession s).2.nm.inFlight = s.nm.inFlight
    ∧ (lookupCaches now cacheKey useSession s).2.nm.activeRequests = s.nm.activeRequests := by
  unfold lookupCaches getFromMemoryCache setMemoryCache
  cases JSMap.get s.nm.memoryCache cacheKey with
  | none => simp only []; split_ifs <;> simp
  | some cached => simp only []; split_ifs <;> simp

theorem afterLookup_manager (env : Env) (now : Int) (url : String) (options : Options)
    (s : Sys) :
    (afterLookup env now url options s).nm.inFlight = s.nm.inFlight
    ∧ (afterLookup env now url options s).nm.activeRequests = s.nm.activeRequests := by
  unfold afterLookup
  split_ifs
  · exact lookupCaches_manager _ _ _ _
  · exact ⟨rfl, rfl⟩

theorem fetch_eq (env : Env) (now : Int) (url : String) (options : Options) (s : Sys) :
    fetch env now url options s
      = match (lookupOf env now url options s).1 with
        | some cached => (.resolved cached, (lookupOf env now url options s).2)
        | none =>
          dispatch (requestUrlOf env url) (getCacheKey (requestUrlOf env url) options) url
            options (options.useCache.getD true)
            (options.useSessionCache.getD false || shouldUseSessionCache url)
            (lookupOf env now url options s).2 := rfl

theorem lookupOf_frame (env : Env) (now : Int) (url : String) (options : Options) (s : Sys) :
    (lookupOf env now url options s).2.pending = s.pending
    ∧ (lookupOf env now url options s).2.nextId = s.nextId
    ∧ (lookupOf env now url options s).2.started = s.started
    ∧ (lookupOf env now url options s).2.nm.inFlight = s.nm.inFlight
    ∧ (lookupOf env now url options s).2.nm.activeRequests = s.nm.activeRequests := by
  obtain ⟨h1, h2, h3⟩ := afterLookup_frame env now url options s
  obtain ⟨h4, h5⟩ := afterLookup_manager env now url options s
  exact ⟨h1, h2, h3, h4, h5⟩

/-- A call of `fetch` that starts a new request while fewer than `CONCURRENT_REQUESTS`
are active returns the promise of that request and enters it in `inFlight` under the
cache key. -/
theorem fetch_admitted (env : Env) (now : Int) (url : String) (options : Options) (s : Sys)
    (hnew : (fetch env now url options s).2.nextId = s.nextId + 1)
    (hact : s.nm.activeRequests < CONCURRENT_REQUESTS) :
    (fetch env now url options s).1 = .promise s.nextId
    ∧ JSMap.get (fetch env now url options s).2.nm.inFlight
      (getCacheKey (requestUrlOf env url) options) = some s.nextId := by
  obtain ⟨_, h2, _, h4, h5⟩ := lookupOf_frame env now url options s
  rw [fetch_eq] at hnew ⊢
  cases hhit : (lookupOf env now url options s).1 with
  | some c =>
    simp only [hhit] at hnew
    omega
  | none =>
    simp only [hhit] at hnew ⊢
    unfold dispatch at hnew ⊢
    cases hget : JSMap.get (lookupOf env now url options s).2.nm.inFlight
        (getCacheKey (requestUrlOf env url) options) with
    | some p =>
      simp only [hget] at hnew
      omega
    | none =>
      have hlt : ¬ (lookupOf env now url options s).2.nm.activeRequests
          ≥ CONCURRENT_REQUESTS := by
        rw [h5]; omega
      simp only [hlt, ↓reduceIte]
      rw [h2]
      exact ⟨rfl, JSMap.get_set_self _ _ _⟩

/-- A call of `fetch` that finds no cached value while `inFlight` holds a promise for
its cache key returns that promise and starts nothing. -/
theorem fetch_joins_inflight (env : Env) (now : Int) (url : String) (options : Options)
    (s : Sys) (p : Nat)
    (hin : JSMap.get s.nm.inFlight (getCacheKey (requestUrlOf env url) options) = some p)
    (hmiss : (fetch env now url options s).1.promiseId.isSome = true) :
    (fetch env now url options s).1 = .promise p
    ∧ (fetch env now url options s).2.started = s.started
    ∧ (fetch env now url options s).2.pending = s.pending := by
  obtain ⟨h1, _, h3, h4, _⟩ := lookupOf_frame env now url options s
  rw [fetch_eq] at hmiss ⊢
  cases hhit : (lookupOf env now url options s).1 with
  | some c =>
    simp only [hhit] at hmiss
    simp [FetchReturn.promiseId] at hmiss
  | none =>
    simp only [hhit]
    unfold dispatch
    rw [h4, hin]
    exact ⟨rfl, h3, h1⟩

/-- X1. Deduplication of an admitted request: in any state with fewer than
`CONCURRENT_REQUESTS` active requests, when `fetch(url, options1)` starts a new request
and a `fetch(url, options2)` with the same cache key follows at once and is not served
from a cache, the second call returns the promise of the first request and starts no
transport execution. -/
theorem dedup_when_admitted (env : Env) (s : Sys) (now1 now2 : Int) (url : String)
    (options1 options2 : Options)
    (hkey : getCacheKey (requestUrlOf env url) options2
              = getCacheKey (requestUrlOf env url) options1)
    (hnew : (fetch env now1 url options1 s).2.nextId = s.nextId + 1)
    (hact : s.nm.activeRequests < CONCURRENT_REQUESTS)
    (hmiss : (fetch env now2 url options2
        (fetch env now1 url options1 s).2).1.promiseId.isSome = true) :
    (fetch env now1 url options1 s).1 = .promise s.nextId
    ∧ (fetch env now2 url options2 (fetch env now1 url options1 s).2).1 = .promise s.nextId
    ∧ (fetch env now2 url options2 (fetch env now1 url options1 s).2).2.started
        = s.started ++ [requestOf env url options1 s] := by
  obtain ⟨hret, hin⟩ := fetch_admitted env now1 url options1 s hnew hact
  rw [← hkey] at hin
  obtain ⟨j1, j2, _⟩ := fetch_joins_inflight env now2 url options2 _ s.nextId hin hmiss
  refine ⟨hret, j1, ?_⟩
  rw [j2]
  rcases fetch_frame env now1 url options1 s with ⟨a, _, _⟩ | ⟨_, _, c⟩
  · omega
  · exact c

/-- X1 at a concrete input: two calls of `fetch('/same')` on a fresh manager. -/
theorem dedup_when_admitted_witness :
    (fetch plainEnv 0 "/same" Options.empty freshSys).1 = .promise 0
    ∧ (fetch plainEnv 0 "/same" Options.empty
        (fetch plainEnv 0 "/same" Options.empty freshSys).2).1 = .promise 0
    ∧ (fetch plainEnv 0 "/same" Options.empty
        (fetch plainEnv 0 "/same" Options.empty freshSys).2).2.started
        = freshSys.started ++ [requestOf plainEnv "/same" Options.empty freshSys] :=
  dedup_when_admitted plainEnv freshSys 0 0 "/same" Options.empty Options.empty rfl rfl
    (by decide) rfl

/-- C3 (a concrete run). Eight requests are issued, so requests 6 and 7 are queued in
that order; when request 0 and then request 1 complete, `processQueue` takes request 6
first and request 7 second. -/
theorem fifo_release_witness :
    ((run plainEnv freshSys
        (fetchAll ["/a0", "/a1", "/a2", "/a3", "/a4", "/a5", "/a6", "/a7"]
          ++ [Event.settle 5 0 (.resolved (.json (.num 1)))])).admitted.map
        (fun q => q.promise) = [6])
    ∧ ((run plainEnv freshSys
        (fetchAll ["/a0", "/a1", "/a2", "/a3", "/a4", "/a5", "/a6", "/a7"]
          ++ [Event.settle 5 0 (.resolved (.json (.num 1))),
              Event.settle 6 1 (.resolved (.json (.num 1)))])).admitted.map
        (fun q => q.promise) = [6, 7])
    ∧ (run plainEnv freshSys
        (fetchAll ["/a0", "/a1", "/a2", "/a3", "/a4", "/a5", "/a6", "/a7"]
          ++ [Event.settle 5 0 (.resolved (.json (.num 1)))])).admitted
        ++ (run plainEnv freshSys
        (fetchAll ["/a0", "/a1", "/a2", "/a3", "/a4", "/a5", "/a6", "/a7"]
          ++ [Event.settle 5 0 (.resolved (.json (.num 1)))])).nm.requestQueue
        = (run plainEnv freshSys
        (fetchAll ["/a0", "/a1", "/a2", "/a3", "/a4", "/a5", "/a6", "/a7"]
          ++ [Event.settle 5 0 (.resolved (.json (.num 1)))])).enqueued :=
  ⟨by decide, by decide,
    (fifo_release plainEnv ⟨[], false, 5000000⟩
      (fetchAll ["/a0", "/a1", "/a2", "/a3", "/a4", "/a5", "/a6", "/a7"]
          ++ [Event.settle 5 0 (.resolved (.json (.num 1)))])).1⟩

/-! ## The size guard of the persistent tier -/

theorem jsLengthChars_append (a b : List Char) :
    jsLengthChars (a ++ b) = jsLengthChars a + jsLengthChars b := by
  induction a with
  | nil => simp [jsLengthChars]
  | cons c cs ih => simp [jsLengthChars, ih, Nat.add_assoc]

theorem escapeChars_replicate (n : Nat) :
    escapeChars (List.replicate n 'a') = List.replicate n 'a' := by
  induction n with
  | zero => rfl
  | succ n ih =>
    have h : escapeChar 'a' = ['a'] := by decide
    simp [List.replicate_succ, escapeChars, ih, h]

theorem jsLengthChars_replicate (n : Nat) : jsLengthChars (List.replicate n 'a') = n := by
  induction n with
  | zero => rfl
  | succ n ih =>
    have h : codeUnits 'a' = 1 := by decide
    simp [List.replicate_succ, jsLengthChars, ih, h]
    omega

/-- The characters of the record `{ data: s, expires: e }` for a string `s`. -/
theorem stringifyRecord_str (s : String) (e : Int) :
    (stringifyRecord (.json (.str s)) e).data
      = "\x7b\"data\":".data ++ (quoteChars s ++ (",\"expires\":".data
          ++ ((toString e).data ++ "\x7d".data))) := by
  have h1 : quoteChars "data" = "\"data\"".data := by decide
  have h2 : quoteChars "expires" = "\"expires\"".data := by decide
  simp only [stringifyRecord, stringify, stringifyChars, stringifyFields, h1, h2]
  simp [List.append_assoc]

/-- The record of a string of `n` letters that expires at 600000 serializes to `n + 28`
code units. -/
theorem record_length (n : Nat) :
    jsLength (stringifyRecord (.json (.str ⟨List.replicate n 'a'⟩)) 600000) = n + 28 := by
  have h3 : (toString (600000 : Int)).data = "600000".data := by decide
  have ha : jsLengthChars "\x7b\"data\":".data = 8 := by decide
  have hb : jsLengthChars ",\"expires\":".data = 11 := by decide
  have hc : jsLengthChars "600000".data = 6 := by decide
  have hd : jsLengthChars "\x7d".data = 1 := by decide
  have hq : jsLengthChars [dquote] = 1 := by decide
  have hdq : codeUnits dquote = 1 := by decide
  have hquote : jsLengthChars (quoteChars ⟨List.replicate n 'a'⟩) = n + 2 := by
    show jsLengthChars (dquote :: (escapeChars (List.replicate n 'a') ++ [dquote])) = n + 2
    rw [escapeChars_replicate, jsLengthChars, jsLengthChars_append, jsLengthChars_replicate,
      hq, hdq]
    omega
  rw [jsLength, stringifyRecord_str, h3, jsLengthChars_append, jsLengthChars_append,
    jsLengthChars_append, jsLengthChars_append, ha, hb, hc, hd, hquote]
  omega

theorem bigPayload_length : jsLength (stringifyRecord bigPayload (0 + SESSION_TTL)) = 500028 :=
  record_length 500000

theorem setItem_empty (k v : String) (q : Nat) (h : jsLength k + jsLength v ≤ q) :
    Storage.setItem ⟨[], false, q⟩ k v = some ⟨[(k, v)], false, q⟩ := by
  have hs : ¬ Storage.size (JSMap.set ([] : JSMap String) k v) > q := by
    simp only [JSMap.set, Storage.size]
    omega
  simp only [Storage.setItem, hs, ↓reduceIte, Bool.false_eq_true]
  rfl

theorem getItem_of_setItem (st st1 : Storage) (k v : String)
    (h : st.setItem k v = some st1) : st1.getItem k = some (some v) := by
  unfold Storage.setItem at h
  split_ifs at h with hb hq
  injection h with h
  subst h
  have hb2 : st.blocked = false := by simpa using hb
  simp only [Storage.getItem, hb2, JSMap.get_set_self]
  rfl

/-- A record within the size limit, for a key that `btoa` accepts, that `setItem`
accepts, is what `setSessionCache` stores. -/
theorem setSessionCache_writes (st st1 : Storage) (now : Int) (cacheKey : String)
    (data : Value) (ttl : Int) (sessionKey : String)
    (hsmall : jsLength (stringifyRecord data (now + ttl)) ≤ MAX_SESSION_SIZE)
    (hk : getSessionKey cacheKey = some sessionKey)
    (hset : st.setItem sessionKey (stringifyRecord data (now + ttl)) = some st1) :
    setSessionCache st now cacheKey data ttl = st1 := by
  have hg : ¬ jsLength (stringifyRecord data (now + ttl)) > MAX_SESSION_SIZE := by omega
  simp only [setSessionCache, setSessionCacheTry, hk, hg, hset, ↓reduceIte]

/-- C10 (counterexample). The record of a payload of 500000 letters serializes to
500028 code units, more than 500000, and `setSessionCache` writes it. -/
theorem size_guard_admits_500028 :
    jsLength (stringifyRecord bigPayload (0 + SESSION_TTL)) = 500028
    ∧ ¬ jsLength (stringifyRecord bigPayload (0 + SESSION_TTL)) ≤ 500000
    ∧ (setSessionCache ⟨[], false, 5000000⟩ 0 "GET:/property:" bigPayload SESSION_TTL).getItem
        "mdc_cache_v1_R0VUOi9wcm9wZXJ0eTo"
        = some (some (stringifyRecord bigPayload (0 + SESSION_TTL))) := by
  refine ⟨bigPayload_length, by rw [bigPayload_length]; decide, ?_⟩
  have hk : getSessionKey "GET:/property:" = some "mdc_cache_v1_R0VUOi9wcm9wZXJ0eTo" := by
    decide
  have hkl : jsLength "mdc_cache_v1_R0VUOi9wcm9wZXJ0eTo" = 32 := by decide
  have hsmall : jsLength (stringifyRecord bigPayload (0 + SESSION_TTL)) ≤ MAX_SESSION_SIZE := by
    rw [bigPayload_length]; decide
  have hset := setItem_empty "mdc_cache_v1_R0VUOi9wcm9wZXJ0eTo"
    (stringifyRecord bigPayload (0 + SESSION_TTL)) 5000000
    (by rw [bigPayload_length, hkl]; decide)
  rw [setSessionCache_writes _ _ 0 "GET:/property:" bigPayload SESSION_TTL _ hsmall hk hset]
  exact getItem_of_setItem _ _ _ _ hset

/-- C10 (amended). `setSessionCache` never raises an error. When the serialization of
`{ data, expires }` has more than `MAX_SESSION_SIZE = 512000` code units the store is
left unchanged. When it has at most 512000, `btoa` accepts the cache key and `setItem`
accepts the write, the record is written under the persistent key. When `btoa` rejects
the key or `setItem` throws, the store is left unchanged. The length of the key plays
no part in the guard. -/
theorem session_size_guard (st : Storage) (now : Int) (cacheKey : String) (data : Value)
    (ttl : Int) :
    MAX_SESSION_SIZE = 512000
    ∧ (jsLength (stringifyRecord data (now + ttl)) > MAX_SESSION_SIZE →
        setSessionCache st now cacheKey data ttl = st)
    ∧ (∀ sessionKey st1, jsLength (stringifyRecord data (now + ttl)) ≤ MAX_SESSION_SIZE →
        getSessionKey cacheKey = some sessionKey →
        st.setItem sessionKey (stringifyRecord data (now + ttl)) = some st1 →
        setSessionCache st now cacheKey data ttl = st1
        ∧ st1.getItem sessionKey = some (some (stringifyRecord data (now + ttl))))
    ∧ (getSessionKey cacheKey = none → setSessionCache st now cacheKey data ttl = st)
    ∧ (∀ sessionKey, getSessionKey cacheKey = some sessionKey →
        st.setItem sessionKey (stringifyRecord data (now + ttl)) = none →
        setSessionCache st now cacheKey data ttl = st) := by
  refine ⟨rfl, ?_, ?_, ?_, ?_⟩
  · intro hbig
    unfold setSessionCache setSessionCacheTry
    cases getSessionKey cacheKey with
    | none => rfl
    | some sk => simp only [hbig, ↓reduceIte]
  · intro sessionKey st1 hsmall hk hset
    exact ⟨setSessionCache_writes st st1 now cacheKey data ttl sessionKey hsmall hk hset,
      getItem_of_setItem st st1 _ _ hset⟩
  · intro hk
    simp only [setSessionCache, setSessionCacheTry, hk]
  · intro sessionKey hk hset
    unfold setSessionCache setSessionCacheTry
    simp only [hk]
    split_ifs
    · rfl
    · simp only [hset]

/-- C10 (a concrete write). The record of the payload 7 is written under the persistent
key of `GET:/property:`. -/
theorem session_size_guard_witness :
    (setSessionCache ⟨[], false, 5000000⟩ 0 "GET:/property:" (.json (.num 7))
        SESSION_TTL).getItem "mdc_cache_v1_R0VUOi9wcm9wZXJ0eTo"
      = some (some "\x7b\"data\":7,\"expires\":600000\x7d") :=
  have h := (session_size_guard ⟨[], false, 5000000⟩ 0 "GET:/property:" (.json (.num 7))
    SESSION_TTL).2.2.1 "mdc_cache_v1_R0VUOi9wcm9wZXJ0eTo"
    ⟨[("mdc_cache_v1_R0VUOi9wcm9wZXJ0eTo", "\x7b\"data\":7,\"expires\":600000\x7d")],
      false, 5000000⟩ (by decide) (by decide) rfl
  h.1 ▸ h.2

/-! ## The completion handlers and the tiers -/

/-- The settlement of a request that a call of `fetch` created, after any events that
left it pending, runs the handler of that request. -/
theorem settle_created (env : Env) (s : Sys) (between : List Event) (now0 : Int)
    (url : String) (options : Options)
    (hreach : Reachable env s)
    (hnew : (fetch env now0 url options s).2.nextId = s.nextId + 1)
    (hstill : (findRequest s.nextId
        (run env (fetch env now0 url options s).2 between).pending).isSome = true)
    (now1 : Int) (outcome : Outcome) :
    settle now1 s.nextId outcome (run env (fetch env now0 url options s).2 between)
      = match outcome with
        | .resolved data =>
          onFulfilled now1 (requestOf env url options s) data
            (settling s.nextId outcome (run env (fetch env now0 url options s).2 between))
        | .rejected _ =>
          onRejected (requestOf env url options s)
            (settling s.nextId outcome (run env (fetch env now0 url options s).2 between)) := by
  obtain ⟨st, events, rfl⟩ := hreach
  have hp : PendingInv (run env (Sys.init st) events) :=
    run_pending env events (Sys.init st) (fun r hr => by cases hr)
  generalize run env (Sys.init st) events = s at hp hnew hstill ⊢
  rcases fetch_frame env now0 url options s with ⟨a, _, _⟩ | ⟨a, b, _⟩
  · omega
  · have hk0 : Keeps (requestOf env url options s) (fetch env now0 url options s).2 := by
      refine ⟨by rw [a]; simp [requestOf], fun r hr hid => ?_⟩
      rw [b] at hr
      rcases List.mem_append.1 hr with hr | hr
      · have := hp r hr
        simp [requestOf] at hid
        omega
      · simpa using hr
    have hk := run_keeps env _ between _ hk0
    cases hfind : findRequest s.nextId (run env (fetch env now0 url options s).2 between).pending with
    | none => rw [hfind] at hstill; cases hstill
    | some r =>
      obtain ⟨hmem, hid⟩ := findRequest_some _ _ _ hfind
      have hr : r = requestOf env url options s := hk.2 r hmem (by rw [hid]; rfl)
      subst hr
      simp only [settle, hfind, settling]

theorem release_tiers (req : Request) (s : Sys) :
    (release req s).nm.memoryCache = s.nm.memoryCache
    ∧ (release req s).session = s.session
    ∧ (release req s).settled = s.settled := by
  unfold release processQueue
  cases hq : s.nm.requestQueue with
  | nil => simp [hq]
  | cons next rest =>
    by_cases hc : s.nm.activeRequests - 1 ≥ CONCURRENT_REQUESTS <;> simp [hq, hc]

/-- What the `.then` handler does to the two tiers. -/
theorem onFulfilled_tiers (now : Int) (req : Request) (data : Value) (s : Sys) :
    (req.useCache = true →
        (onFulfilled now req data s).nm.memoryCache
          = JSMap.set s.nm.memoryCache req.cacheKey ⟨data, now + MEMORY_TTL⟩)
    ∧ (req.useCache = false →
        (onFulfilled now req data s).nm.memoryCache = s.nm.memoryCache
        ∧ (onFulfilled now req data s).session = s.session)
    ∧ (req.useSession = false → (onFulfilled now req data s).session = s.session)
    ∧ (req.useCache = true → req.useSession = true →
        (onFulfilled now req data s).session
          = setSessionCache s.session now req.cacheKey data SESSION_TTL) := by
  obtain ⟨h1, h2, _⟩ := release_tiers req s
  unfold onFulfilled setMemoryCache
  refine ⟨?_, ?_, ?_, ?_⟩
  · intro hc
    simp only [hc, ↓reduceIte]
    split_ifs <;> simp [h1]
  · intro hc
    simp only [hc, Bool.false_eq_true, ↓reduceIte]
    exact ⟨h1, h2⟩
  · intro hs
    simp only [hs, Bool.false_eq_true, ↓reduceIte]
    split_ifs <;> exact h2
  · intro hc hs
    simp only [hc, hs, ↓reduceIte, h2]

/-- A write that the size guard refuses leaves the store as it is. -/
theorem setSessionCache_oversized (st : Storage) (now : Int) (cacheKey : String)
    (data : Value) (ttl : Int)
    (hbig : MAX_SESSION_SIZE < jsLength (stringifyRecord data (now + ttl))) :
    setSessionCache st now cacheKey data ttl = st := by
  unfold setSessionCache setSessionCacheTry
  cases getSessionKey cacheKey with
  | none => rfl
  | some sk =>
    have hg : jsLength (stringifyRecord data (now + ttl)) > MAX_SESSION_SIZE := hbig
    simp only [hg, ↓reduceIte]

theorem dispatch_tiers (requestUrl cacheKey url : String) (options : Options)
    (useCache useSession : Bool) (s : Sys) :
    (dispatch requestUrl cacheKey url options useCache useSession s).2.nm.memoryCache
        = s.nm.memoryCache
    ∧ (dispatch requestUrl cacheKey url options useCache useSession s).2.session = s.session := by
  unfold dispatch
  cases JSMap.get s.nm.inFlight cacheKey with
  | some p => exact ⟨rfl, rfl⟩
  | none =>
    simp only []
    split_ifs <;> exact ⟨rfl, rfl⟩

theorem getFromSessionCacheTry_items (st : Storage) (now : Int) (cacheKey : String)
    (r : Value × Storage) (h : getFromSessionCacheTry st now cacheKey = some r) :
    ∀ x ∈ r.2.items, x ∈ st.items := by
  unfold getFromSessionCacheTry at h
  cases hk : getSessionKey cacheKey with
  | none => simp [hk] at h
  | some sessionKey =>
    simp only [hk] at h
    have hrem : ∀ v : Value, (st.removeItem sessionKey).map (fun st1 => (v, st1)) = some r →
        ∀ x ∈ r.2.items, x ∈ st.items := by
      intro v hv
      cases hr : st.removeItem sessionKey with
      | none => simp [hr] at hv
      | some st1 =>
        simp only [hr, Option.map_some', Option.some.injEq] at hv
        subst hv
        exact removeItem_items st st1 sessionKey hr
    have hsame : ∀ v : Value, some (v, st) = some r → ∀ x ∈ r.2.items, x ∈ st.items := by
      intro v hv x hx
      injection hv with hv
      subst hv
      exact hx
    cases hg : st.getItem sessionKey with
    | none => simp [hg] at h
    | some o =>
      cases o with
      | none =>
        simp only [hg] at h
        exact hsame _ h
      | some stored =>
        simp only [hg] at h
        by_cases ht : truthyString stored = true
        · simp only [ht, Bool.not_true, Bool.false_eq_true, ↓reduceIte] at h
          cases hp : jsonParse stored with
          | none => simp [hp] at h
          | some cached =>
            simp only [hp] at h
            cases he : cached.prop "expires" with
            | none => simp [he] at h
            | some expires =>
              simp only [he] at h
              by_cases hx : jsGreater now expires = true
              · simp only [hx, ↓reduceIte] at h
                exact hrem _ h
              · by_cases hl : jsLength stored > MAX_SESSION_SIZE
                · simp only [hx, hl, ↓reduceIte] at h
                  exact hrem _ h
                · simp only [hx, hl, ↓reduceIte] at h
                  cases hd : cached.prop "data" with
                  | none => simp [hd] at h
                  | some d =>
                    simp only [hd, Option.map_some'] at h
                    exact hsame _ h
        · simp only [ht, Bool.not_false, ↓reduceIte] at h
          exact hsame _ h

/-- Reading the persistent tier adds no record to it. -/
theorem getFromSessionCache_items (st : Storage) (now : Int) (cacheKey : String) :
    ∀ x ∈ (getFromSessionCache st now cacheKey).2.items, x ∈ st.items := by
  unfold getFromSessionCache
  cases h : getFromSessionCacheTry st now cacheKey with
  | none => exact fun x hx => hx
  | some r => exact getFromSessionCacheTry_items st now cacheKey r h

/-- Reading the memory tier adds no entry to it. -/
theorem getFromMemoryCache_items (nm : NetworkManager) (now : Int) (cacheKey : String) :
    ∀ x ∈ (getFromMemoryCache nm now cacheKey).2.memoryCache, x ∈ nm.memoryCache := by
  unfold getFromMemoryCache
  cases JSMap.get nm.memoryCache cacheKey with
  | none => exact fun x hx => hx
  | some cached =>
    simp only []
    split_ifs
    · exact fun x hx => JSMap.mem_delete _ _ x hx
    · exact fun x hx => hx

/-- A call of `fetch` that starts a new request writes to neither tier: what either tier
holds after the call, it held before (the lookup can only evict). -/
theorem fetch_new_request_tiers (env : Env) (now : Int) (url : String) (options : Options)
    (s : Sys) (hnew : (fetch env now url options s).2.nextId = s.nextId + 1) :
    (∀ x ∈ (fetch env now url options s).2.nm.memoryCache, x ∈ s.nm.memoryCache)
    ∧ (∀ x ∈ (fetch env now url options s).2.session.items, x ∈ s.session.items) := by
  rw [fetch_eq] at hnew ⊢
  cases hl : (lookupOf env now url options s).1 with
  | some cached =>
    rw [hl] at hnew
    simp only [] at hnew
    have := (lookupOf_frame env now url options s).2.1
    omega
  | none =>
    simp only []
    obtain ⟨h1, h2⟩ := dispatch_tiers (requestUrlOf env url)
      (getCacheKey (requestUrlOf env url) options) url options (options.useCache.getD true)
      (options.useSessionCache.getD false || shouldUseSessionCache url)
      (lookupOf env now url options s).2
    rw [h1, h2]
    have hm := getFromMemoryCache_items s.nm now (getCacheKey (requestUrlOf env url) options)
    have hs := getFromSessionCache_items s.session now
      (getCacheKey (requestUrlOf env url) options)
    unfold lookupOf lookupCaches at hl ⊢
    by_cases hc : options.useCache.getD true = true
    · simp only [hc, ↓reduceIte] at hl ⊢
      split_ifs at hl ⊢
      · exact ⟨hm, hs⟩
      · exact ⟨hm, fun x hx => hx⟩
    · simp only [hc, Bool.false_eq_true, ↓reduceIte]
      exact ⟨fun x hx => hx, fun x hx => hx⟩

/-- C11. Let a call of `fetch(url, options)` with caching on, in a reachable state,
start a new request, and let that request succeed at time `now1` with a payload whose
`{ data, expires }` record serializes to more than `MAX_SESSION_SIZE = 512000` code
units (600000, say). Then the success handler leaves `sessionStorage` exactly as it
was, whether or not the address is eligible for the persistent tier, and the memory
tier afterwards holds the payload under the cache key with expiry `now1 + 300000`; the
call of `fetch` itself has added no record to `sessionStorage` either. -/
theorem oversized_payload_on_success (env : Env) (s : Sys) (between : List Event)
    (now0 now1 : Int) (url : String) (options : Options) (d : Value)
    (hreach : Reachable env s)
    (hcache : options.useCache.getD true = true)
    (hnew : (fetch env now0 url options s).2.nextId = s.nextId + 1)
    (hstill : (findRequest s.nextId
        (run env (fetch env now0 url options s).2 between).pending).isSome = true)
    (hbig : MAX_SESSION_SIZE < jsLength (stringifyRecord d (now1 + SESSION_TTL))) :
    (settle now1 s.nextId (.resolved d)
        (run env (fetch env now0 url options s).2 between)).session
      = (run env (fetch env now0 url options s).2 between).session
    ∧ JSMap.get (settle now1 s.nextId (.resolved d)
        (run env (fetch env now0 url options s).2 between)).nm.memoryCache
        (getCacheKey (requestUrlOf env url) options) = some ⟨d, now1 + 300000⟩
    ∧ ∀ x ∈ (fetch env now0 url options s).2.session.items, x ∈ s.session.items := by
  rw [settle_created env s between now0 url options hreach hnew hstill]
  simp only []
  obtain ⟨hm, _, hns, hs⟩ := onFulfilled_tiers now1 (requestOf env url options s) d
    (settling s.nextId (.resolved d) (run env (fetch env now0 url options s).2 between))
  have hc : (requestOf env url options s).useCache = true := hcache
  refine ⟨?_, ?_, (fetch_new_request_tiers env now0 url options s hnew).2⟩
  · cases hu : (requestOf env url options s).useSession with
    | false => rw [hns hu]; rfl
    | true =>
      rw [hs hc hu, setSessionCache_oversized _ _ _ _ _ hbig]
      rfl
  · rw [hm hc]
    exact JSMap.get_set_self _ _ _

theorem payload600000_length :
    jsLength (stringifyRecord payload600000 (0 + SESSION_TTL)) = 600000 :=
  record_length 599972

/-- C11 at a concrete input: `fetch('/site/properties')` on a fresh manager, answered at
time 0 with a payload whose record serializes to 600000 code units. -/
theorem oversized_payload_on_success_witness :
    jsLength (stringifyRecord payload600000 (0 + SESSION_TTL)) = 600000
    ∧ shouldUseSessionCache "/site/properties" = true
    ∧ (settle 0 freshSys.nextId (.resolved payload600000)
        (run plainEnv (fetch plainEnv 0 "/site/properties" Options.empty freshSys).2
          [])).session
      = (run plainEnv (fetch plainEnv 0 "/site/properties" Options.empty freshSys).2
          []).session
    ∧ JSMap.get (settle 0 freshSys.nextId (.resolved payload600000)
        (run plainEnv (fetch plainEnv 0 "/site/properties" Options.empty freshSys).2
          [])).nm.memoryCache
        (getCacheKey (requestUrlOf plainEnv "/site/properties") Options.empty)
      = some ⟨payload600000, 0 + 300000⟩ :=
  have h := oversized_payload_on_success plainEnv freshSys [] 0 0 "/site/properties"
    Options.empty payload600000 ⟨⟨[], false, 5000000⟩, [], rfl⟩ rfl rfl rfl
    (by rw [payload600000_length]; decide)
  ⟨payload600000_length, by decide, h.1, h.2.1⟩

/-- C15 (counterexample). After `fetch('/a', { useCache: false })` has succeeded with
the payload 7, the memory tier holds nothing under the cache key `GET:/a:`. -/
theorem no_write_through_without_cache :
    (fetch plainEnv 0 "/a" noCacheOptions freshSys).1.promiseId = some 0
    ∧ JSMap.has (settle 10 0 (.resolved (.json (.num 7)))
        (fetch plainEnv 0 "/a" noCacheOptions freshSys).2).nm.memoryCache "GET:/a:" = false
    ∧ getCacheKey (requestUrlOf plainEnv "/a") noCacheOptions = "GET:/a:" := by
  refine ⟨rfl, rfl, by decide⟩

/-- C15 (amended). Let a call of `fetch(url, options)` in a reachable state start a new
request (it missed the caches), and let that request succeed at time `now1` with the
payload `d`. If `useCache` is not false, the memory tier afterwards holds `d` under the
cache key, and the persistent tier is written (by `setSessionCache`) exactly when
`useSessionCache` is true or the address is on the allow-list; if `useCache` is false,
neither tier is written. -/
theorem write_through (env : Env) (s : Sys) (between : List Event)
    (now0 now1 : Int) (url : String) (options : Options) (d : Value)
    (hreach : Reachable env s)
    (hnew : (fetch env now0 url options s).2.nextId = s.nextId + 1)
    (hstill : (findRequest s.nextId
        (run env (fetch env now0 url options s).2 between).pending).isSome = true) :
    (options.useCache.getD true = true →
        JSMap.get (settle now1 s.nextId (.resolved d)
          (run env (fetch env now0 url options s).2 between)).nm.memoryCache
          (getCacheKey (requestUrlOf env url) options) = some ⟨d, now1 + MEMORY_TTL⟩)
    ∧ (options.useCache.getD true = true →
        (options.useSessionCache.getD false || shouldUseSessionCache url) = true →
        (settle now1 s.nextId (.resolved d)
          (run env (fetch env now0 url options s).2 between)).session
          = setSessionCache (run env (fetch env now0 url options s).2 between).session now1
              (getCacheKey (requestUrlOf env url) options) d SESSION_TTL)
    ∧ ((options.useSessionCache.getD false || shouldUseSessionCache url) = false →
        (settle now1 s.nextId (.resolved d)
          (run env (fetch env now0 url options s).2 between)).session
          = (run env (fetch env now0 url options s).2 between).session)
    ∧ (options.useCache.getD true = false →
        (settle now1 s.nextId (.resolved d)
          (run env (fetch env now0 url options s).2 between)).nm.memoryCache
          = (run env (fetch env now0 url options s).2 between).nm.memoryCache
        ∧ (settle now1 s.nextId (.resolved d)
          (run env (fetch env now0 url options s).2 between)).session
          = (run env (fetch env now0 url options s).2 between).session) := by
  rw [settle_created env s between now0 url options hreach hnew hstill]
  simp only []
  obtain ⟨hm, hn, hns, hs⟩ := onFulfilled_tiers now1 (requestOf env url options s) d
    (settling s.nextId (.resolved d) (run env (fetch env now0 url options s).2 between))
  refine ⟨fun hc => ?_, fun hc hu => ?_, fun hu => ?_, fun hc => ?_⟩
  · rw [hm hc]
    exact JSMap.get_set_self _ _ _
  · rw [hs hc hu]
    rfl
  · rw [hns hu]
    rfl
  · exact ⟨(hn hc).1, (hn hc).2⟩

/-- C15 at a concrete input: `fetch('/a')` on a fresh manager, answered at time 10
with the payload 7. -/
theorem write_through_witness :
    JSMap.get (settle 10 freshSys.nextId (.resolved (.json (.num 7)))
        (run plainEnv (fetch plainEnv 0 "/a" Options.empty freshSys).2 [])).nm.memoryCache
        (getCacheKey (requestUrlOf plainEnv "/a") Options.empty)
      = some ⟨.json (.num 7), 10 + MEMORY_TTL⟩ :=
  (write_through plainEnv freshSys [] 0 10 "/a" Options.empty (.json (.num 7))
    ⟨⟨[], false, 5000000⟩, [], rfl⟩ rfl rfl).1 rfl

/-- C17. Let a call of `fetch(url, options)` in a reachable state start a new request,
and let `executeRequest` finally fail with the error `e`. Then `requestPromise` rejects
with `e`; the failure handler leaves the memory tier and the persistent tier as they
were; the manager it leaves is what `processQueue` makes of the manager with the key
removed from `inFlight` and `activeRequests` one lower; and the call of `fetch` itself
has written to neither tier (what a tier holds after the call, it held before). -/
theorem failure_leaves_caches (env : Env) (s : Sys) (between : List Event)
    (now0 now1 : Int) (url : String) (options : Options) (e : JsError)
    (hreach : Reachable env s)
    (hnew : (fetch env now0 url options s).2.nextId = s.nextId + 1)
    (hstill : (findRequest s.nextId
        (run env (fetch env now0 url options s).2 between).pending).isSome = true) :
    requestPromiseOutcome (.rejected e) = .rejected e
    ∧ (settle now1 s.nextId (.rejected e)
        (run env (fetch env now0 url options s).2 between)).settled
      = (run env (fetch env now0 url options s).2 between).settled
          ++ [(s.nextId, .rejected e)]
    ∧ (settle now1 s.nextId (.rejected e)
        (run env (fetch env now0 url options s).2 between)).nm.memoryCache
      = (run env (fetch env now0 url options s).2 between).nm.memoryCache
    ∧ (settle now1 s.nextId (.rejected e)
        (run env (fetch env now0 url options s).2 between)).session
      = (run env (fetch env now0 url options s).2 between).session
    ∧ (settle now1 s.nextId (.rejected e)
        (run env (fetch env now0 url options s).2 between)).nm
      = (processQueue
          { (run env (fetch env now0 url options s).2 between).nm with
            inFlight := JSMap.delete (run env (fetch env now0 url options s).2 between).nm.inFlight
              (getCacheKey (requestUrlOf env url) options),
            activeRequests :=
              (run env (fetch env now0 url options s).2 between).nm.activeRequests - 1 }).2
    ∧ (∀ x ∈ (fetch env now0 url options s).2.nm.memoryCache, x ∈ s.nm.memoryCache)
    ∧ (∀ x ∈ (fetch env now0 url options s).2.session.items, x ∈ s.session.items) := by
  rw [settle_created env s between now0 url options hreach hnew hstill]
  simp only [onRejected]
  obtain ⟨h1, h2, h3⟩ := release_tiers (requestOf env url options s)
    (settling s.nextId (.rejected e) (run env (fetch env now0 url options s).2 between))
  exact ⟨rfl, h3, h1, h2, rfl, fetch_new_request_tiers env now0 url options s hnew⟩

/-- C17 at a concrete input: `fetch('/a')` on a fresh manager fails with a 503 error at
time 10. -/
theorem failure_leaves_caches_witness :
    (settle 10 freshSys.nextId (.rejected (httpError 503 "/a"))
        (run plainEnv (fetch plainEnv 0 "/a" Options.empty freshSys).2 [])).settled
      = (run plainEnv (fetch plainEnv 0 "/a" Options.empty freshSys).2 []).settled
          ++ [(freshSys.nextId, .rejected (httpError 503 "/a"))]
    ∧ (settle 10 freshSys.nextId (.rejected (httpError 503 "/a"))
        (run plainEnv (fetch plainEnv 0 "/a" Options.empty freshSys).2 [])).nm.memoryCache
      = (run plainEnv (fetch plainEnv 0 "/a" Options.empty freshSys).2 []).nm.memoryCache
    ∧ (settle 10 freshSys.nextId (.rejected (httpError 503 "/a"))
        (run plainEnv (fetch plainEnv 0 "/a" Options.empty freshSys).2 [])).nm.activeRequests
      = 0 :=
  have h := failure_leaves_caches plainEnv freshSys [] 0 10 "/a" Options.empty
    (httpError 503 "/a") ⟨⟨[], false, 5000000⟩, [], rfl⟩ rfl rfl
  ⟨h.2.1, h.2.2.1, by decide⟩

/-! ## Eligibility for the persistent tier -/

/-- With the persistent tier off for a request, the cache lookup neither reads nor
writes the session storage. -/
theorem lookupCaches_without_session (now : Int) (cacheKey : String) (s : Sys)
    (st : Storage) :
    lookupCaches now cacheKey false { s with session := st }
      = ((lookupCaches now cacheKey false s).1,
          { (lookupCaches now cacheKey false s).2 with session := st }) := by
  unfold lookupCaches
  simp only [Bool.false_eq_true, ↓reduceIte]
  split_ifs <;> rfl

theorem dispatch_session (requestUrl cacheKey url : String) (options : Options)
    (useCache useSession : Bool) (s : Sys) (st : Storage) :
    dispatch requestUrl cacheKey url options useCache useSession { s with session := st }
      = ((dispatch requestUrl cacheKey url options useCache useSession s).1,
          { (dispatch requestUrl cacheKey url options useCache useSession s).2 with
            session := st }) := by
  unfold dispatch
  cases JSMap.get s.nm.inFlight cacheKey with
  | some p => rfl
  | none =>
    simp only []
    split_ifs <;> rfl

/-- A call of `fetch` whose `useSessionCache` is not true, for an address off the
allow-list, neither reads nor writes the session storage. -/
theorem fetch_without_session (env : Env) (now : Int) (url : String) (options : Options)
    (s : Sys) (st : Storage)
    (hopt : options.useSessionCache.getD false = false)
    (hurl : shouldUseSessionCache url = false) :
    fetch env now url options { s with session := st }
      = ((fetch env now url options s).1,
          { (fetch env now url options s).2 with session := st }) := by
  have hu : (options.useSessionCache.getD false || shouldUseSessionCache url) = false := by
    rw [hopt, hurl]; rfl
  unfold fetch
  simp only [hu]
  cases hc : options.useCache.getD true with
  | false =>
    simp only [Bool.false_eq_true, ↓reduceIte]
    exact dispatch_session _ _ _ _ _ _ _ _
  | true =>
    simp only [↓reduceIte]
    rw [lookupCaches_without_session]
    cases (lookupCaches now (getCacheKey (requestUrlOf env url) options) false s).1 with
    | some c => rfl
    | none => exact dispatch_session _ _ _ _ _ _ _ _

theorem release_session (req : Request) (s : Sys) (st : Storage) :
    release req { s with session := st } = { release req s with session := st } := by
  unfold release
  rfl

/-- The `.then` handler of a request with the persistent tier off neither reads nor
writes the session storage. -/
theorem onFulfilled_without_session (now : Int) (req : Request) (data : Value) (s : Sys)
    (st : Storage) (h : req.useSession = false) :
    onFulfilled now req data { s with session := st }
      = { onFulfilled now req data s with session := st } := by
  unfold onFulfilled
  simp only [h, Bool.false_eq_true, ↓reduceIte, release_session]
  split_ifs <;> rfl

/-- C14 (counterexample). `fetchJSON('/site/filters-dynamic')`, an address off the
allow-list, uses the persistent tier: a successful answer is written to
`sessionStorage`, and a stored record is returned without any transport execution. So
does `fetch` with `useSessionCache: true`. -/
theorem fetchJSON_uses_session_tier :
    shouldUseSessionCache "/site/filters-dynamic" = false
    ∧ (settle 10 0 (.resolved (.json (.num 7)))
        (fetchJSON plainEnv 0 "/site/filters-dynamic" Options.empty freshSys).2).session.items
      = [("mdc_cache_v1_R0VUOi9zaXRlL2ZpbHRlcnMtZHluYW1pYzo",
          "\x7b\"data\":7,\"expires\":600010\x7d")]
    ∧ (fetchJSON plainEnv 20 "/site/filters-dynamic" Options.empty filtersStored).1
      = .resolved (.json (.num 7))
    ∧ (fetchJSON plainEnv 20 "/site/filters-dynamic" Options.empty filtersStored).2.started
      = []
    ∧ (settle 10 0 (.resolved (.json (.num 7)))
        (fetch plainEnv 0 "/site/filters-dynamic" sessionOptions freshSys).2).session.items
      = [("mdc_cache_v1_R0VUOi9zaXRlL2ZpbHRlcnMtZHluYW1pYzo",
          "\x7b\"data\":7,\"expires\":600010\x7d")] := by
  refine ⟨by decide, by decide, rfl, rfl, by decide⟩

/-- C14 (amended). For an address that contains none of the allow-listed fragments:
a call of `fetch` whose `useSessionCache` option is absent or false neither reads nor
writes the persistent tier, in the call and in the success handler of the request it
creates; `fetchJSON` hands `useSessionCache: true` to `fetch` unless the caller passed
`useSessionCache: false`, and only in that case does a call through `fetchJSON`
neither read nor write the persistent tier. -/
theorem session_tier_eligibility (env : Env) (now : Int) (url : String) (options : Options)
    (s : Sys) (hurl : shouldUseSessionCache url = false) :
    (options.useSessionCache.getD false = false →
        (∀ st, fetch env now url options { s with session := st }
            = ((fetch env now url options s).1,
                { (fetch env now url options s).2 with session := st }))
        ∧ (∀ now1 d s1 st,
            onFulfilled now1 (requestOf env url options s) d { s1 with session := st }
              = { onFulfilled now1 (requestOf env url options s) d s1 with session := st }))
    ∧ (fetchJSONOptions options).useSessionCache
        = some (options.useSessionCache != some false)
    ∧ (options.useSessionCache = some false →
        (∀ st, fetchJSON env now url options { s with session := st }
            = ((fetchJSON env now url options s).1,
                { (fetchJSON env now url options s).2 with session := st }))
        ∧ (∀ now1 d s1 st,
            onFulfilled now1 (requestOf env url (fetchJSONOptions options) s) d
                { s1 with session := st }
              = { onFulfilled now1 (requestOf env url (fetchJSONOptions options) s) d s1 with
                  session := st })) := by
  refine ⟨fun hopt => ⟨fun st => fetch_without_session env now url options s st hopt hurl,
      fun now1 d s1 st => onFulfilled_without_session now1 _ d s1 st ?_⟩, rfl,
    fun hopt => ⟨fun st => fetch_without_session env now url _ s st ?_ hurl,
      fun now1 d s1 st => onFulfilled_without_session now1 _ d s1 st ?_⟩⟩
  · show (options.useSessionCache.getD false || shouldUseSessionCache url) = false
    rw [hopt, hurl]; rfl
  · simp [fetchJSONOptions, hopt]
  · show ((fetchJSONOptions options).useSessionCache.getD false
      || shouldUseSessionCache url) = false
    simp [fetchJSONOptions, hopt, hurl]

/-- C14 at a concrete input: `fetch('/site/filters-dynamic')` on a system whose session
storage holds a record for that request does not read it (a transport execution is
started), and its success handler leaves the storage as it is. -/
theorem session_tier_eligibility_witness :
    (fetch plainEnv 20 "/site/filters-dynamic" Options.empty filtersStored).1.promiseId
      = some 0
    ∧ fetch plainEnv 20 "/site/filters-dynamic" Options.empty
        { freshSys with session := filtersStored.session }
      = ((fetch plainEnv 20 "/site/filters-dynamic" Options.empty freshSys).1,
          { (fetch plainEnv 20 "/site/filters-dynamic" Options.empty freshSys).2 with
            session := filtersStored.session }) :=
  ⟨rfl, ((session_tier_eligibility plainEnv 20 "/site/filters-dynamic" Options.empty
    freshSys (by decide)).1 rfl).1 filtersStored.session⟩
/-! ## Tiered lookup -/

/-- A stored record that parses, has not expired and is within the size limit is a hit
of the persistent tier, which is left as it is. -/
theorem getFromSessionCache_hit (st : Storage) (now : Int) (cacheKey sessionKey stored : String)
    (cached : Json) (expires d : Value)
    (hk : getSessionKey cacheKey = some sessionKey)
    (hs : st.getItem sessionKey = some (some stored))
    (hp : jsonParse stored = some cached)
    (he : cached.prop "expires" = some expires)
    (hd : cached.prop "data" = some d)
    (hj : jsGreater now expires = false) (hlen : jsLength stored ≤ MAX_SESSION_SIZE) :
    getFromSessionCache st now cacheKey = (d, st) := by
  have hne := jsonParse_nonempty stored cached hp
  have hl : ¬ jsLength stored > MAX_SESSION_SIZE := by omega
  simp only [getFromSessionCache, getFromSessionCacheTry, hk, hs, hne, hp, he, hj, hl, hd,
    Bool.not_true, Bool.false_eq_true, ↓reduceIte, Option.map_some']

/-- C16 (counterexample). The memory tier holds, for `GET:/a:`, an entry with the payload
`null` that is valid until time 100; `fetch('/a')` at time 50 does not return it but
starts a transport execution. -/
theorem null_entry_is_not_a_hit :
    JSMap.get nullEntrySys.nm.memoryCache "GET:/a:" = some ⟨jsNull, 100⟩
    ∧ (fetch plainEnv 50 "/a" Options.empty nullEntrySys).1.promiseId = some 0
    ∧ (fetch plainEnv 50 "/a" Options.empty nullEntrySys).2.started.length = 1
    ∧ (fetch plainEnv 50 "/a" Options.empty nullEntrySys).2.nm.activeRequests = 1 := by
  refine ⟨rfl, rfl, rfl, rfl⟩

/-- C16 (amended). For a `fetch` with `useCache` on and a payload `d` other than `null`:
if the memory tier holds an entry with data `d` that has not expired, the call returns
`d` and leaves the whole state as it is (persistent tier, `inFlight`, `requestQueue`,
`activeRequests`; no transport execution). Otherwise (the memory lookup gives `null`),
if the persistent tier is on for the request and holds a record that `JSON.parse`
accepts, with data `d`, for which `now > expires` does not hold and which is within the
size limit, the call returns `d`, starts no transport execution, leaves the persistent
tier as it is, and afterwards the memory tier holds `d` under the same key with expiry
`now + MEMORY_TTL`. For an expiry time that is an integer `e`, `now > expires` is
`now > e`; for a fraction see `jsGreater_number`. -/
theorem tiered_lookup (env : Env) (now : Int) (url : String) (options : Options) (s : Sys)
    (d : Value)
    (hcache : options.useCache.getD true = true) (hd : d.isNull = false) :
    (∀ e, JSMap.get s.nm.memoryCache (getCacheKey (requestUrlOf env url) options)
            = some ⟨d, e⟩ → now ≤ e →
        fetch env now url options s = (.resolved d, s))
    ∧ (∀ sessionKey stored cached expires,
        (getFromMemoryCache s.nm now (getCacheKey (requestUrlOf env url) options)).1.isNull
          = true →
        (options.useSessionCache.getD false || shouldUseSessionCache url) = true →
        getSessionKey (getCacheKey (requestUrlOf env url) options) = some sessionKey →
        s.session.getItem sessionKey = some (some stored) →
        jsonParse stored = some cached →
        cached.prop "expires" = some expires →
        cached.prop "data" = some d →
        jsGreater now expires = false → jsLength stored ≤ MAX_SESSION_SIZE →
        (fetch env now url options s).1 = .resolved d
        ∧ (fetch env now url options s).2.started = s.started
        ∧ (fetch env now url options s).2.pending = s.pending
        ∧ (fetch env now url options s).2.session = s.session
        ∧ (fetch env now url options s).2.nm.inFlight = s.nm.inFlight
        ∧ (fetch env now url options s).2.nm.activeRequests = s.nm.activeRequests
        ∧ JSMap.get (fetch env now url options s).2.nm.memoryCache
            (getCacheKey (requestUrlOf env url) options) = some ⟨d, now + MEMORY_TTL⟩)
    ∧ (∀ e : Int, jsGreater now (.json (.num e)) = decide (now > e)) := by
  refine ⟨?_, ?_, fun _ => rfl⟩
  · intro e hget hnow
    exact fetch_memory_hit env now url options s d e hcache hget (by omega) hd
  · intro sessionKey stored cached expires hmiss huse hk hs hp he hdata hnow hlen
    have hsess := getFromSessionCache_hit s.session now _ sessionKey stored cached expires d
      hk hs hp he hdata hnow hlen
    obtain ⟨f1, _, f3, f4, f5⟩ := lookupOf_frame env now url options s
    have hlook : lookupOf env now url options s
        = (some d, { s with
            nm := setMemoryCache
              (getFromMemoryCache s.nm now (getCacheKey (requestUrlOf env url) options)).2 now
              (getCacheKey (requestUrlOf env url) options) d MEMORY_TTL,
            session := s.session }) := by
      simp only [lookupOf, hcache, ↓reduceIte, lookupCaches, hmiss, huse, hsess, hd,
        Bool.not_true, Bool.not_false, Bool.false_eq_true]
    have hl1 : (lookupOf env now url options s).1 = some d := by rw [hlook]
    have hfetch : fetch env now url options s
        = (.resolved d, (lookupOf env now url options s).2) := by
      rw [fetch_eq]
      simp only [hl1]
    rw [hfetch]
    refine ⟨rfl, f3, f1, by rw [hlook], f4, f5, ?_⟩
    rw [hlook]
    exact JSMap.get_set_self _ _ _

/-- C16 at concrete inputs: the persistent tier holds the payload 1 for `GET:/a:` until
time 100; `fetch('/a', { useSessionCache: true })` at time 50 returns it and promotes
it to the memory tier with expiry 50 + 300000. The same for a record whose data holds
decimal fractions. -/
theorem tiered_lookup_witness :
    ((fetch plainEnv 50 "/a" sessionOptions storedAt100).1 = .resolved (.json (.num 1))
      ∧ (fetch plainEnv 50 "/a" sessionOptions storedAt100).2.started = storedAt100.started
      ∧ JSMap.get (fetch plainEnv 50 "/a" sessionOptions storedAt100).2.nm.memoryCache
          (getCacheKey (requestUrlOf plainEnv "/a") sessionOptions)
        = some ⟨.json (.num 1), 50 + MEMORY_TTL⟩)
    ∧ ((fetch plainEnv 50 "/a" sessionOptions (Sys.init sessionWithPrices)).1
        = .resolved (.json priceData)
      ∧ (fetch plainEnv 50 "/a" sessionOptions (Sys.init sessionWithPrices)).2.started = []
      ∧ JSMap.get (fetch plainEnv 50 "/a" sessionOptions
            (Sys.init sessionWithPrices)).2.nm.memoryCache
          (getCacheKey (requestUrlOf plainEnv "/a") sessionOptions)
        = some ⟨.json priceData, 50 + MEMORY_TTL⟩) :=
  have h := (tiered_lookup plainEnv 50 "/a" sessionOptions storedAt100 (.json (.num 1))
    rfl rfl).2.1 "mdc_cache_v1_R0VUOi9hOg" "\x7b\"data\":1,\"expires\":100\x7d"
    (.obj [("data", .num 1), ("expires", .num 100)]) (.json (.num 100)) rfl rfl (by decide)
    rfl rfl rfl rfl (by decide) (by decide)
  have h2 := (tiered_lookup plainEnv 50 "/a" sessionOptions (Sys.init sessionWithPrices)
    (.json priceData) rfl rfl).2.1 "mdc_cache_v1_R0VUOi9hOg" priceRecord
    (.obj [("data", priceData), ("expires", .dec false 100 [] 4)])
    (.json (.dec false 100 [] 4)) rfl rfl (by decide) rfl rfl rfl rfl (by decide) (by decide)
  ⟨⟨h.1, h.2.1, h.2.2.2.2.2.2⟩, ⟨h2.1, h2.2.1, h2.2.2.2.2.2.2⟩⟩

/-! ## `clearCache`, the cache key and the in-flight registry -/

/-- C12 (the code at the failing input). Both tiers hold the payload of
`GET:/site/properties?page=1:`. `clearCache('/site/properties')` removes the entry of
the memory tier and leaves the record of the persistent tier, whose key is the base-64
form of the cache key and does not contain the pattern; a `fetch` of the same address
afterwards is served from that record, without a transport execution.
`clearCache('cache')`, a pattern that the cache key does not contain, removes the
record of the persistent tier (its key begins with `mdc_cache_`) and leaves the memory
entry. -/
theorem clearCache_misses_session_tier :
    propertiesCached.nm.memoryCache.map (fun kv => kv.1) = ["GET:/site/properties?page=1:"]
    ∧ propertiesCached.session.items
      = [("mdc_cache_v1_R0VUOi9zaXRlL3Byb3BlcnRpZXMcGFnZT0xOg",
          "\x7b\"data\":7,\"expires\":600010\x7d")]
    ∧ getSessionKey "GET:/site/properties?page=1:"
      = some "mdc_cache_v1_R0VUOi9zaXRlL3Byb3BlcnRpZXMcGFnZT0xOg"
    ∧ includes "GET:/site/properties?page=1:" "/site/properties" = true
    ∧ (clearCache (some "/site/properties") propertiesCached).nm.memoryCache.length = 0
    ∧ (clearCache (some "/site/properties") propertiesCached).session.items
      = propertiesCached.session.items
    ∧ (fetch plainEnv 20 "/site/properties?page=1" Options.empty
        (clearCache (some "/site/properties") propertiesCached)).1
      = .resolved (.json (.num 7))
    ∧ includes "GET:/site/properties?page=1:" "cache" = false
    ∧ (clearCache (some "cache") propertiesCached).session.items = []
    ∧ (clearCache (some "cache") propertiesCached).nm.memoryCache.map (fun kv => kv.1)
      = ["GET:/site/properties?page=1:"] := by
  refine ⟨by decide, by decide, by decide, by decide, by decide, by decide, rfl, by decide,
    by decide, by decide⟩

/-- C19 (the code at the failing input). Six requests are active and a seventh, for
`/q`, is queued; the seventh settles first. Its handler finds nothing to delete in
`inFlight`, and `processQueue` then takes the entry of that same request from the
queue and enters its promise in `inFlight`: the registry maps `GET:/q:` to request 6,
which has settled and is no longer pending, and a later `fetch('/q', { useCache:
false })` is handed that settled promise instead of a new request. -/
theorem inflight_holds_settled_request :
    queuedSettled.settled.map (fun p => p.1) = [6]
    ∧ queuedSettled.pending.map (fun r => r.id) = [0, 1, 2, 3, 4, 5]
    ∧ JSMap.get queuedSettled.nm.inFlight "GET:/q:" = some 6
    ∧ queuedSettled.nm.requestQueue.length = 0
    ∧ (fetch plainEnv 999999999 "/q" noCacheOptions queuedSettled).1.promiseId = some 6
    ∧ (fetch plainEnv 999999999 "/q" noCacheOptions queuedSettled).2.started.length
      = queuedSettled.started.length := by
  refine ⟨by decide, by decide, by decide, by decide, by decide, by decide⟩

/-! ### The cache key -/

/-- C13 (counterexample). For the method `POST` and the address `/a`, an absent body and
the bodies `0`, `false`, `null` and `""` all give the cache key `POST:/a:`. -/
theorem falsy_bodies_share_a_key :
    getCacheKey "/a" (methodBody "POST" none) = "POST:/a:"
    ∧ getCacheKey "/a" (methodBody "POST" (some (.num 0))) = "POST:/a:"
    ∧ getCacheKey "/a" (methodBody "POST" (some (.bool false))) = "POST:/a:"
    ∧ getCacheKey "/a" (methodBody "POST" (some .null)) = "POST:/a:"
    ∧ getCacheKey "/a" (methodBody "POST" (some (.str ""))) = "POST:/a:" := by
  refine ⟨by decide, by decide, by decide, by decide, by decide⟩

/-! ## No exception leaves the persistent-tier operations -/

theorem tryCatch_total {α : Type} (body : Option α × Storage)
    (handler : Storage → Option α × Storage) (h : ∀ st, (handler st).1.isSome = true) :
    (tryCatch body handler).1.isSome = true := by
  unfold tryCatch
  cases hb : body.1 with
  | some a => rfl
  | none => exact h _

theorem removeAndMiss_value (f : Faults) (st : Storage) (sessionKey : String) (v : Value)
    (h : (removeAndMiss f st sessionKey).1 = some v) : v = jsNull := by
  unfold removeAndMiss at h
  cases hr : removeItemF f st sessionKey with
  | none => simp [hr] at h
  | some st1 => simp [hr] at h; exact h.symm

/-- What the `try` block of `getFromSessionCache` returns is `null` or the `data` of the
stored record. -/
theorem getFromSessionCacheBody_value (f : Faults) (st : Storage) (now : Int)
    (cacheKey : String) (v : Value)
    (h : (getFromSessionCacheBody f st now cacheKey).1 = some v) :
    v = jsNull ∨ ∃ sessionKey stored cached,
      getSessionKey cacheKey = some sessionKey
      ∧ st.getItem sessionKey = some (some stored)
      ∧ jsonParse stored = some cached
      ∧ cached.prop "data" = some v := by
  unfold getFromSessionCacheBody at h
  cases hk : getSessionKeyF f cacheKey with
  | none => simp [hk] at h
  | some sessionKey =>
    have hk2 : getSessionKey cacheKey = some sessionKey := by
      unfold getSessionKeyF at hk
      split_ifs at hk
      exact hk
    simp only [hk] at h
    cases hg : getItemF f st sessionKey with
    | none => simp [hg] at h
    | some o =>
      have hg2 : st.getItem sessionKey = some o := by
        unfold getItemF at hg
        split_ifs at hg
        exact hg
      cases o with
      | none => simp [hg] at h; exact Or.inl h.symm
      | some stored =>
        simp only [hg] at h
        by_cases ht : truthyString stored = true
        · simp only [ht, Bool.not_true, Bool.false_eq_true, ↓reduceIte] at h
          cases hp : parseF f stored with
          | none => simp [hp] at h
          | some cached =>
            have hp2 : jsonParse stored = some cached := by
              unfold parseF at hp
              split_ifs at hp
              exact hp
            simp only [hp] at h
            cases he : cached.prop "expires" with
            | none => simp [he] at h
            | some expires =>
              simp only [he] at h
              by_cases hx : jsGreater now expires = true
              · simp only [hx, ↓reduceIte] at h
                exact Or.inl (removeAndMiss_value f st sessionKey v h)
              · by_cases hl : jsLength stored > MAX_SESSION_SIZE
                · simp only [hx, hl, ↓reduceIte] at h
                  exact Or.inl (removeAndMiss_value f st sessionKey v h)
                · simp only [hx, hl, ↓reduceIte] at h
                  exact Or.inr ⟨sessionKey, stored, cached, hk2, hg2, hp2, h⟩
        · simp only [ht, Bool.not_false, ↓reduceIte] at h
          simp at h
          exact Or.inl h.symm

/-- C18. With every `sessionStorage` call, `btoa`, `JSON.parse` and `JSON.stringify`
able to throw: no exception leaves `getFromSessionCache`, which returns `null` or the
`data` of the record stored under the persistent key; none leaves `setSessionCache`,
`cleanupExpiredCache` or `clearCache`; and a record that is not JSON, as well as a
cache key that `btoa` rejects, makes `getFromSessionCache` return `null`. -/
theorem persistent_tier_never_throws (f : Faults) (st : Storage) (s : Sys) (now : Int)
    (cacheKey : String) (data : Value) (ttl : Int) (pattern : Option String) :
    (getFromSessionCacheF f st now cacheKey).1.isSome = true
    ∧ (∀ v, (getFromSessionCacheF f st now cacheKey).1 = some v →
        v = jsNull ∨ ∃ sessionKey stored cached,
          getSessionKey cacheKey = some sessionKey
          ∧ st.getItem sessionKey = some (some stored)
          ∧ jsonParse stored = some cached
          ∧ cached.prop "data" = some v)
    ∧ (setSessionCacheF f st now cacheKey data ttl).1.isSome = true
    ∧ (cleanupExpiredCacheF f now s).1.isSome = true
    ∧ (clearCacheF f pattern s).1.isSome = true
    ∧ (∀ sessionKey stored, getSessionKey cacheKey = some sessionKey →
        st.getItem sessionKey = some (some stored) → jsonParse stored = none →
        getFromSessionCacheF f st now cacheKey = (some jsNull, st))
    ∧ (btoa cacheKey = none → getFromSessionCacheF f st now cacheKey = (some jsNull, st)) := by
  refine ⟨?_, ?_, ?_, ?_, ?_, ?_, ?_⟩
  · exact tryCatch_total _ _ (fun _ => rfl)
  · intro v hv
    unfold getFromSessionCacheF tryCatch at hv
    cases hb : (getFromSessionCacheBody f st now cacheKey).1 with
    | some w =>
      simp only [hb] at hv
      injection hv with hv
      subst hv
      exact getFromSessionCacheBody_value f st now cacheKey w hb
    | none =>
      simp only [hb] at hv
      injection hv with hv
      exact Or.inl hv.symm
  · exact tryCatch_total _ _ (fun _ => rfl)
  · exact tryCatch_total _ _ (fun _ => rfl)
  · exact tryCatch_total _ _ (fun _ => rfl)
  · intro sessionKey stored hk hg hp
    have hparse : parseF f stored = none := by
      unfold parseF
      split_ifs
      · rfl
      · exact hp
    unfold getFromSessionCacheF tryCatch getFromSessionCacheBody
    by_cases hfk : f.btoa cacheKey = true
    · simp [getSessionKeyF, hfk]
    · by_cases hfg : f.getItem sessionKey = true
      · simp [getSessionKeyF, hfk, hk, getItemF, hfg]
      · by_cases ht : truthyString stored = true
        · simp [getSessionKeyF, hfk, hk, getItemF, hfg, hg, ht, hparse]
        · simp [getSessionKeyF, hfk, hk, getItemF, hfg, hg, ht]
  · intro hb
    have hk : getSessionKeyF f cacheKey = none := by
      unfold getSessionKeyF getSessionKey
      split_ifs
      · rfl
      · rw [hb]; rfl
    simp only [getFromSessionCacheF, tryCatch, getFromSessionCacheBody, hk]

/-! ### Without added faults the operations are the ones defined first -/

theorem removeAllF_plain (ks : List String) (st : Storage) (hb : st.blocked = false) :
    ∃ st1, removeAllF Faults.none st ks = (some (), st1) ∧ removeAll st ks = some st1 := by
  induction ks generalizing st with
  | nil => exact ⟨st, rfl, rfl⟩
  | cons k ks ih =>
    have hr : st.removeItem k = some { st with items := JSMap.delete st.items k } := by
      simp [Storage.removeItem, hb]
    obtain ⟨st1, h1, h2⟩ := ih { st with items := JSMap.delete st.items k } hb
    refine ⟨st1, ?_, ?_⟩
    · simp only [removeAllF, removeItemF, Faults.none, Bool.false_eq_true, ↓reduceIte, hr]
      exact h1
    · simp only [removeAll, hr]
      exact h2

theorem sweepLoopF_plain (now : Int) (items : JSMap String) (i : Nat) :
    sweepLoopF Faults.none now i items = some (sweepKeys now items) := by
  induction items generalizing i with
  | nil => rfl
  | cons kv rest ih =>
    obtain ⟨key, stored⟩ := kv
    have hs : sweepRemovesF Faults.none now key stored = sweepRemoves now stored := by
      simp [sweepRemovesF, sweepRemoves, parseF, Faults.none]
    have hk : Faults.none.key i = false := rfl
    simp only [sweepLoopF, hk, Bool.false_eq_true, ↓reduceIte, ih (i + 1), hs, sweepKeys]
    split_ifs <;> rfl

theorem clearLoopF_plain (pattern : Option String) (items : JSMap String) (i : Nat) :
    clearLoopF Faults.none pattern i items = some (clearKeys pattern items) := by
  induction items generalizing i with
  | nil => rfl
  | cons kv rest ih =>
    obtain ⟨key, stored⟩ := kv
    have hk : Faults.none.key i = false := rfl
    simp only [clearLoopF, hk, Bool.false_eq_true, ↓reduceIte, ih (i + 1), clearKeys]
    split_ifs <;> rfl

/-- With no added fault, the four operations of this section are `getFromSessionCache`,
`setSessionCache`, `cleanupExpiredCache` and `clearCache` as defined first. -/
theorem faults_none_agree (st : Storage) (s : Sys) (now : Int) (cacheKey : String)
    (data : Value) (ttl : Int) (pattern : Option String) :
    getFromSessionCacheF Faults.none st now cacheKey
        = (some (getFromSessionCache st now cacheKey).1, (getFromSessionCache st now cacheKey).2)
    ∧ setSessionCacheF Faults.none st now cacheKey data ttl
        = (some (), setSessionCache st now cacheKey data ttl)
    ∧ cleanupExpiredCacheF Faults.none now s = (some (), cleanupExpiredCache now s)
    ∧ clearCacheF Faults.none pattern s = (some (), clearCache pattern s) := by
  refine ⟨?_, ?_, ?_, ?_⟩
  · have hk : getSessionKeyF Faults.none cacheKey = getSessionKey cacheKey := rfl
    have hg : ∀ k, getItemF Faults.none st k = st.getItem k := fun _ => rfl
    have hp : ∀ t, parseF Faults.none t = jsonParse t := fun _ => rfl
    have hr : ∀ k, removeAndMiss Faults.none st k
        = match st.removeItem k with
          | none => (none, st)
          | some st1 => (some jsNull, st1) := fun _ => rfl
    unfold getFromSessionCacheF getFromSessionCacheBody getFromSessionCache
      getFromSessionCacheTry tryCatch
    rw [hk]
    cases h1 : getSessionKey cacheKey with
    | none => rfl
    | some sessionKey =>
      simp only [hg]
      cases h2 : st.getItem sessionKey with
      | none => rfl
      | some o =>
        cases o with
        | none => rfl
        | some stored =>
          simp only [hp, hr]
          by_cases ht : truthyString stored = true
          · simp only [ht, Bool.not_true, Bool.false_eq_true, ↓reduceIte]
            cases h3 : jsonParse stored with
            | none => rfl
            | some cached =>
              simp only []
              cases h4 : cached.prop "expires" with
              | none => rfl
              | some expires =>
                simp only []
                cases h5 : st.removeItem sessionKey with
                | none => split_ifs <;> first | rfl | (cases cached.prop "data" <;> rfl)
                | some st1 => split_ifs <;> first | rfl | (cases cached.prop "data" <;> rfl)
          · simp only [ht, Bool.not_false, ↓reduceIte]
  · have hk : getSessionKeyF Faults.none cacheKey = getSessionKey cacheKey := rfl
    have hs : ∀ k v, setItemF Faults.none st k v = st.setItem k v := fun _ _ => rfl
    have hj : stringifyF Faults.none data (now + ttl)
        = some (stringifyRecord data (now + ttl)) := rfl
    unfold setSessionCacheF setSessionCacheBody setSessionCache setSessionCacheTry tryCatch
    rw [hk]
    cases h1 : getSessionKey cacheKey with
    | none => rfl
    | some sessionKey =>
      simp only [hj, hs]
      by_cases hl : jsLength (stringifyRecord data (now + ttl)) > MAX_SESSION_SIZE
      · simp only [hl, ↓reduceIte]
      · simp only [hl, ↓reduceIte]
        cases h2 : st.setItem sessionKey (stringifyRecord data (now + ttl)) <;> rfl
  · have hl : Faults.none.length = false := rfl
    unfold cleanupExpiredCacheF cleanupExpiredCache sweepSessionBody sweepSession tryCatch
    cases hb : s.session.blocked with
    | true => simp [hl]
    | false =>
      obtain ⟨st1, h1, h2⟩ := removeAllF_plain (sweepKeys now s.session.items) s.session hb
      simp [hl, sweepLoopF_plain, h1, h2]
  · have hl : Faults.none.length = false := rfl
    unfold clearCacheF clearCache clearSessionBody clearSession tryCatch
    cases hb : s.session.blocked with
    | true => simp [hl]
    | false =>
      obtain ⟨st1, h1, h2⟩ := removeAllF_plain (clearKeys pattern s.session.items) s.session hb
      simp [hl, clearLoopF_plain, h1, h2]

/-- A record that is not JSON, met by `getFromSessionCache` with no added fault: the
result is `null` and the record stays. -/
theorem corrupt_record_is_a_miss :
    getSessionKey "GET:/a:" = some "mdc_cache_v1_R0VUOi9hOg"
    ∧ jsonParse "\x7bnot json" = none
    ∧ getFromSessionCacheF Faults.none corruptStore 0 "GET:/a:" = (some jsNull, corruptStore) := by
  refine ⟨by rfl, by rfl, by rfl⟩

/-! ## Integers survive `JSON.stringify` followed by `JSON.parse` -/

theorem digitChar_digit (n : Nat) (h : n < 10) :
    isDigit (Nat.digitChar n) = true ∧ (Nat.digitChar n).toNat - 48 = n
    ∧ (n ≠ 0 → (Nat.digitChar n == '0') = false) := by
  interval_cases n <;> decide

theorem toDigitsCore_append (fuel : Nat) : ∀ (n : Nat) (ds : List Char),
    Nat.toDigitsCore 10 fuel n ds = Nat.toDigitsCore 10 fuel n [] ++ ds := by
  induction fuel with
  | zero => intro n ds; rfl
  | succ fuel ih =>
    intro n ds
    simp only [Nat.toDigitsCore]
    split_ifs with h
    · rfl
    · rw [ih (n / 10) (Nat.digitChar (n % 10) :: ds), ih (n / 10) [Nat.digitChar (n % 10)]]
      simp

theorem parseDigits_stop (c : Char) (r : List Char) (acc : Nat) (hc : isDigit c = false) :
    parseDigits (c :: r) acc = (acc, c :: r) := by
  simp [parseDigits, hc]

theorem parseDigits_digit (d : Char) (cs : List Char) (acc : Nat) (hd : isDigit d = true) :
    parseDigits (d :: cs) acc = parseDigits cs (acc * 10 + (d.toNat - 48)) := by
  simp [parseDigits, hd]

theorem parseDigits_toDigitsCore (fuel : Nat) : ∀ (n : Nat), n < fuel → ∀ rest : List Char,
    parseDigits (Nat.toDigitsCore 10 fuel n [] ++ rest) 0 = parseDigits rest n := by
  induction fuel with
  | zero => intro n hn; omega
  | succ fuel ih =>
    intro n hn rest
    obtain ⟨hd, hv, _⟩ := digitChar_digit (n % 10) (Nat.mod_lt n (by decide))
    simp only [Nat.toDigitsCore]
    split_ifs with h
    · have hn10 : n % 10 = n := by omega
      rw [List.singleton_append, parseDigits_digit _ _ _ hd, hv, hn10]
      simp
    · rw [toDigitsCore_append fuel (n / 10) [Nat.digitChar (n % 10)], List.append_assoc,
        ih (n / 10) (by omega), List.singleton_append, parseDigits_digit _ _ _ hd, hv]
      congr 1
      omega

theorem toDigitsCore_head (fuel : Nat) : ∀ (n : Nat), n < fuel → 0 < n →
    ∃ c cs, Nat.toDigitsCore 10 fuel n [] = c :: cs ∧ isDigit c = true ∧ (c == '0') = false := by
  induction fuel with
  | zero => intro n hn; omega
  | succ fuel ih =>
    intro n hn hpos
    obtain ⟨hd, _, hz⟩ := digitChar_digit (n % 10) (Nat.mod_lt n (by decide))
    simp only [Nat.toDigitsCore]
    split_ifs with h
    · have hn10 : n % 10 ≠ 0 := by omega
      exact ⟨_, _, rfl, hd, hz hn10⟩
    · obtain ⟨c, cs, hcs, h1, h2⟩ := ih (n / 10) (by omega) (by omega)
      refine ⟨c, cs ++ [Nat.digitChar (n % 10)], ?_, h1, h2⟩
      rw [toDigitsCore_append fuel (n / 10) [Nat.digitChar (n % 10)], hcs]
      rfl

/-- The literal that `String(n)` gives is read back as `n`, up to a character that
does not go on with the number. -/
theorem parseNat_toDigits (n : Nat) (c : Char) (r : List Char) (hc : isDigit c = false) :
    parseNat (Nat.toDigits 10 n ++ c :: r) = some (n, c :: r)
    ∧ ∃ d ds, Nat.toDigits 10 n = d :: ds ∧ isDigit d = true := by
  rcases Nat.eq_zero_or_pos n with h0 | hpos
  · subst h0
    refine ⟨?_, '0', [], rfl, by decide⟩
    have h : Nat.toDigits 10 0 = ['0'] := rfl
    rw [h]
    simp [parseNat, hc]
  · obtain ⟨d, ds, hds, h1, h2⟩ := toDigitsCore_head (n + 1) n (by omega) hpos
    have hp := parseDigits_toDigitsCore (n + 1) n (by omega) (c :: r)
    unfold Nat.toDigits
    refine ⟨?_, d, ds, hds, h1⟩
    rw [hds] at hp ⊢
    rw [parseDigits_stop c r n hc, List.cons_append, parseDigits_digit _ _ _ h1, Nat.zero_mul,
      Nat.zero_add] at hp
    simp only [List.cons_append, parseNat, h2, Bool.false_eq_true, ↓reduceIte, h1, hp]

/-- An integer followed by a character that does not go on with the number has no
fraction and no exponent. -/
theorem mkNumber_integer (neg : Bool) (n : Nat) : mkNumber neg n [] 0 = .num (signed neg n) := by
  simp [mkNumber, digitsValue]

theorem parseTail_integer (c : Char) (r : List Char)
    (hf : startsFraction (c :: r) = false) :
    parseFraction (c :: r) = some ([], c :: r) ∧ parseExponent (c :: r) = some (0, c :: r) := by
  simp only [startsFraction, Bool.or_eq_false_iff] at hf
  obtain ⟨⟨h1, h2⟩, h3⟩ := hf
  simp [parseFraction, parseExponent, h1, h2, h3]

theorem parseNumber_toString (t : Int) (c : Char) (r : List Char) (hc : isDigit c = false)
    (hf : startsFraction (c :: r) = false) :
    parseNumber ((toString t).data ++ c :: r) = some (.num t, c :: r)
    ∧ ∃ d ds, (toString t).data = d :: ds ∧ (isDigit d = true ∨ d = '-') := by
  obtain ⟨hfr, hex⟩ := parseTail_integer c r hf
  cases t with
  | ofNat n =>
    obtain ⟨hp, d, ds, hds, hd⟩ := parseNat_toDigits n c r hc
    have hs : (toString (Int.ofNat n)).data = Nat.toDigits 10 n := rfl
    rw [hs]
    refine ⟨?_, d, ds, hds, Or.inl hd⟩
    rw [hds] at hp ⊢
    have hm : (d == '-') = false := by
      cases hdm : (d == '-') with
      | false => rfl
      | true =>
        have : d = '-' := by simpa using hdm
        subst this
        exact absurd hd (by decide)
    simp only [List.cons_append] at hp
    simp only [List.cons_append, parseNumber, hm, Bool.false_eq_true, ↓reduceIte, hp, hfr, hex,
      mkNumber_integer]
    rfl
  | negSucc m =>
    obtain ⟨hp, _⟩ := parseNat_toDigits (m + 1) c r hc
    have hs : (toString (Int.negSucc m)).data = '-' :: Nat.toDigits 10 (m + 1) := rfl
    rw [hs]
    refine ⟨?_, '-', _, rfl, Or.inr rfl⟩
    simp only [List.cons_append, parseNumber, beq_self_eq_true, ↓reduceIte, hp, hfr, hex,
      mkNumber_integer]
    rfl

/-- The characters of the record `{ data: t, expires: e }` for an integer `t`. -/
theorem stringifyRecord_num (t e : Int) :
    (stringifyRecord (.json (.num t)) e).data
      = Char.ofNat 123 :: dquote :: 'd' :: 'a' :: 't' :: 'a' :: dquote :: ':' ::
          ((toString t).data ++ ',' :: dquote :: 'e' :: 'x' :: 'p' :: 'i' :: 'r' :: 'e' :: 's'
            :: dquote :: ':' :: ((toString e).data ++ [Char.ofNat 125])) := by
  have h1 : quoteChars "data" = [dquote, 'd', 'a', 't', 'a', dquote] := by decide
  have h2 : quoteChars "expires" = [dquote, 'e', 'x', 'p', 'i', 'r', 'e', 's', dquote] := by
    decide
  simp only [stringifyRecord, stringify, stringifyChars, stringifyFields, h1, h2]
  simp [List.append_assoc]

theorem skipWs_number (t : Int) (rest : List Char) :
    skipWs ((toString t).data ++ rest) = (toString t).data ++ rest
    ∧ ∃ d ds, (toString t).data = d :: ds ∧ (isDigit d = true ∨ d = '-') := by
  obtain ⟨_, d, ds, hds, hd⟩ := parseNumber_toString t ',' [] (by decide) (by decide)
  refine ⟨?_, d, ds, hds, hd⟩
  rw [hds]
  have hw : isWs d = false := by
    rcases hd with hd | hd
    · cases hw : isWs d with
      | false => rfl
      | true =>
        simp only [isWs, isDigit, Bool.or_eq_true, Bool.and_eq_true, beq_iff_eq,
          decide_eq_true_eq] at hw hd
        omega
    · subst hd; decide
  simp [skipWs, hw]

/-- A number is read by `parseValue` as by `parseNumber`. -/
theorem parseValue_number (fuel : Nat) (t : Int) (c : Char) (r : List Char)
    (hc : isDigit c = false) (hf : startsFraction (c :: r) = false) :
    parseValue (fuel + 1) ((toString t).data ++ c :: r) = some (.num t, c :: r) := by
  obtain ⟨hp, _⟩ := parseNumber_toString t c r hc hf
  obtain ⟨hs, d, ds, hds, hd⟩ := skipWs_number t (c :: r)
  rw [parseValue, hs]
  rw [hds] at hp ⊢
  have hne : d ≠ 'n' ∧ d ≠ 't' ∧ d ≠ 'f' ∧ d ≠ dquote ∧ d ≠ '[' ∧ d ≠ Char.ofNat 123 := by
    rcases hd with hd | hd
    · refine ⟨?_, ?_, ?_, ?_, ?_, ?_⟩ <;> (intro h; subst h; exact absurd hd (by decide))
    · subst hd; decide
  obtain ⟨n1, n2, n3, n4, n5, n6⟩ := hne
  simp only [List.cons_append] at hp ⊢
  simp only [n1, n2, n3, n4, n5, n6, ↓reduceIte, hp]

theorem parseStringBody_data (rest : List Char) :
    parseStringBody ('d' :: 'a' :: 't' :: 'a' :: dquote :: ':' :: rest) []
      = some ("data", ':' :: rest) := rfl

theorem parseStringBody_expires (rest : List Char) :
    parseStringBody ('e' :: 'x' :: 'p' :: 'i' :: 'r' :: 'e' :: 's' :: dquote :: ':' :: rest) []
      = some ("expires", ':' :: rest) := rfl

theorem parseMembers_expires (fuel : Nat) (e : Int) :
    parseMembers (fuel + 2)
        (dquote :: 'e' :: 'x' :: 'p' :: 'i' :: 'r' :: 'e' :: 's' :: dquote :: ':'
          :: ((toString e).data ++ [Char.ofNat 125]))
      = some ([("expires", .num e)], []) := by
  have hv := parseValue_number fuel e (Char.ofNat 125) [] (by decide) (by decide)
  have hw : isWs dquote = false := by decide
  have hw2 : isWs ':' = false := by decide
  have hw3 : isWs (Char.ofNat 125) = false := by decide
  rw [parseMembers]
  simp only [skipWs, hw, hw2, hw3, Bool.false_eq_true, ↓reduceIte, parseStringBody_expires, hv]

theorem parseMembers_record (fuel : Nat) (t e : Int) :
    parseMembers (fuel + 3)
        (dquote :: 'd' :: 'a' :: 't' :: 'a' :: dquote :: ':' ::
          ((toString t).data ++ ',' :: dquote :: 'e' :: 'x' :: 'p' :: 'i' :: 'r' :: 'e' :: 's'
            :: dquote :: ':' :: ((toString e).data ++ [Char.ofNat 125])))
      = some ([("data", .num t), ("expires", .num e)], []) := by
  have hv := parseValue_number (fuel + 1) t ','
    (dquote :: 'e' :: 'x' :: 'p' :: 'i' :: 'r' :: 'e' :: 's' :: dquote :: ':'
      :: ((toString e).data ++ [Char.ofNat 125])) (by decide) rfl
  have hw : isWs dquote = false := by decide
  have hw2 : isWs ':' = false := by decide
  have hw3 : isWs ',' = false := by decide
  have hne : ',' ≠ Char.ofNat 125 := by decide
  rw [parseMembers]
  simp only [skipWs, hw, hw2, hw3, Bool.false_eq_true, ↓reduceIte, parseStringBody_data, hv,
    hne, parseMembers_expires]
  rfl

/-- A record `{ data: t, expires: e }` with integers `t` and `e` is read back by
`JSON.parse` as it was written by `JSON.stringify`. -/
theorem jsonParse_record (t e : Int) :
    jsonParse (stringifyRecord (.json (.num t)) e)
      = some (.obj [("data", .num t), ("expires", .num e)]) := by
  have hw : isWs (Char.ofNat 123) = false := by decide
  have hw2 : isWs dquote = false := by decide
  have hq : dquote ≠ Char.ofNat 125 := by decide
  have h1 : Char.ofNat 123 ≠ 'n' ∧ Char.ofNat 123 ≠ 't' ∧ Char.ofNat 123 ≠ 'f'
      ∧ Char.ofNat 123 ≠ dquote ∧ Char.ofNat 123 ≠ '[' := by decide
  obtain ⟨a1, a2, a3, a4, a5⟩ := h1
  unfold jsonParse
  rw [stringifyRecord_num]
  have hfuel : ∀ l : List Char, 2 * (Char.ofNat 123 :: l).length + 2 = 2 * l.length + 3 + 1 := by
    intro l
    simp only [List.length_cons]
    omega
  rw [hfuel, parseValue]
  simp only [skipWs, hw, hw2, Bool.false_eq_true, ↓reduceIte, a1, a2, a3, a4, a5, hq,
    parseMembers_record]
  rfl

/-! ### Numbers with a fraction or an exponent -/

/-- `JSON.parse` reads numbers with a fraction or an exponent, `JSON.stringify` writes
them back in the form JavaScript gives them, and a record that holds such numbers is
read as a record. -/
theorem jsonParse_decimals :
    jsonParse "99.5" = some (.dec false 99 [] 4)
    ∧ jsonParse "-0.25" = some (.dec true 0 [2] 4)
    ∧ jsonParse "1.50" = some (.dec false 1 [] 4)
    ∧ jsonParse "1.5e3" = some (.num 1500)
    ∧ jsonParse "12E-1" = some (.dec false 1 [] 1)
    ∧ jsonParse "1e-7" = some (.dec false 0 [0, 0, 0, 0, 0, 0] 0)
    ∧ stringify (.dec false 0 [0, 0, 0, 0, 0, 0] 0) = "1e-7"
    ∧ stringify (.dec false 0 [0, 0, 0, 0, 0] 0) = "0.000001"
    ∧ stringify (.dec false 0 [0, 0, 0, 0, 0, 0, 1] 4) = "1.5e-7"
    ∧ stringify (.dec true 99 [] 4) = "-99.5"
    ∧ jsonParse "01" = none ∧ jsonParse "1." = none ∧ jsonParse ".5" = none
    ∧ jsonParse "1e" = none ∧ jsonParse "-" = none
    ∧ jsonParse priceRecord
        = some (.obj [("data", priceData), ("expires", .dec false 100 [] 4)])
    ∧ stringify (.obj [("data", priceData), ("expires", .dec false 100 [] 4)])
        = priceRecord := by
  refine ⟨rfl, rfl, rfl, rfl, rfl, rfl, ?_, ?_, ?_, ?_, rfl, rfl, rfl, rfl, rfl, rfl, ?_⟩ <;>
    decide

/-! ## How old the data returned from a cache tier can be -/

theorem stampedRecords_subset (session : Bool) (st st1 : Storage)
    (h : StampedRecords session st) (hsub : ∀ x ∈ st1.items, x ∈ st.items) :
    StampedRecords session st1 :=
  fun kv hkv => h kv (hsub kv hkv)

theorem stampedEntries_subset (session : Bool) (m m1 : JSMap CacheEntry)
    (h : StampedEntries session m) (hsub : ∀ x ∈ m1, x ∈ m) :
    StampedEntries session m1 :=
  fun kv hkv => h kv (hsub kv hkv)

theorem stampedEntries_set (session : Bool) (m : JSMap CacheEntry) (k : String) (t e : Int)
    (h : StampedEntries session m) (he : e ≤ t + memoryBound session) :
    StampedEntries session (JSMap.set m k ⟨stamp t, e⟩) := by
  intro kv hkv
  rcases JSMap.mem_set m k _ kv hkv with h1 | h1
  · exact h kv h1
  · subst h1
    exact ⟨t, rfl, he⟩

theorem memoryBound_ge (session : Bool) : MEMORY_TTL ≤ memoryBound session := by
  cases session <;> decide

/-- What `getFromSessionCache` finds in a storage of stamped records: nothing, or a
stamped payload that has not expired; the records that stay are stamped. -/
theorem getFromSessionCache_stamped (session : Bool) (st : Storage) (now : Int)
    (cacheKey : String) (h : StampedRecords session st) :
    StampedRecords session (getFromSessionCache st now cacheKey).2
    ∧ ((getFromSessionCache st now cacheKey).1 = jsNull
      ∨ (session = true
        ∧ ∃ t, (getFromSessionCache st now cacheKey).1 = stamp t ∧ now ≤ t + SESSION_TTL)) := by
  unfold getFromSessionCache getFromSessionCacheTry
  cases hk : getSessionKey cacheKey with
  | none => exact ⟨h, Or.inl rfl⟩
  | some sessionKey =>
    simp only []
    cases hg : st.getItem sessionKey with
    | none => exact ⟨h, Or.inl rfl⟩
    | some o =>
      cases o with
      | none => exact ⟨h, Or.inl rfl⟩
      | some stored =>
        have hget : JSMap.get st.items sessionKey = some stored := by
          unfold Storage.getItem at hg
          split_ifs at hg
          injection hg
        obtain ⟨hs, t, e, hrec, hle⟩ := h _ (JSMap.mem_of_get _ _ _ hget)
        simp only at hrec
        have hp := jsonParse_record t e
        rw [stamp] at hrec
        rw [← hrec] at hp
        have hne := jsonParse_nonempty stored _ hp
        have he : (Json.obj [("data", .num t), ("expires", .num e)]).prop "expires"
            = some (.json (.num e)) := rfl
        have hd : (Json.obj [("data", .num t), ("expires", .num e)]).prop "data"
            = some (.json (.num t)) := rfl
        have hj : jsGreater now (.json (.num e)) = decide (now > e) := rfl
        simp only [hne, Bool.not_true, Bool.false_eq_true, ↓reduceIte, hp, he, hj, hd,
          decide_eq_true_eq, Option.map_some']
        by_cases h1 : now > e
        · simp only [h1, ↓reduceIte]
          cases hr : st.removeItem sessionKey with
          | none => exact ⟨h, Or.inl rfl⟩
          | some st1 =>
            exact ⟨stampedRecords_subset session st st1 h (removeItem_items st st1 _ hr),
              Or.inl rfl⟩
        · simp only [h1, ↓reduceIte]
          by_cases h2 : jsLength stored > MAX_SESSION_SIZE
          · simp only [h2, ↓reduceIte]
            cases hr : st.removeItem sessionKey with
            | none => exact ⟨h, Or.inl rfl⟩
            | some st1 =>
              exact ⟨stampedRecords_subset session st st1 h (removeItem_items st st1 _ hr),
                Or.inl rfl⟩
          · simp only [h2, ↓reduceIte]
            exact ⟨h, Or.inr ⟨hs, t, rfl, by omega⟩⟩

/-- What `setSessionCache` leaves in a storage of stamped records. -/
theorem setSessionCache_stamped (st : Storage) (now : Int) (cacheKey : String)
    (h : StampedRecords true st) :
    StampedRecords true (setSessionCache st now cacheKey (stamp now) SESSION_TTL) := by
  unfold setSessionCache setSessionCacheTry
  cases hk : getSessionKey cacheKey with
  | none => exact h
  | some sessionKey =>
    simp only []
    split_ifs with hl
    · exact h
    · cases hs : st.setItem sessionKey (stringifyRecord (stamp now) (now + SESSION_TTL)) with
      | none => exact h
      | some st1 =>
        simp only []
        have hi : st1.items
            = JSMap.set st.items sessionKey (stringifyRecord (stamp now) (now + SESSION_TTL)) := by
          unfold Storage.setItem at hs
          split_ifs at hs
          injection hs with hs
          subst hs
          rfl
        intro kv hkv
        rw [hi] at hkv
        rcases JSMap.mem_set _ _ _ kv hkv with h1 | h1
        · exact h kv h1
        · subst h1
          exact ⟨rfl, now, now + SESSION_TTL, rfl, le_refl _⟩

theorem getFromMemoryCache_stamped (session : Bool) (nm : NetworkManager) (now : Int)
    (cacheKey : String) (h : StampedEntries session nm.memoryCache) :
    StampedEntries session (getFromMemoryCache nm now cacheKey).2.memoryCache
    ∧ ((getFromMemoryCache nm now cacheKey).1 = jsNull
      ∨ ∃ t, (getFromMemoryCache nm now cacheKey).1 = stamp t
          ∧ now ≤ t + memoryBound session) := by
  unfold getFromMemoryCache
  cases hg : JSMap.get nm.memoryCache cacheKey with
  | none => exact ⟨h, Or.inl rfl⟩
  | some cached =>
    obtain ⟨t, hd, he⟩ := h _ (JSMap.mem_of_get _ _ _ hg)
    simp only at hd he ⊢
    split_ifs with hx
    · exact ⟨stampedEntries_subset session _ _ h (fun x hx => JSMap.mem_delete _ _ x hx),
        Or.inl rfl⟩
    · exact ⟨h, Or.inr ⟨t, hd, by omega⟩⟩

theorem stamp_isNull (t : Int) : (stamp t).isNull = false := rfl

theorem jsNull_isNull : jsNull.isNull = true := rfl

/-- The cache lookup of `fetch` in a state whose tiers hold stamped payloads within
their bounds: what it returns was obtained at most `memoryBound` earlier, and at most
`SESSION_TTL` earlier when the memory tier missed; the tiers stay as described. -/
theorem lookupCaches_fresh (session : Bool) (now : Int) (cacheKey : String)
    (useSession : Bool) (s : Sys) (h : Fresh session s) :
    Fresh session (lookupCaches now cacheKey useSession s).2
    ∧ ∀ d, (lookupCaches now cacheKey useSession s).1 = some d →
        ∃ t, d = stamp t ∧ now ≤ t + memoryBound session
          ∧ ((getFromMemoryCache s.nm now cacheKey).1.isNull = true → now ≤ t + SESSION_TTL) := by
  obtain ⟨hm, hs, hp⟩ := h
  obtain ⟨hm1, hv1⟩ := getFromMemoryCache_stamped session s.nm now cacheKey hm
  obtain ⟨hs1, hv2⟩ := getFromSessionCache_stamped session s.session now cacheKey hs
  unfold lookupCaches
  simp only []
  rcases hv1 with hv1 | ⟨t, hv1, hb⟩
  · simp only [hv1, jsNull_isNull, Bool.not_true, Bool.false_eq_true, ↓reduceIte]
    cases useSession with
    | false =>
      simp only [Bool.false_eq_true, ↓reduceIte]
      exact ⟨⟨hm1, hs, hp⟩, fun d hd => by cases hd⟩
    | true =>
      simp only [↓reduceIte]
      rcases hv2 with hv2 | ⟨hses, t, hv2, hb⟩
      · simp only [hv2, jsNull_isNull, Bool.not_true, Bool.false_eq_true, ↓reduceIte]
        exact ⟨⟨hm1, hs1, hp⟩, fun d hd => by cases hd⟩
      · simp only [hv2, stamp_isNull, Bool.not_false, ↓reduceIte]
        subst hses
        refine ⟨⟨?_, hs1, hp⟩, ?_⟩
        · exact stampedEntries_set true _ cacheKey t (now + MEMORY_TTL) hm1
            (by simp only [memoryBound, ↓reduceIte]; omega)
        · intro d hd
          injection hd with hd
          subst hd
          exact ⟨t, rfl, by simp only [memoryBound, ↓reduceIte, MEMORY_TTL]; omega,
            fun _ => hb⟩
  · simp only [hv1, stamp_isNull, Bool.not_false, ↓reduceIte]
    refine ⟨⟨hm1, hs, hp⟩, ?_⟩
    intro d hd
    injection hd with hd
    subst hd
    exact ⟨t, rfl, hb, fun hn => by simp [stamp_isNull] at hn⟩

theorem lookupOf_fresh (session : Bool) (env : Env) (now : Int) (url : String)
    (options : Options) (s : Sys) (h : Fresh session s) :
    Fresh session (lookupOf env now url options s).2
    ∧ ∀ d, (lookupOf env now url options s).1 = some d →
        ∃ t, d = stamp t ∧ now ≤ t + memoryBound session
          ∧ ((getFromMemoryCache s.nm now (getCacheKey (requestUrlOf env url) options)).1.isNull
              = true → now ≤ t + SESSION_TTL) := by
  unfold lookupOf
  split_ifs
  · exact lookupCaches_fresh session now _ _ s h
  · exact ⟨h, fun d hd => by cases hd⟩

theorem fetch_fresh (session : Bool) (env : Env) (now : Int) (url : String)
    (options : Options) (s : Sys) (h : Fresh session s)
    (hev : session = false → usesSession url options = false) :
    Fresh session (fetch env now url options s).2 := by
  obtain ⟨⟨hm, hs, hp⟩, _⟩ := lookupOf_fresh session env now url options s h
  rw [fetch_eq]
  cases hl : (lookupOf env now url options s).1 with
  | some cached => exact ⟨hm, hs, hp⟩
  | none =>
    simp only []
    obtain ⟨h1, h2⟩ := dispatch_tiers (requestUrlOf env url)
      (getCacheKey (requestUrlOf env url) options) url options (options.useCache.getD true)
      (options.useSessionCache.getD false || shouldUseSessionCache url)
      (lookupOf env now url options s).2
    refine ⟨h1 ▸ hm, h2 ▸ hs, ?_⟩
    rcases dispatch_frame (requestUrlOf env url)
      (getCacheKey (requestUrlOf env url) options) url options (options.useCache.getD true)
      (options.useSessionCache.getD false || shouldUseSessionCache url)
      (lookupOf env now url options s).2 with ⟨_, h3, _⟩ | ⟨_, h3, _⟩
    · rw [h3]
      exact hp
    · rw [h3]
      intro r hr hu
      rcases List.mem_append.mp hr with hr | hr
      · exact hp r hr hu
      · simp only [List.mem_singleton] at hr
        subst hr
        simp only at hu
        cases session with
        | true => rfl
        | false =>
          have := hev rfl
          unfold usesSession at this
          rw [this] at hu
          cases hu

theorem settle_fresh (session : Bool) (now : Int) (id : Nat) (outcome : Outcome) (s : Sys)
    (h : Fresh session s) (hev : ∀ data, outcome = .resolved data → data = stamp now) :
    Fresh session (settle now id outcome s) := by
  obtain ⟨hm, hs, hp⟩ := h
  unfold settle
  cases hf : findRequest id s.pending with
  | none => exact ⟨hm, hs, hp⟩
  | some req =>
    obtain ⟨hmem, _⟩ := findRequest_some id s.pending req hf
    have hp0 : ∀ r ∈ s.pending.filter (fun r => r.id != id),
        r.useSession = true → session = true :=
      fun r hr => hp r (List.mem_filter.mp hr).1
    simp only []
    cases outcome with
    | rejected error =>
      simp only [onRejected]
      obtain ⟨h1, _, _, h2, h3⟩ := release_frame req
        { s with pending := s.pending.filter (fun r => r.id != id),
                 settled := s.settled ++ [(id, Outcome.rejected error)] }
      exact ⟨h2 ▸ hm, h3 ▸ hs, h1 ▸ hp0⟩
    | resolved data =>
      have hdata := hev data rfl
      subst hdata
      simp only []
      obtain ⟨h1, _, _⟩ := onFulfilled_frame now req (stamp now)
        { s with pending := s.pending.filter (fun r => r.id != id),
                 settled := s.settled ++ [(id, Outcome.resolved (stamp now))] }
      obtain ⟨t1, t2, t3, t4⟩ := onFulfilled_tiers now req (stamp now)
        { s with pending := s.pending.filter (fun r => r.id != id),
                 settled := s.settled ++ [(id, Outcome.resolved (stamp now))] }
      refine ⟨?_, ?_, h1 ▸ hp0⟩
      · cases hc : req.useCache with
        | true =>
          rw [t1 hc]
          exact stampedEntries_set session _ _ now (now + MEMORY_TTL) hm
            (by have := memoryBound_ge session; omega)
        | false =>
          rw [(t2 hc).1]
          exact hm
      · cases hc : req.useCache with
        | false =>
          rw [(t2 hc).2]
          exact hs
        | true =>
          cases hu : req.useSession with
          | false =>
            rw [t3 hu]
            exact hs
          | true =>
            rw [t4 hc hu]
            have hses := hp req hmem hu
            subst hses
            exact setSessionCache_stamped _ now _ hs

theorem sweep_fresh (session : Bool) (now : Int) (s : Sys) (h : Fresh session s) :
    Fresh session (cleanupExpiredCache now s) := by
  obtain ⟨hm, hs, hp⟩ := h
  refine ⟨?_, ?_, hp⟩
  · exact stampedEntries_subset session _ _ hm (fun x hx => (List.mem_filter.mp hx).1)
  · show StampedRecords session (sweepSession now s.session)
    unfold sweepSession
    split_ifs
    · exact hs
    · cases hr : removeAll s.session (sweepKeys now s.session.items) with
      | none => exact hs
      | some st1 => exact stampedRecords_subset session _ _ hs (removeAll_items _ _ _ hr)

theorem clearCache_fresh (session : Bool) (pattern : Option String) (s : Sys)
    (h : Fresh session s) : Fresh session (clearCache pattern s) := by
  obtain ⟨hm, hs, hp⟩ := h
  refine ⟨?_, ?_, hp⟩
  · show StampedEntries session (clearMemory pattern s.nm.memoryCache)
    unfold clearMemory
    cases pattern with
    | none => exact fun kv hkv => by cases hkv
    | some p =>
      simp only []
      split_ifs
      · exact stampedEntries_subset session _ _ hm (fun x hx => (List.mem_filter.mp hx).1)
      · exact fun kv hkv => by cases hkv
  · show StampedRecords session (clearSession pattern s.session)
    unfold clearSession
    split_ifs
    · exact hs
    · cases hr : removeAll s.session (clearKeys pattern s.session.items) with
      | none => exact hs
      | some st1 => exact stampedRecords_subset session _ _ hs (removeAll_items _ _ _ hr)

theorem step_fresh (session : Bool) (env : Env) (s : Sys) (ev : Event) (h : Fresh session s)
    (hev : ev.timestamped session) : Fresh session (step env s ev) := by
  cases ev with
  | fetch now url options => exact fetch_fresh session env now url options s h hev
  | settle now id outcome =>
    refine settle_fresh session now id outcome s h ?_
    intro data hd
    subst hd
    exact hev
  | cleanup now => exact sweep_fresh session now s h
  | clearCache pattern => exact clearCache_fresh session pattern s h

theorem run_fresh (session : Bool) (env : Env) (events : List Event) : ∀ (s : Sys),
    Fresh session s → (∀ ev ∈ events, ev.timestamped session) →
    Fresh session (run env s events) := by
  induction events with
  | nil => intro s h _; exact h
  | cons ev rest ih =>
    intro s h hev
    exact ih (step env s ev) (step_fresh session env s ev h (hev ev (List.mem_cons_self _ _)))
      (fun e he => hev e (List.mem_cons_of_mem _ he))

theorem init_fresh (session blocked : Bool) (quota : Nat) :
    Fresh session (Sys.init ⟨[], blocked, quota⟩) := by
  refine ⟨?_, ?_, ?_⟩
  · exact fun kv hkv => by cases hkv
  · exact fun kv hkv => by cases hkv
  · exact fun r hr => by cases hr

/-- C20 (counterexample). The response obtained at time 0 is found in the persistent tier
at time 600000 and promoted; the memory tier then holds it until time 900000, and
`fetch` at time 900000 returns it from the memory tier, 900000 ms after it was obtained. -/
theorem promoted_entry_outlives_both_ttls :
    (fetch plainEnv 600000 "/site/properties" Options.empty
        (run plainEnv freshSys (promotionRun.take 2))).1.promiseId = none
    ∧ JSMap.get (run plainEnv freshSys promotionRun).nm.memoryCache "GET:/site/properties:"
        = some ⟨stamp 0, 900000⟩
    ∧ (getFromMemoryCache (run plainEnv freshSys promotionRun).nm 900000
        "GET:/site/properties:").1 = stamp 0
    ∧ fetch plainEnv 900000 "/site/properties" Options.empty (run plainEnv freshSys promotionRun)
        = (.resolved (stamp 0), run plainEnv freshSys promotionRun)
    ∧ (900000 : Int) - 0 > SESSION_TTL := by
  refine ⟨by rfl, by rfl, by rfl, by rfl, by decide⟩

/-- C20 (amended). In a run from a fresh manager over an empty session storage in which
every response carries the time at which it was obtained, what `fetch` returns from a
cache tier is such a response, obtained at most 900000 ms (`SESSION_TTL + MEMORY_TTL`)
earlier; at most 600000 ms earlier when the memory tier misses and the persistent tier
answers; and at most 300000 ms earlier when no `fetch` of the run uses the persistent
tier. -/
theorem bounded_staleness (env : Env) (session blocked : Bool) (quota : Nat)
    (events : List Event) (hev : ∀ ev ∈ events, ev.timestamped session)
    (now : Int) (url : String) (options : Options) (d : Value)
    (hhit : (fetch env now url options (run env (Sys.init ⟨[], blocked, quota⟩) events)).1
        = .resolved d) :
    ∃ t, d = stamp t ∧ now - t ≤ 900000
      ∧ ((getFromMemoryCache (run env (Sys.init ⟨[], blocked, quota⟩) events).nm now
            (getCacheKey (requestUrlOf env url) options)).1.isNull = true →
          now - t ≤ 600000)
      ∧ (session = false → now - t ≤ 300000) := by
  have hfresh := run_fresh session env events _ (init_fresh session blocked quota) hev
  obtain ⟨_, hval⟩ := lookupOf_fresh session env now url options _ hfresh
  rw [fetch_eq] at hhit
  cases hl : (lookupOf env now url options
      (run env (Sys.init ⟨[], blocked, quota⟩) events)).1 with
  | none =>
    rw [hl] at hhit
    simp only [] at hhit
    unfold dispatch at hhit
    cases hi : JSMap.get (lookupOf env now url options
        (run env (Sys.init ⟨[], blocked, quota⟩) events)).2.nm.inFlight
        (getCacheKey (requestUrlOf env url) options) with
    | some p => simp [hi] at hhit
    | none =>
      simp only [hi] at hhit
      split_ifs at hhit
  | some cached =>
    rw [hl] at hhit
    simp only [] at hhit
    injection hhit with hhit
    subst hhit
    obtain ⟨t, h1, h2, h3⟩ := hval cached hl
    refine ⟨t, h1, ?_, ?_, ?_⟩
    · have : memoryBound session ≤ 900000 := by cases session <;> decide
      omega
    · intro hn
      have := h3 hn
      simp only [SESSION_TTL] at this
      omega
    · intro hs
      subst hs
      simp only [memoryBound, Bool.false_eq_true, ↓reduceIte, MEMORY_TTL] at h2
      omega

/-- C20 at a concrete input: after the run in which the response obtained at time 0 is
promoted at time 600000, `fetch('/site/properties')` at time 900000 returns it. -/
theorem bounded_staleness_witness :
    ∃ t, stamp 0 = stamp t ∧ (900000 : Int) - t ≤ 900000
      ∧ ((getFromMemoryCache (run plainEnv (Sys.init ⟨[], false, 5000000⟩) promotionRun).nm
            900000 (getCacheKey (requestUrlOf plainEnv "/site/properties") Options.empty)).1.isNull
            = true → (900000 : Int) - t ≤ 600000)
      ∧ (true = false → (900000 : Int) - t ≤ 300000) :=
  bounded_staleness plainEnv true false 5000000 promotionRun
    (by
      intro ev hev
      simp only [promotionRun, List.mem_cons, List.mem_singleton, List.not_mem_nil,
        or_false] at hev
      rcases hev with h | h | h
      · subst h; intro hc; cases hc
      · subst h; rfl
      · subst h; intro hc; cases hc)
    900000 "/site/properties" Options.empty (stamp 0) (by rfl)

/-! ## The memory half of `clearCache` -/

theorem JSMap.get_filter_key {α : Type} (f : String → Bool) (m : JSMap α) (k : String) :
    JSMap.get (m.filter (fun kv => f kv.1)) k = if f k then JSMap.get m k else none := by
  induction m with
  | nil => simp [JSMap.get]
  | cons kv rest ih =>
    obtain ⟨k1, v1⟩ := kv
    by_cases hf : f k1 = true
    · simp only [List.filter, hf, JSMap.get]
      by_cases hk : k1 = k
      · subst hk
        simp [hf]
      · simp only [hk, ↓reduceIte]
        exact ih
    · have hf2 : f k1 = false := by simpa using hf
      simp only [List.filter, hf2, JSMap.get]
      rw [ih]
      by_cases hk : k1 = k
      · subst hk
        simp [hf2]
      · simp only [hk, ↓reduceIte]

/-- X3. In the memory tier, `clearCache(pattern)` with a non-empty pattern removes the
entries whose cache key contains the pattern and leaves every other key with the entry
it had; with no pattern, or the empty one, it empties the tier. -/
theorem clearCache_memory_tier (pattern : String) (s : Sys) (k : String)
    (hp : truthyString pattern = true) :
    JSMap.get (clearCache (some pattern) s).nm.memoryCache k
        = (if includes k pattern then none else JSMap.get s.nm.memoryCache k)
    ∧ (clearCache none s).nm.memoryCache = []
    ∧ (clearCache (some "") s).nm.memoryCache = [] := by
  refine ⟨?_, rfl, rfl⟩
  show JSMap.get (clearMemory (some pattern) s.nm.memoryCache) k = _
  simp only [clearMemory, hp, ↓reduceIte]
  rw [JSMap.get_filter_key (fun key => !includes key pattern)]
  cases includes k pattern <;> rfl

/-- X3 at a concrete input: `clearCache('/site/properties')` after the payload of
`/site/properties?page=1` has been cached. -/
theorem clearCache_memory_tier_witness :
    JSMap.get (clearCache (some "/site/properties") propertiesCached).nm.memoryCache
        "GET:/site/properties?page=1:"
        = (if includes "GET:/site/properties?page=1:" "/site/properties" then none
            else JSMap.get propertiesCached.nm.memoryCache "GET:/site/properties?page=1:")
    ∧ (clearCache none propertiesCached).nm.memoryCache = []
    ∧ (clearCache (some "") propertiesCached).nm.memoryCache = [] :=
  clearCache_memory_tier "/site/properties" propertiesCached "GET:/site/properties?page=1:"
    (by decide)

/-! ## The admission counter -/

theorem AdmissionInv_of_eq (s s1 : Sys) (h : AdmissionInv s)
    (ha : s1.nm.activeRequests = s.nm.activeRequests)
    (hq : s1.nm.requestQueue = s.nm.requestQueue)
    (hp : s1.pending = s.pending) (hn : s1.nextId = s.nextId) : AdmissionInv s1 := by
  unfold AdmissionInv at h ⊢
  rw [ha, hq, hp, hn]
  exact h

theorem lookupOf_queue (env : Env) (now : Int) (url : String) (options : Options) (s : Sys) :
    (lookupOf env now url options s).2.nm.requestQueue = s.nm.requestQueue := by
  unfold lookupOf
  split_ifs
  · exact (lookupCaches_queue now _ _ s).1
  · rfl

theorem dispatch_admission (requestUrl cacheKey url : String) (options : Options)
    (useCache useSession : Bool) (s : Sys) (h : AdmissionInv s) :
    AdmissionInv (dispatch requestUrl cacheKey url options useCache useSession s).2 := by
  obtain ⟨h1, h2, h3, h4, h5⟩ := h
  have hc : CONCURRENT_REQUESTS = 6 := rfl
  have hnodup : ((s.pending ++ [(⟨s.nextId, requestUrl, cacheKey, useCache, useSession,
      options.retries.getD 0, options.retryDelay.getD 1000⟩ : Request)]).map
        (fun r => r.id)).Nodup := by
    rw [List.map_append, List.nodup_append]
    refine ⟨h5, by simp, ?_⟩
    intro a ha hb
    simp only [List.map_cons, List.map_nil, List.mem_singleton] at hb
    obtain ⟨r, hr, hra⟩ := List.mem_map.mp ha
    have := h4 r hr
    omega
  have hbound : ∀ r ∈ s.pending ++ [(⟨s.nextId, requestUrl, cacheKey, useCache, useSession,
      options.retries.getD 0, options.retryDelay.getD 1000⟩ : Request)],
      r.id < s.nextId + 1 := by
    intro r hr
    rcases List.mem_append.mp hr with hr | hr
    · have := h4 r hr
      omega
    · simp only [List.mem_singleton] at hr
      subst hr
      simp
  unfold dispatch
  cases JSMap.get s.nm.inFlight cacheKey with
  | some p => exact ⟨h1, h2, h3, h4, h5⟩
  | none =>
    simp only []
    by_cases hge : s.nm.activeRequests ≥ CONCURRENT_REQUESTS
    · simp only [hge, ↓reduceIte]
      refine ⟨?_, h2, ?_, hbound, hnodup⟩
      · show s.nm.activeRequests + ((s.nm.requestQueue ++ [_]).length : Int)
            = ((s.pending ++ [_]).length : Int)
        simp only [List.length_append, List.length_singleton]
        push_cast
        omega
      · intro _
        show s.nm.activeRequests = CONCURRENT_REQUESTS
        omega
    · simp only [hge, ↓reduceIte]
      refine ⟨?_, ?_, ?_, hbound, hnodup⟩
      · show s.nm.activeRequests + 1 + (s.nm.requestQueue.length : Int)
            = ((s.pending ++ [_]).length : Int)
        simp only [List.length_append, List.length_singleton]
        push_cast
        omega
      · show s.nm.activeRequests + 1 ≤ CONCURRENT_REQUESTS
        omega
      · intro hq
        have := h3 hq
        omega

theorem fetch_admission (env : Env) (now : Int) (url : String) (options : Options) (s : Sys)
    (h : AdmissionInv s) : AdmissionInv (fetch env now url options s).2 := by
  obtain ⟨f1, f2, _, _, f5⟩ := lookupOf_frame env now url options s
  have hl : AdmissionInv (lookupOf env now url options s).2 :=
    AdmissionInv_of_eq s _ h f5 (lookupOf_queue env now url options s) f1 f2
  rw [fetch_eq]
  cases (lookupOf env now url options s).1 with
  | some cached => exact hl
  | none => exact dispatch_admission _ _ _ _ _ _ _ hl

theorem filter_id_length (id : Nat) (pending : List Request) (req : Request)
    (hf : findRequest id pending = some req)
    (hn : (pending.map (fun r => r.id)).Nodup) :
    (pending.filter (fun r => r.id != id)).length + 1 = pending.length := by
  induction pending with
  | nil => simp [findRequest] at hf
  | cons a rest ih =>
    simp only [List.map_cons, List.nodup_cons] at hn
    simp only [findRequest] at hf
    by_cases ha : a.id = id
    · have hrest : rest.filter (fun r => r.id != id) = rest := by
        apply List.filter_eq_self.mpr
        intro r hr
        have : r.id ≠ id := by
          intro hrid
          exact hn.1 (List.mem_map.mpr ⟨r, hr, by rw [hrid, ha]⟩)
        simpa using this
      have hneg : (a.id != id) = false := by simp [ha]
      rw [List.filter_cons]
      simp only [hneg, Bool.false_eq_true, ↓reduceIte, hrest, List.length_cons]
    · simp only [ha, ↓reduceIte] at hf
      have := ih hf hn.2
      have hpos : (a.id != id) = true := by simpa using ha
      rw [List.filter_cons]
      simp only [hpos, ↓reduceIte, List.length_cons]
      omega

theorem release_admission (req : Request) (s : Sys)
    (h1 : s.nm.activeRequests + s.nm.requestQueue.length = s.pending.length + 1)
    (h2 : s.nm.activeRequests ≤ CONCURRENT_REQUESTS)
    (h3 : s.nm.requestQueue ≠ [] → s.nm.activeRequests = CONCURRENT_REQUESTS)
    (h4 : ∀ r ∈ s.pending, r.id < s.nextId)
    (h5 : (s.pending.map (fun r => r.id)).Nodup) : AdmissionInv (release req s) := by
  have hc : CONCURRENT_REQUESTS = 6 := rfl
  obtain ⟨f1, f2, _⟩ := release_frame req s
  unfold AdmissionInv
  rw [f1, f2]
  refine ⟨?_, ?_, ?_, h4, h5⟩
  all_goals
    unfold release processQueue
    cases hq : s.nm.requestQueue with
    | nil =>
      simp only [hq, List.length_nil] at h1 ⊢
      first
        | omega
        | (intro hne; exact absurd rfl hne)
    | cons next rest =>
      have h6 := h3 (by rw [hq]; exact List.cons_ne_nil _ _)
      have hlt : ¬ s.nm.activeRequests - 1 ≥ CONCURRENT_REQUESTS := by omega
      simp only [hq, hlt, ↓reduceIte, List.length_cons] at h1 ⊢
      push_cast at h1 ⊢
      omega

theorem settle_admission (now : Int) (id : Nat) (outcome : Outcome) (s : Sys)
    (h : AdmissionInv s) : AdmissionInv (settle now id outcome s) := by
  obtain ⟨h1, h2, h3, h4, h5⟩ := h
  unfold settle
  cases hf : findRequest id s.pending with
  | none => exact ⟨h1, h2, h3, h4, h5⟩
  | some req =>
    have hlen := filter_id_length id s.pending req hf h5
    have hrel : ∀ o : Outcome, AdmissionInv (release req
        { s with pending := s.pending.filter (fun r => r.id != id),
                 settled := s.settled ++ [(id, o)] }) := by
      intro o
      refine release_admission req _ ?_ h2 h3 ?_ ?_
      · show s.nm.activeRequests + (s.nm.requestQueue.length : Int)
            = ((s.pending.filter (fun r => r.id != id)).length : Int) + 1
        have : ((s.pending.filter (fun r => r.id != id)).length : Int) + 1
            = (s.pending.length : Int) := by exact_mod_cast hlen
        omega
      · exact fun r hr => h4 r (List.mem_filter.mp hr).1
      · exact (List.Nodup.sublist ((List.filter_sublist _).map _) h5)
    simp only []
    cases outcome with
    | rejected error => exact hrel _
    | resolved data =>
      simp only []
      have hr := hrel (.resolved data)
      unfold onFulfilled setMemoryCache
      simp only []
      split_ifs <;> exact hr

theorem step_admission (env : Env) (s : Sys) (ev : Event) (h : AdmissionInv s) :
    AdmissionInv (step env s ev) := by
  cases ev with
  | fetch now url options => exact fetch_admission env now url options s h
  | settle now id outcome => exact settle_admission now id outcome s h
  | cleanup now => exact h
  | clearCache pattern => exact h

theorem run_admission (env : Env) (events : List Event) :
    ∀ s, AdmissionInv s → AdmissionInv (run env s events) := by
  induction events with
  | nil => intro s h; exact h
  | cons ev rest ih => intro s h; exact ih _ (step_admission env s ev h)

theorem init_admission (st : Storage) : AdmissionInv (Sys.init st) := by
  refine ⟨rfl, ?_, ?_, ?_, ?_⟩
  · show (0 : Int) ≤ CONCURRENT_REQUESTS
    decide
  · intro h; exact absurd rfl h
  · intro r hr; cases hr
  · exact List.nodup_nil

/-- C22. In every state that a fresh manager reaches by calls of `fetch` and
completions of requests (and by sweeps and calls of `clearCache`), `activeRequests`
lies between 0 and `CONCURRENT_REQUESTS = 6`, and it is 6 whenever `requestQueue` holds
an entry. -/
theorem admission_counter (env : Env) (s : Sys) (h : Reachable env s) :
    0 ≤ s.nm.activeRequests ∧ s.nm.activeRequests ≤ 6
    ∧ (s.nm.requestQueue ≠ [] → s.nm.activeRequests = 6) := by
  obtain ⟨st, events, hs⟩ := h
  subst hs
  obtain ⟨h1, h2, h3, _, _⟩ := run_admission env events _ (init_admission st)
  have hc : CONCURRENT_REQUESTS = 6 := rfl
  refine ⟨?_, by omega, fun hq => by have := h3 hq; omega⟩
  by_cases hq : (run env (Sys.init st) events).nm.requestQueue = []
  · rw [hq] at h1
    simp only [List.length_nil] at h1
    omega
  · have := h3 hq
    omega

/-- C22 at a concrete state: after ten calls of `fetch` for ten addresses the counter
is 6 and four requests are queued. -/
theorem admission_counter_witness :
    tenIssued.nm.requestQueue.length = 4
    ∧ 0 ≤ tenIssued.nm.activeRequests ∧ tenIssued.nm.activeRequests ≤ 6
    ∧ (tenIssued.nm.requestQueue ≠ [] → tenIssued.nm.activeRequests = 6) :=
  ⟨by decide, admission_counter plainEnv tenIssued ⟨⟨[], false, 5000000⟩, _, rfl⟩⟩

/-! ## What a resolved request carries -/

/-- C23 (counterexample). With `retries = -1` the loop of `executeRequest` is not
entered: the promise resolves with `undefined` and no transport call is made, although
the transport would answer with status 200. Through `fetch('/a', { retries: -1 })`
that `undefined` is stored in the memory tier and returned by the next call. -/
theorem negative_retries_resolve_undefined :
    executeRequest "/a" (-1) 1000 always200 = ⟨.resolved .undefined, 0, []⟩
    ∧ (fetch plainEnv 0 "/a" negativeRetries freshSys).2.started.map (fun r => r.retries)
        = [-1]
    ∧ (fetch plainEnv 20 "/a" negativeRetries
        (settle 10 0 (.resolved .undefined)
          (fetch plainEnv 0 "/a" negativeRetries freshSys).2)).1.promiseId = none := by
  refine ⟨rfl, by decide, by rfl⟩

theorem attemptResult_ok (url : String) (a : Attempt) (data : Json)
    (h : attemptResult url a = .ok data) :
    ∃ status, a = .response status (.ok data) ∧ statusOk status = true := by
  cases a with
  | thrown e => simp [attemptResult] at h
  | response status body =>
    simp only [attemptResult] at h
    by_cases hs : statusOk status = true
    · simp only [hs, ↓reduceIte] at h
      exact ⟨status, by rw [h], hs⟩
    · simp only [hs, Bool.false_eq_true, ↓reduceIte] at h
      cases h

/-- C23 (amended). With `retries ≥ 0`, whenever `executeRequest` resolves, at least one
transport call was made and the value is the parsed JSON payload of the last call,
whose response has `response.ok`; with `retries < 0` it resolves with `undefined` and
makes no transport call. -/
theorem resolved_carries_payload (url : String) (transport : Nat → Attempt)
    (retries retryDelay : Int) :
    (0 ≤ retries → ∀ v, (executeRequest url retries retryDelay transport).outcome = .resolved v →
      1 ≤ (executeRequest url retries retryDelay transport).calls
      ∧ ∃ k status data, transport k = .response status (.ok data) ∧ statusOk status = true
          ∧ v = .json data
          ∧ (executeRequest url retries retryDelay transport).calls = k + 1)
    ∧ (retries < 0 →
        executeRequest url retries retryDelay transport = ⟨.resolved .undefined, 0, []⟩) := by
  refine ⟨?_, ?_⟩
  · intro h v hv
    obtain ⟨k, data, _, hok, hval, _, hcalls⟩ :=
      executeLoop_resolved url transport (retries + 1) retryDelay (retries + 1).toNat 0 [] v
        (by push_cast; omega) (by push_cast; omega) hv
    obtain ⟨status, ht, hs⟩ := attemptResult_ok url (transport k) data hok
    have hc : (executeRequest url retries retryDelay transport).calls = k + 1 := hcalls
    exact ⟨by omega, k, status, data, ht, hs, hval, hc⟩
  · intro h
    have h0 : (retries + 1).toNat = 0 := by omega
    unfold executeRequest
    rw [h0]
    rfl

/-- C23 at a concrete input: `retries = 3`, a first response with status 503, then the
payload 7; and `retries = -2`. -/
theorem resolved_carries_payload_witness :
    (1 ≤ (executeRequest "/a" 3 1000 thenPayload).calls
      ∧ ∃ k status data, thenPayload k = .response status (.ok data) ∧ statusOk status = true
          ∧ Value.json (.num 7) = .json data
          ∧ (executeRequest "/a" 3 1000 thenPayload).calls = k + 1)
    ∧ executeRequest "/a" (-2) 1000 thenPayload = ⟨.resolved .undefined, 0, []⟩ :=
  ⟨(resolved_carries_payload "/a" thenPayload 3 1000).1 (by decide) (.json (.num 7)) rfl,
    (resolved_carries_payload "/a" thenPayload (-2) 1000).2 (by decide)⟩

/-! ## The key under which `processQueue` registers a request -/

/-- C26 (the code at the failing input). The request for the filters endpoint is queued
with the cache key of the address with `_origin`, the key that its handlers delete.
`processQueue` registers it under the key of the address without `_origin`. A second
`fetch` of the same address then finds no entry under its cache key and starts another
request, and after the queued request has succeeded its entry is still in `inFlight`. -/
theorem queue_key_differs :
    webhookDequeued.started.map (fun r => (r.id, r.cacheKey))
        = [(0, "GET:/a0:"), (1, "GET:/a1:"), (2, "GET:/a2:"), (3, "GET:/a3:"),
            (4, "GET:/a4:"), (5, "GET:/a5:"),
            (6, "GET:https://n8n.flwrks.com/webhook/site/filters-dynamic?_origin=https%3A%2F%2Fexample.com:")]
    ∧ webhookDequeued.nm.inFlight
        = [("GET:/a1:", 1), ("GET:/a2:", 2), ("GET:/a3:", 3), ("GET:/a4:", 4), ("GET:/a5:", 5),
            ("GET:https://n8n.flwrks.com/webhook/site/filters-dynamic:", 6)]
    ∧ (fetch originEnv 20 filtersUrl Options.empty webhookDequeued).1.promiseId = some 7
    ∧ (settle 30 6 (.resolved (.json (.num 8))) webhookDequeued).nm.inFlight
        = [("GET:/a1:", 1), ("GET:/a2:", 2), ("GET:/a3:", 3), ("GET:/a4:", 4), ("GET:/a5:", 5),
            ("GET:https://n8n.flwrks.com/webhook/site/filters-dynamic:", 6)]
    ∧ (settle 30 6 (.resolved (.json (.num 8))) webhookDequeued).pending.map (fun r => r.id)
        = [1, 2, 3, 4, 5] := by
  refine ⟨by decide, by decide, by decide, by decide, by decide⟩

theorem dispatch_queueKeys (env : Env) (url : String) (options : Options)
    (useCache useSession : Bool) (s : Sys) (h : QueueKeys env s) :
    QueueKeys env (dispatch (requestUrlOf env url) (getCacheKey (requestUrlOf env url) options)
      url options useCache useSession s).2 := by
  unfold dispatch
  cases JSMap.get s.nm.inFlight (getCacheKey (requestUrlOf env url) options) with
  | some p => exact h
  | none =>
    simp only []
    have hold : ∀ e ∈ s.nm.requestQueue, ∃ r ∈ s.started ++ [(⟨s.nextId, requestUrlOf env url,
        getCacheKey (requestUrlOf env url) options, useCache, useSession,
        options.retries.getD 0, options.retryDelay.getD 1000⟩ : Request)],
        r.id = e.promise ∧ r.cacheKey = getCacheKey (requestUrlOf env e.url) e.options := by
      intro e he
      obtain ⟨r, hr, h1, h2⟩ := h e he
      exact ⟨r, List.mem_append_left _ hr, h1, h2⟩
    split_ifs
    · intro e he
      rcases List.mem_append.mp he with he | he
      · exact hold e he
      · simp only [List.mem_singleton] at he
        subst he
        exact ⟨_, List.mem_append_right _ (List.mem_singleton_self _), rfl, rfl⟩
    · exact hold

theorem fetch_queueKeys (env : Env) (now : Int) (url : String) (options : Options) (s : Sys)
    (h : QueueKeys env s) : QueueKeys env (fetch env now url options s).2 := by
  have hl : QueueKeys env (lookupOf env now url options s).2 := by
    unfold QueueKeys
    rw [lookupOf_queue, (lookupOf_frame env now url options s).2.2.1]
    exact h
  rw [fetch_eq]
  cases (lookupOf env now url options s).1 with
  | some cached => exact hl
  | none => exact dispatch_queueKeys env url options _ _ _ hl

theorem release_queueKeys (env : Env) (req : Request) (s : Sys) (h : QueueKeys env s) :
    QueueKeys env (release req s) := by
  have hs := (release_frame req s).2.2.1
  unfold QueueKeys
  rw [hs]
  intro e he
  apply h e
  unfold release processQueue at he
  cases hq : s.nm.requestQueue with
  | nil => simp [hq] at he
  | cons next rest =>
    simp only [hq] at he
    split_ifs at he
    · exact he
    · exact List.mem_cons_of_mem _ he

theorem settle_queueKeys (env : Env) (now : Int) (id : Nat) (outcome : Outcome) (s : Sys)
    (h : QueueKeys env s) : QueueKeys env (settle now id outcome s) := by
  unfold settle
  cases findRequest id s.pending with
  | none => exact h
  | some req =>
    have hrel : ∀ o : Outcome, QueueKeys env (release req
        { s with pending := s.pending.filter (fun r => r.id != id),
                 settled := s.settled ++ [(id, o)] }) :=
      fun o => release_queueKeys env req _ h
    simp only []
    cases outcome with
    | rejected error => exact hrel _
    | resolved data =>
      simp only []
      have hr := hrel (.resolved data)
      unfold onFulfilled setMemoryCache
      simp only []
      split_ifs <;> exact hr

theorem run_queueKeys (env : Env) (events : List Event) :
    ∀ s, QueueKeys env s → QueueKeys env (run env s events) := by
  induction events with
  | nil => intro s h; exact h
  | cons ev rest ih =>
    intro s h
    apply ih
    cases ev with
    | fetch now url options => exact fetch_queueKeys env now url options s h
    | settle now id outcome => exact settle_queueKeys env now id outcome s h
    | cleanup now => exact h
    | clearCache pattern => exact h

/-- X4. In every reachable state, an entry of `requestQueue` belongs to a request that
was started with the promise of the entry, and the cache key of that request is the key
of the entry's address as `fetch` rewrites it; for an address that holds neither
`webhook` nor `n8n` it is the key under which `processQueue` will register the entry. -/
theorem queue_key_consistent (env : Env) (s : Sys) (h : Reachable env s) :
    ∀ e ∈ s.nm.requestQueue, ∃ r ∈ s.started,
      r.id = e.promise
      ∧ r.cacheKey = getCacheKey (requestUrlOf env e.url) e.options
      ∧ (includes e.url "webhook" = false → includes e.url "n8n" = false →
          getCacheKey e.url e.options = r.cacheKey) := by
  obtain ⟨st, events, hs⟩ := h
  subst hs
  intro e he
  obtain ⟨r, hr, h1, h2⟩ := run_queueKeys env events (Sys.init st)
    (fun e he => by cases he) e he
  refine ⟨r, hr, h1, h2, ?_⟩
  intro hw hn
  rw [h2]
  unfold requestUrlOf
  simp only [hw, hn, Bool.or_self, Bool.false_eq_true, ↓reduceIte]

/-- X4 at a concrete state: the four entries queued after ten calls of `fetch`. -/
theorem queue_key_consistent_witness :
    tenIssued.nm.requestQueue.map (fun e => e.url) = ["/a6", "/a7", "/a8", "/a9"]
    ∧ ∀ e ∈ tenIssued.nm.requestQueue, ∃ r ∈ tenIssued.started,
      r.id = e.promise
      ∧ r.cacheKey = getCacheKey (requestUrlOf plainEnv e.url) e.options
      ∧ (includes e.url "webhook" = false → includes e.url "n8n" = false →
          getCacheKey e.url e.options = r.cacheKey) :=
  ⟨by decide, queue_key_consistent plainEnv tenIssued ⟨⟨[], false, 5000000⟩, _, rfl⟩⟩

/-! ## The persistent keys -/

/-- C24 (the code at the failing input). The cache keys of `/search?q=abc>d` and
`/search?q=abc?d` differ in one character, which base-64 turns into `+` for the one and
into `/` for the other; both are stripped, so the two persistent keys are the same.
The record written for the first request is returned to a `fetch` of the second, at a
time when the memory tier has nothing for it, without a transport execution. -/
theorem session_keys_collide :
    getCacheKey "/search?q=abc>d" sessionOptions = "GET:/search?q=abc>d:"
    ∧ getCacheKey "/search?q=abc?d" sessionOptions = "GET:/search?q=abc?d:"
    ∧ btoa "GET:/search?q=abc>d:" = some "R0VUOi9zZWFyY2g/cT1hYmM+ZDo="
    ∧ btoa "GET:/search?q=abc?d:" = some "R0VUOi9zZWFyY2g/cT1hYmM/ZDo="
    ∧ getSessionKey "GET:/search?q=abc>d:" = some "mdc_cache_v1_R0VUOi9zZWFyY2gcT1hYmMZDo"
    ∧ getSessionKey "GET:/search?q=abc?d:" = some "mdc_cache_v1_R0VUOi9zZWFyY2gcT1hYmMZDo"
    ∧ JSMap.has searchCached.nm.memoryCache "GET:/search?q=abc?d:" = false
    ∧ (fetch plainEnv 20 "/search?q=abc?d" sessionOptions searchCached).1
        = .resolved (.json (.num 7))
    ∧ (fetch plainEnv 20 "/search?q=abc?d" sessionOptions searchCached).2.started.length
        = searchCached.started.length := by
  refine ⟨by decide, by decide, by decide, by decide, by decide, by decide, by decide,
    by rfl, by rfl⟩

theorem b64Char_alphabet (n : Nat) :
    isAlnum (b64Char n) = true ∨ b64Char n = '+' ∨ b64Char n = '/' := by
  by_cases h : n < 62
  · left
    interval_cases n <;> decide
  · right
    unfold b64Char
    have h1 : ¬ n < 26 := by omega
    have h2 : ¬ n < 52 := by omega
    simp only [h1, h2, h, ↓reduceIte]
    by_cases h3 : n = 62
    · simp [h3]
    · simp [h3]

theorem btoaBytes_alphabet : ∀ (bytes : List Nat) (c : Char), c ∈ btoaBytes bytes →
    isAlnum c = true ∨ c = '+' ∨ c = '/' ∨ c = '='
  | [], c, h => by simp [btoaBytes] at h
  | [a], c, h => by
    simp only [btoaBytes, List.mem_cons, List.mem_singleton, List.not_mem_nil, or_false] at h
    rcases h with h | h | h | h
    · subst h; rcases b64Char_alphabet (a / 4) with h | h | h <;> simp [h]
    · subst h; rcases b64Char_alphabet (a % 4 * 16) with h | h | h <;> simp [h]
    · exact Or.inr (Or.inr (Or.inr h))
    · exact Or.inr (Or.inr (Or.inr h))
  | [a, b], c, h => by
    simp only [btoaBytes, List.mem_cons, List.mem_singleton, List.not_mem_nil, or_false] at h
    rcases h with h | h | h | h
    · subst h; rcases b64Char_alphabet (a / 4) with h | h | h <;> simp [h]
    · subst h; rcases b64Char_alphabet (a % 4 * 16 + b / 16) with h | h | h <;> simp [h]
    · subst h; rcases b64Char_alphabet (b % 16 * 4) with h | h | h <;> simp [h]
    · exact Or.inr (Or.inr (Or.inr h))
  | a :: b :: d :: rest, c, h => by
    simp only [btoaBytes, List.mem_cons] at h
    rcases h with h | h | h | h | h
    · subst h; rcases b64Char_alphabet (a / 4) with h | h | h <;> simp [h]
    · subst h; rcases b64Char_alphabet (a % 4 * 16 + b / 16) with h | h | h <;> simp [h]
    · subst h; rcases b64Char_alphabet (b % 16 * 4 + d / 64) with h | h | h <;> simp [h]
    · subst h; rcases b64Char_alphabet (d % 64) with h | h | h <;> simp [h]
    · exact btoaBytes_alphabet rest c h

/-- X5. Every persistent key is `mdc_cache_v1_` followed by characters in `[A-Za-z0-9]`
only. -/
theorem session_key_alphabet (cacheKey sessionKey : String)
    (h : getSessionKey cacheKey = some sessionKey) :
    ∃ rest : List Char, sessionKey.data = "mdc_cache_v1_".data ++ rest
      ∧ ∀ c ∈ rest, isAlnum c = true := by
  unfold getSessionKey at h
  cases hb : btoa cacheKey with
  | none => simp [hb] at h
  | some encoded =>
    simp only [hb, Option.map_some', Option.some.injEq] at h
    subst h
    have henc : encoded.data = btoaBytes (cacheKey.data.map Char.toNat) := by
      unfold btoa at hb
      split_ifs at hb
      injection hb with hb
      rw [← hb]
    have hhead : sessionKeyHead.data = "mdc_cache_v1_".data := by decide
    refine ⟨(stripBase64Marks encoded).data, ?_, ?_⟩
    · rw [String.data_append, hhead]
    · intro c hc
      simp only [stripBase64Marks, List.mem_filter] at hc
      obtain ⟨hmem, hnot⟩ := hc
      rw [henc] at hmem
      rcases btoaBytes_alphabet _ c hmem with h | h | h | h
      · exact h
      · subst h; simp at hnot
      · subst h; simp at hnot
      · subst h; simp at hnot

/-- X5 at a concrete input: the persistent key of `GET:/a:`. -/
theorem session_key_alphabet_witness :
    ∃ rest : List Char, "mdc_cache_v1_R0VUOi9hOg".data = "mdc_cache_v1_".data ++ rest
      ∧ ∀ c ∈ rest, isAlnum c = true :=
  session_key_alphabet "GET:/a:" "mdc_cache_v1_R0VUOi9hOg" (by decide)

/-! ## The sweep cannot be observed through the getters -/

theorem JSMap.get_none_of_not_mem {α : Type} (m : JSMap α) (k : String)
    (h : k ∉ m.map (fun kv => kv.1)) : JSMap.get m k = none := by
  induction m with
  | nil => rfl
  | cons kv rest ih =>
    obtain ⟨k1, v1⟩ := kv
    simp only [List.map_cons, List.mem_cons, not_or] at h
    have hne : ¬ k1 = k := fun e => h.1 e.symm
    simp only [JSMap.get, hne, ↓reduceIte]
    exact ih h.2

theorem JSMap.get_of_mem {α : Type} (m : JSMap α) (k : String) (v : α)
    (hd : JSMap.keysDistinct m) (h : (k, v) ∈ m) : JSMap.get m k = some v := by
  induction m with
  | nil => cases h
  | cons kv rest ih =>
    obtain ⟨k1, v1⟩ := kv
    unfold JSMap.keysDistinct at hd
    simp only [List.map_cons, List.nodup_cons] at hd
    rcases List.mem_cons.mp h with h | h
    · injection h with h1 h2
      subst h1
      subst h2
      simp [JSMap.get]
    · have hne : ¬ k1 = k := by
        intro e
        subst e
        exact hd.1 (List.mem_map.mpr ⟨(k1, v), h, rfl⟩)
      simp only [JSMap.get, hne, ↓reduceIte]
      exact ih hd.2 h

theorem JSMap.get_filter {α : Type} (p : String × α → Bool) (m : JSMap α) (k : String)
    (hd : JSMap.keysDistinct m) :
    JSMap.get (m.filter p) k
      = match JSMap.get m k with
        | some v => if p (k, v) then some v else none
        | none => none := by
  induction m with
  | nil => rfl
  | cons kv rest ih =>
    obtain ⟨k1, v1⟩ := kv
    unfold JSMap.keysDistinct at hd
    simp only [List.map_cons, List.nodup_cons] at hd
    have ih2 := ih hd.2
    by_cases hk : k1 = k
    · subst hk
      have hrest : JSMap.get rest k1 = none := JSMap.get_none_of_not_mem rest k1 hd.1
      rw [hrest] at ih2
      rw [List.filter_cons]
      by_cases hp : p (k1, v1) = true
      · simp [JSMap.get, hp]
      · simp only [hp, Bool.false_eq_true, ↓reduceIte, JSMap.get]
        exact ih2
    · rw [List.filter_cons]
      by_cases hp : p (k1, v1) = true
      · simp only [hp, ↓reduceIte, JSMap.get, hk]
        exact ih2
      · simp only [hp, Bool.false_eq_true, ↓reduceIte, JSMap.get, hk]
        exact ih2

theorem jsGreater_later (now t : Int) (v : Value) (h : jsGreater now v = true)
    (ht : now ≤ t) : jsGreater t v = true := by
  have hint : ∀ w : Value,
      (match toNumber w with
        | some n => decide (now > n)
        | none => false) = true →
      (match toNumber w with
        | some n => decide (t > n)
        | none => false) = true := by
    intro w hw
    cases hn : toNumber w with
    | none => simp [hn] at hw
    | some n =>
      simp only [hn, decide_eq_true_eq] at hw ⊢
      omega
  cases v with
  | undefined => exact hint .undefined h
  | json j =>
    cases j with
    | dec neg whole init last =>
      simp only [jsGreater] at h ⊢
      cases neg with
      | true =>
        simp only [↓reduceIte, decide_eq_true_eq] at h ⊢
        omega
      | false =>
        simp only [Bool.false_eq_true, ↓reduceIte, decide_eq_true_eq] at h ⊢
        omega
    | null => exact hint (.json .null) h
    | bool b => exact hint (.json (.bool b)) h
    | num n => exact hint (.json (.num n)) h
    | str x => exact hint (.json (.str x)) h
    | arr xs => exact hint (.json (.arr xs)) h
    | obj kvs => exact hint (.json (.obj kvs)) h

/-- The memory getter gives the same value after the sweep as without it. -/
theorem sweepMemory_unobservable (nm : NetworkManager) (now t : Int) (k : String)
    (hd : JSMap.keysDistinct nm.memoryCache) (ht : now ≤ t) :
    (getFromMemoryCache { nm with memoryCache := sweepMemory now nm.memoryCache } t k).1
      = (getFromMemoryCache nm t k).1 := by
  unfold getFromMemoryCache sweepMemory
  simp only []
  rw [JSMap.get_filter _ _ _ hd]
  cases hg : JSMap.get nm.memoryCache k with
  | none => rfl
  | some cached =>
    simp only []
    by_cases hx : now > cached.expires
    · have hx2 : t > cached.expires := by omega
      simp [hx, hx2]
    · simp only [hx, decide_False, Bool.not_false, ↓reduceIte]
      split_ifs <;> rfl

theorem removeAll_get (ks : List String) : ∀ (st : Storage), st.blocked = false →
    ∃ st1, removeAll st ks = some st1 ∧ st1.blocked = false
      ∧ ∀ k, JSMap.get st1.items k = if k ∈ ks then none else JSMap.get st.items k := by
  induction ks with
  | nil => intro st hb; exact ⟨st, rfl, hb, fun k => by simp⟩
  | cons a ks ih =>
    intro st hb
    have hr : st.removeItem a = some { st with items := JSMap.delete st.items a } := by
      simp [Storage.removeItem, hb]
    obtain ⟨st1, h1, h2, h3⟩ := ih { st with items := JSMap.delete st.items a } hb
    refine ⟨st1, by simp only [removeAll, hr]; exact h1, h2, ?_⟩
    intro k
    rw [h3 k]
    by_cases hka : k = a
    · subst hka
      simp [JSMap.get_delete_self]
    · have hak : a ≠ k := fun e => hka e.symm
      simp only [List.mem_cons, hka, false_or]
      rw [JSMap.get_delete_other _ _ _ hak]

theorem mem_sweepKeys (now : Int) (items : JSMap String) (k : String)
    (h : k ∈ sweepKeys now items) :
    ∃ stored, (k, stored) ∈ items ∧ sweepRemoves now stored = true := by
  induction items with
  | nil => simp [sweepKeys] at h
  | cons kv rest ih =>
    obtain ⟨k1, v1⟩ := kv
    simp only [sweepKeys] at h
    split_ifs at h with hc
    · rcases List.mem_cons.mp h with h | h
      · subst h
        simp only [Bool.and_eq_true] at hc
        exact ⟨v1, List.mem_cons_self _ _, hc.2⟩
      · obtain ⟨stored, hs, hr⟩ := ih h
        exact ⟨stored, List.mem_cons_of_mem _ hs, hr⟩
    · obtain ⟨stored, hs, hr⟩ := ih h
      exact ⟨stored, List.mem_cons_of_mem _ hs, hr⟩

/-- The value of the persistent getter depends on the storage through its `blocked`
flag and the record under the persistent key only. -/
theorem sessionValue_eq (st st1 : Storage) (t : Int) (k : String)
    (hb : st.blocked = st1.blocked)
    (hg : ∀ sk, getSessionKey k = some sk → JSMap.get st.items sk = JSMap.get st1.items sk) :
    (getFromSessionCache st t k).1 = (getFromSessionCache st1 t k).1 := by
  unfold getFromSessionCache getFromSessionCacheTry
  cases hk : getSessionKey k with
  | none => rfl
  | some sk =>
    have hget : st.getItem sk = st1.getItem sk := by
      unfold Storage.getItem
      rw [hb, hg sk hk]
    have hrem : ∀ v : Value,
        (match (st.removeItem sk).map (fun s2 => (v, s2)) with
          | some r => r
          | none => (jsNull, st)).1
        = (match (st1.removeItem sk).map (fun s2 => (v, s2)) with
          | some r => r
          | none => (jsNull, st1)).1 := by
      intro v
      unfold Storage.removeItem
      rw [hb]
      cases st1.blocked <;> rfl
    simp only [hget]
    cases st1.getItem sk with
    | none => rfl
    | some o =>
      cases o with
      | none => rfl
      | some stored =>
        simp only []
        by_cases htr : truthyString stored = true
        · simp only [htr, Bool.not_true, Bool.false_eq_true, ↓reduceIte]
          cases jsonParse stored with
          | none => rfl
          | some cached =>
            simp only []
            cases cached.prop "expires" with
            | none => rfl
            | some e =>
              simp only []
              by_cases h1 : jsGreater t e = true
              · simp only [h1, ↓reduceIte]
                exact hrem jsNull
              · simp only [h1, Bool.false_eq_true, ↓reduceIte]
                by_cases h2 : jsLength stored > MAX_SESSION_SIZE
                · simp only [h2, ↓reduceIte]
                  exact hrem jsNull
                · simp only [h2, ↓reduceIte]
                  cases cached.prop "data" <;> rfl
        · simp only [htr, Bool.not_false, ↓reduceIte]

/-- A record that the sweep at time `now` removes is a miss of the getter at any time
from `now` on. -/
theorem sessionValue_removable (st : Storage) (now t : Int) (k sk stored : String)
    (hk : getSessionKey k = some sk) (hget : JSMap.get st.items sk = some stored)
    (hrem : sweepRemoves now stored = true) (ht : now ≤ t) :
    (getFromSessionCache st t k).1 = jsNull := by
  unfold getFromSessionCache getFromSessionCacheTry
  simp only [hk]
  unfold Storage.getItem
  cases hb : st.blocked with
  | true => rfl
  | false =>
    simp only [Bool.false_eq_true, ↓reduceIte, hget]
    by_cases htr : truthyString stored = true
    · simp only [htr, Bool.not_true, Bool.false_eq_true, ↓reduceIte]
      unfold sweepRemoves at hrem
      cases hp : jsonParse stored with
      | none => rfl
      | some cached =>
        simp only [hp] at hrem ⊢
        cases he : cached.prop "expires" with
        | none => rfl
        | some e =>
          simp only [he] at hrem ⊢
          have h1 := jsGreater_later now t e hrem ht
          simp only [h1, ↓reduceIte]
          cases st.removeItem sk <;> rfl
    · simp only [htr, Bool.not_false, ↓reduceIte]

theorem sessionValue_absent (st : Storage) (t : Int) (k sk : String)
    (hk : getSessionKey k = some sk) (hget : JSMap.get st.items sk = none) :
    (getFromSessionCache st t k).1 = jsNull := by
  unfold getFromSessionCache getFromSessionCacheTry
  simp only [hk]
  unfold Storage.getItem
  cases hb : st.blocked with
  | true => rfl
  | false => simp only [Bool.false_eq_true, ↓reduceIte, hget]

/-- The persistent getter gives the same value after the sweep as without it. -/
theorem sweepSession_unobservable (st : Storage) (now t : Int) (k : String)
    (hd : JSMap.keysDistinct st.items) (ht : now ≤ t) :
    (getFromSessionCache (sweepSession now st) t k).1 = (getFromSessionCache st t k).1 := by
  unfold sweepSession
  cases hb : st.blocked with
  | true => simp
  | false =>
    simp only [Bool.false_eq_true, ↓reduceIte]
    obtain ⟨st1, h1, h2, h3⟩ := removeAll_get (sweepKeys now st.items) st hb
    simp only [h1]
    cases hk : getSessionKey k with
    | none =>
      exact sessionValue_eq st1 st t k (by rw [h2, hb]) (fun sk hsk => by rw [hk] at hsk; cases hsk)
    | some sk =>
      by_cases hin : sk ∈ sweepKeys now st.items
      · obtain ⟨stored, hs, hr⟩ := mem_sweepKeys now st.items sk hin
        have hget := JSMap.get_of_mem st.items sk stored hd hs
        rw [sessionValue_removable st now t k sk stored hk hget hr ht]
        exact sessionValue_absent st1 t k sk hk (by rw [h3 sk]; simp [hin])
      · refine sessionValue_eq st1 st t k (by rw [h2, hb]) ?_
        intro sk2 hsk2
        rw [hk] at hsk2
        injection hsk2 with hsk2
        subst hsk2
        rw [h3 sk]
        simp [hin]

/-- C21. In a state whose `Map` and whose session storage hold each key once, for every
time `now`, every cache key `k` and every time `t ≥ now`, `getFromMemoryCache(k)` and
`getFromSessionCache(k)` at time `t` return the same value whether or not
`cleanupExpiredCache` ran at time `now`; and the sweep keeps in the memory tier exactly
the entries without `now > expires`, in their order and as they were. -/
theorem sweep_unobservable (s : Sys) (now t : Int) (k : String)
    (hm : JSMap.keysDistinct s.nm.memoryCache) (hs : JSMap.keysDistinct s.session.items)
    (ht : now ≤ t) :
    (getFromMemoryCache (cleanupExpiredCache now s).nm t k).1 = (getFromMemoryCache s.nm t k).1
    ∧ (getFromSessionCache (cleanupExpiredCache now s).session t k).1
        = (getFromSessionCache s.session t k).1
    ∧ (∀ kv, kv ∈ (cleanupExpiredCache now s).nm.memoryCache
        ↔ kv ∈ s.nm.memoryCache ∧ ¬ now > kv.2.expires)
    ∧ List.Sublist (cleanupExpiredCache now s).nm.memoryCache s.nm.memoryCache := by
  refine ⟨sweepMemory_unobservable s.nm now t k hm ht,
    sweepSession_unobservable s.session now t k hs ht, ?_, ?_⟩
  · intro kv
    show kv ∈ sweepMemory now s.nm.memoryCache ↔ _
    unfold sweepMemory
    simp [List.mem_filter]
  · show List.Sublist (sweepMemory now s.nm.memoryCache) s.nm.memoryCache
    exact List.filter_sublist _

/-- C21 at a concrete state and the times `now = 200`, `t = 300`: with or without the
sweep both getters miss the expired key and return 2 for the valid one. -/
theorem sweep_unobservable_witness :
    ((getFromMemoryCache (cleanupExpiredCache 200 halfExpired).nm 300 "GET:/b:").1
        = (getFromMemoryCache halfExpired.nm 300 "GET:/b:").1
      ∧ (getFromSessionCache (cleanupExpiredCache 200 halfExpired).session 300 "GET:/b:").1
        = (getFromSessionCache halfExpired.session 300 "GET:/b:").1
      ∧ (∀ kv, kv ∈ (cleanupExpiredCache 200 halfExpired).nm.memoryCache
        ↔ kv ∈ halfExpired.nm.memoryCache ∧ ¬ (200 : Int) > kv.2.expires)
      ∧ List.Sublist (cleanupExpiredCache 200 halfExpired).nm.memoryCache
          halfExpired.nm.memoryCache)
    ∧ (getFromSessionCache halfExpired.session 300 "GET:/b:").1 = .json (.num 2)
    ∧ (getFromSessionCache halfExpired.session 300 "GET:/a:").1 = jsNull
    ∧ (cleanupExpiredCache 200 halfExpired).session.items.map (fun kv => kv.1)
        = ["mdc_cache_v1_R0VUOi9iOg"] :=
  ⟨sweep_unobservable halfExpired 200 300 "GET:/b:" (by unfold JSMap.keysDistinct; decide)
      (by unfold JSMap.keysDistinct; decide) (by decide),
    by rfl, by rfl, by decide⟩

/-! ### Each key once -/

theorem JSMap.keys_delete {α : Type} (m : JSMap α) (k : String) :
    List.Sublist ((JSMap.delete m k).map (fun kv => kv.1)) (m.map (fun kv => kv.1)) := by
  induction m with
  | nil => exact List.Sublist.slnil
  | cons kv rest ih =>
    obtain ⟨k1, v1⟩ := kv
    simp only [JSMap.delete]
    split_ifs
    · exact List.Sublist.cons _ ih
    · exact List.Sublist.cons₂ _ ih

/-- `m.delete(k)` keeps each key once. -/
theorem JSMap.keysDistinct_delete {α : Type} (m : JSMap α) (k : String)
    (h : JSMap.keysDistinct m) : JSMap.keysDistinct (JSMap.delete m k) :=
  List.Nodup.sublist (JSMap.keys_delete m k) h

theorem JSMap.keys_set {α : Type} (m : JSMap α) (k : String) (v : α) :
    (JSMap.set m k v).map (fun kv => kv.1)
      = if k ∈ m.map (fun kv => kv.1) then m.map (fun kv => kv.1)
        else m.map (fun kv => kv.1) ++ [k] := by
  induction m with
  | nil => simp [JSMap.set]
  | cons kv rest ih =>
    obtain ⟨k1, v1⟩ := kv
    simp only [JSMap.set]
    by_cases hk : k1 = k
    · subst hk
      simp
    · have hk2 : ¬ k = k1 := fun e => hk e.symm
      simp only [hk, ↓reduceIte, List.map_cons, ih, List.mem_cons, hk2, false_or]
      split_ifs <;> simp

/-- `m.set(k, v)` keeps each key once. -/
theorem JSMap.keysDistinct_set {α : Type} (m : JSMap α) (k : String) (v : α)
    (h : JSMap.keysDistinct m) : JSMap.keysDistinct (JSMap.set m k v) := by
  unfold JSMap.keysDistinct at h ⊢
  rw [JSMap.keys_set]
  split_ifs with hk
  · exact h
  · rw [List.nodup_append]
    refine ⟨h, List.nodup_singleton k, ?_⟩
    intro a ha hb
    simp only [List.mem_singleton] at hb
    subst hb
    exact hk ha

/-! ## The clean addresses of the results page -/

/-- With an empty query nothing is decoded. -/
theorem parseResultsFromUrl_empty_query (decode : String → Option String) (pathname : String) :
    parseResultsFromUrl decode ⟨pathname, []⟩ = parseResultsFromUrl some ⟨pathname, []⟩ := rfl

set_option maxRecDepth 1000000 in
/-- C25 (the code on the inputs of the claim). For each transaction `sale` or `rent`,
each of the eleven types of `TYPE_TO_SLUG` and each of the twenty city names of
`CITY_SLUG_TO_NAME`, `buildResultsCleanUrl` gives a path, and `parseResultsFromUrl`
reads that path, with an empty query, as `{ transaction: 'any', scope: 'any' }`, without
a city: `/apartamente-de-vanzare-cluj-napoca` splits on `-de-` into two pieces, and the
parser reads the path only when there are three. A path with a second `-de-` before
the city is read as the claim expects. -/
theorem built_path_is_not_parsed (decode : String → Option String) :
    (∀ tr ∈ ["sale", "rent"], ∀ ty ∈ TYPE_TO_SLUG, ∀ c ∈ CITY_SLUG_TO_NAME,
      (buildResultsCleanUrl (some tr) (some ty.1) (some c.2)).isSome = true
      ∧ (buildResultsCleanUrl (some tr) (some ty.1) (some c.2)).bind
          (fun url => parseResultsFromUrl decode ⟨url, []⟩)
        = some ⟨"any", "any", none, none, none, none, none, none, none⟩)
    ∧ buildResultsCleanUrl (some "sale") (some "apartament") (some "Cluj-Napoca")
        = some "/apartamente-de-vanzare-cluj-napoca"
    ∧ splitOnChars "-de-".data 0 "apartamente-de-vanzare-cluj-napoca".data []
        = ["apartamente".data, "vanzare-cluj-napoca".data]
    ∧ parseResultsFromUrl decode ⟨"/apartamente-de-vanzare-de-cluj-napoca", []⟩
        = some ⟨"sale", "any", some (some "apartament"), some "Cluj-Napoca", none, none,
            none, none, none⟩ := by
  have h : ∀ tr ∈ ["sale", "rent"], ∀ ty ∈ TYPE_TO_SLUG, ∀ c ∈ CITY_SLUG_TO_NAME,
      (buildResultsCleanUrl (some tr) (some ty.1) (some c.2)).isSome = true
      ∧ (buildResultsCleanUrl (some tr) (some ty.1) (some c.2)).bind
          (fun url => parseResultsFromUrl some ⟨url, []⟩)
        = some ⟨"any", "any", none, none, none, none, none, none, none⟩ := by decide
  refine ⟨?_, by decide, by decide, ?_⟩
  · intro tr htr ty hty c hc
    obtain ⟨h1, h2⟩ := h tr htr ty hty c hc
    refine ⟨h1, ?_⟩
    rw [← h2]
    congr 1
  · rw [parseResultsFromUrl_empty_query]
    decide

/-! ## `JSON.stringify` gives different texts for different values -/

theorem toDigitsCore_digits (fuel : Nat) : ∀ (n : Nat),
    ∀ c ∈ Nat.toDigitsCore 10 fuel n [], isDigit c = true := by
  induction fuel with
  | zero => intro n c hc; simp [Nat.toDigitsCore] at hc
  | succ fuel ih =>
    intro n c hc
    have hd := (digitChar_digit (n % 10) (Nat.mod_lt n (by decide))).1
    simp only [Nat.toDigitsCore] at hc
    split_ifs at hc with h
    · simp only [List.mem_singleton] at hc
      rw [hc]; exact hd
    · rw [toDigitsCore_append fuel (n / 10) [Nat.digitChar (n % 10)]] at hc
      rcases List.mem_append.1 hc with h1 | h1
      · exact ih _ c h1
      · simp only [List.mem_singleton] at h1
        rw [h1]; exact hd

theorem toDigits_digits (n : Nat) : ∀ c ∈ Nat.toDigits 10 n, isDigit c = true :=
  toDigitsCore_digits (n + 1) n

theorem toDigits_head (n : Nat) : ∃ d ds, Nat.toDigits 10 n = d :: ds ∧ isDigit d = true :=
  (parseNat_toDigits n ',' [] (by decide)).2

theorem toDigits_injective (n m : Nat) (h : Nat.toDigits 10 n = Nat.toDigits 10 m) : n = m := by
  have h1 := (parseNat_toDigits n ',' [] (by decide)).1
  have h2 := (parseNat_toDigits m ',' [] (by decide)).1
  rw [h, h2] at h1
  simpa using h1.symm

theorem isDigit_isNumChar (c : Char) (h : isDigit c = true) : isNumChar c = true := by
  simp [isNumChar, h]

/-- The text of an integer: digits, after a sign for a negative one. -/
theorem toString_int_chars (t : Int) :
    (∀ c ∈ (toString t).data, isDigit c = true ∨ c = '-')
    ∧ ∃ d ds, (toString t).data = d :: ds ∧ (isDigit d = true ∨ d = '-') := by
  cases t with
  | ofNat n =>
    have hs : (toString (Int.ofNat n)).data = Nat.toDigits 10 n := rfl
    rw [hs]
    obtain ⟨d, ds, hds, hd⟩ := toDigits_head n
    exact ⟨fun c hc => Or.inl (toDigits_digits n c hc), d, ds, hds, Or.inl hd⟩
  | negSucc m =>
    have hs : (toString (Int.negSucc m)).data = '-' :: Nat.toDigits 10 (m + 1) := rfl
    rw [hs]
    refine ⟨?_, '-', _, rfl, Or.inr rfl⟩
    intro c hc
    rcases List.mem_cons.1 hc with h | h
    · exact Or.inr h
    · exact Or.inl (toDigits_digits _ c h)

theorem toString_int_injective (t u : Int) (h : (toString t).data = (toString u).data) :
    t = u := by
  have h1 := (parseNumber_toString t ',' [] (by decide) (by decide)).1
  have h2 := (parseNumber_toString u ',' [] (by decide) (by decide)).1
  rw [h, h2] at h1
  simp only [Option.some.injEq, Prod.mk.injEq, Json.num.injEq, and_true] at h1
  exact h1.symm

/-- Two texts that agree up to and including the first `x` of each have the same part
before it and the same part after it. -/
theorem split_at_char (x : Char) (a b r1 r2 : List Char) (ha : x ∉ a) (hb : x ∉ b)
    (h : a ++ x :: r1 = b ++ x :: r2) : a = b ∧ r1 = r2 := by
  induction a generalizing b with
  | nil =>
    cases b with
    | nil => simpa using h
    | cons c cs =>
      simp only [List.nil_append, List.cons_append, List.cons.injEq] at h
      exact absurd (by rw [← h.1]; exact List.mem_cons_self _ _) hb
  | cons y ys ih =>
    cases b with
    | nil =>
      simp only [List.nil_append, List.cons_append, List.cons.injEq] at h
      exact absurd (by rw [h.1]; exact List.mem_cons_self _ _) ha
    | cons c cs =>
      simp only [List.cons_append, List.cons.injEq] at h
      obtain ⟨h1, h2⟩ := ih cs (fun hm => ha (List.mem_cons_of_mem _ hm))
        (fun hm => hb (List.mem_cons_of_mem _ hm)) h.2
      exact ⟨by rw [h.1, h1], h2⟩

/-- Two number texts, each followed by something that does not go on with a number,
are the same when the whole texts are. -/
theorem split_terminated (a b r1 r2 : List Char) (ha : ∀ c ∈ a, isNumChar c = true)
    (hb : ∀ c ∈ b, isNumChar c = true) (h1 : Terminated r1) (h2 : Terminated r2)
    (h : a ++ r1 = b ++ r2) : a = b ∧ r1 = r2 := by
  induction a generalizing b with
  | nil =>
    cases b with
    | nil => simpa using h
    | cons c cs =>
      simp only [List.nil_append, List.cons_append] at h
      subst h
      have := hb c (List.mem_cons_self _ _)
      simp only [Terminated] at h1
      rw [this] at h1
      exact absurd h1 (by decide)
  | cons y ys ih =>
    cases b with
    | nil =>
      simp only [List.nil_append, List.cons_append] at h
      subst h
      have := ha y (List.mem_cons_self _ _)
      simp only [Terminated] at h2
      rw [this] at h2
      exact absurd h2 (by decide)
    | cons c cs =>
      simp only [List.cons_append, List.cons.injEq] at h
      obtain ⟨e1, e2⟩ := ih cs (fun c hc => ha c (List.mem_cons_of_mem _ hc))
        (fun c hc => hb c (List.mem_cons_of_mem _ hc)) h.2
      exact ⟨by rw [h.1, e1], e2⟩

/-! ### The text of a decimal fraction -/

theorem digitChar_injective (n m : Nat) (hn : n < 10) (hm : m < 10)
    (h : Nat.digitChar n = Nat.digitChar m) : n = m := by
  have h1 := (digitChar_digit n hn).2.1
  have h2 := (digitChar_digit m hm).2.1
  rw [h] at h1
  omega

theorem fracChars_digits (init : List (Fin 10)) (last : Fin 9) :
    ∀ c ∈ fracChars init last, isDigit c = true := by
  intro c hc
  simp only [fracChars, List.mem_append, List.mem_map, List.mem_singleton] at hc
  rcases hc with ⟨d, _, hd⟩ | hc
  · rw [← hd]; exact (digitChar_digit d.val d.isLt).1
  · rw [hc]; exact (digitChar_digit (last.val + 1) (by omega)).1

theorem fracChars_injective (i1 i2 : List (Fin 10)) (l1 l2 : Fin 9)
    (h : fracChars i1 l1 = fracChars i2 l2) : i1 = i2 ∧ l1 = l2 := by
  obtain ⟨h1, h2⟩ := List.append_inj' h rfl
  constructor
  · refine List.map_injective_iff.2 ?_ h1
    intro a b hab
    exact Fin.ext (digitChar_injective a.val b.val a.isLt b.isLt hab)
  · simp only [List.cons.injEq, and_true] at h2
    have := digitChar_injective _ _ (by omega) (by omega) h2
    exact Fin.ext (by omega)

theorem fracChars_head (init : List (Fin 10)) (last : Fin 9) :
    ∃ d ds, fracChars init last = d :: ds ∧ isDigit d = true := by
  cases hf : fracChars init last with
  | nil => simp [fracChars] at hf
  | cons d ds =>
    refine ⟨d, ds, rfl, fracChars_digits init last d ?_⟩
    rw [hf]; exact List.mem_cons_self _ _

theorem mantissaChars_injective : ∀ (a b : List Char),
    mantissaChars a = mantissaChars b → a = b
  | [], [], _ => rfl
  | [], [_], h => by simp [mantissaChars] at h
  | [], _ :: _ :: _, h => by simp [mantissaChars] at h
  | [_], [], h => by simp [mantissaChars] at h
  | [x], [y], h => by simpa [mantissaChars] using h
  | [_], _ :: _ :: _, h => by simp [mantissaChars] at h
  | _ :: _ :: _, [], h => by simp [mantissaChars] at h
  | _ :: _ :: _, [_], h => by simp [mantissaChars] at h
  | x :: x2 :: xs, y :: y2 :: ys, h => by simpa [mantissaChars] using h

theorem mantissaChars_chars (a : List Char) (ha : ∀ c ∈ a, isDigit c = true) :
    ∀ c ∈ mantissaChars a, isDigit c = true ∨ c = '.' := by
  match a, ha with
  | [], _ => intro c hc; simp [mantissaChars] at hc
  | [x], ha => intro c hc; simp only [mantissaChars] at hc; exact Or.inl (ha c hc)
  | x :: x2 :: xs, ha =>
    intro c hc
    simp only [mantissaChars, List.mem_cons] at hc
    rcases hc with h | h | h | h
    · exact Or.inl (ha c (by simp [h]))
    · exact Or.inr h
    · exact Or.inl (ha c (by simp [h]))
    · exact Or.inl (ha c (by simp [h]))

theorem mantissaChars_head (a : List Char) (d : Char) (ds : List Char) (h : a = d :: ds) :
    ∃ ds2, mantissaChars a = d :: ds2 := by
  subst h
  cases ds with
  | nil => exact ⟨[], rfl⟩
  | cons x xs => exact ⟨'.' :: x :: xs, rfl⟩

theorem leadingZeros_drop : ∀ (a b : List (Fin 10)),
    leadingZeros a = leadingZeros b →
    a.drop (leadingZeros a) = b.drop (leadingZeros b) → a = b := by
  intro a
  induction a with
  | nil =>
    intro b h1 h2
    simp only [leadingZeros] at h1
    rw [← h1] at h2
    simpa [leadingZeros] using h2
  | cons d ds ih =>
    intro b h1 h2
    by_cases hd : d.val = 0
    · simp only [leadingZeros, hd, ↓reduceIte] at h1 h2
      cases b with
      | nil => simp [leadingZeros] at h1
      | cons e es =>
        by_cases he : e.val = 0
        · simp only [leadingZeros, he, ↓reduceIte, Nat.add_right_cancel_iff] at h1
          simp only [leadingZeros, he, ↓reduceIte, List.drop_succ_cons] at h2
          rw [ih es h1 h2, Fin.ext (hd.trans he.symm)]
        · simp [leadingZeros, he] at h1
    · simp only [leadingZeros, hd, ↓reduceIte] at h1 h2
      rw [← h1] at h2
      simpa using h2

theorem decChars_eq (neg : Bool) (whole : Nat) (init : List (Fin 10)) (last : Fin 9) :
    decChars neg whole init last = (if neg then ['-'] else []) ++ decBody whole init last := rfl

theorem decBody_head (whole : Nat) (init : List (Fin 10)) (last : Fin 9) :
    ∃ d ds, decBody whole init last = d :: ds ∧ isDigit d = true := by
  unfold decBody
  split_ifs with h
  · obtain ⟨d, ds, hds, hd⟩ := fracChars_head (init.drop (leadingZeros init)) last
    obtain ⟨ds2, h2⟩ := mantissaChars_head _ d ds hds
    exact ⟨d, _, by rw [h2]; rfl, hd⟩
  · obtain ⟨d, ds, hds, hd⟩ := toDigits_head whole
    exact ⟨d, _, by rw [hds]; rfl, hd⟩

theorem decBody_injective (w1 w2 : Nat) (i1 i2 : List (Fin 10)) (l1 l2 : Fin 9)
    (h : decBody w1 i1 l1 = decBody w2 i2 l2) : w1 = w2 ∧ i1 = i2 ∧ l1 = l2 := by
  have hnotE : ∀ (w : Nat) (i : List (Fin 10)) (l : Fin 9),
      'e' ∉ Nat.toDigits 10 w ++ '.' :: fracChars i l := by
    intro w i l hm
    simp only [List.mem_append, List.mem_cons] at hm
    rcases hm with hm | hm | hm
    · exact absurd (toDigits_digits w _ hm) (by decide)
    · exact absurd hm (by decide)
    · exact absurd (fracChars_digits i l _ hm) (by decide)
  have hm : ∀ (i : List (Fin 10)) (l : Fin 9), 'e' ∉ mantissaChars (fracChars i l) := by
    intro i l hm
    rcases mantissaChars_chars _ (fracChars_digits i l) _ hm with hh | hh
    · exact absurd hh (by decide)
    · exact absurd hh (by decide)
  have hdot : ∀ w : Nat, '.' ∉ Nat.toDigits 10 w := by
    intro w hw
    exact absurd (toDigits_digits w _ hw) (by decide)
  unfold decBody at h
  split_ifs at h with c1 c2 c2
  · obtain ⟨e1, e2⟩ := split_at_char 'e' _ _ _ _ (hm _ _) (hm _ _) h
    simp only [List.cons.injEq, true_and] at e2
    have hz := toDigits_injective _ _ e2
    have hz2 : leadingZeros i1 = leadingZeros i2 := by omega
    obtain ⟨f1, f2⟩ := fracChars_injective _ _ _ _ (mantissaChars_injective _ _ e1)
    exact ⟨by omega, leadingZeros_drop i1 i2 hz2 f1, f2⟩
  · exfalso
    apply hnotE w2 i2 l2
    rw [← h]
    simp
  · exfalso
    apply hnotE w1 i1 l1
    rw [h]
    simp
  · obtain ⟨e1, e2⟩ := split_at_char '.' _ _ _ _ (hdot _) (hdot _) h
    obtain ⟨f1, f2⟩ := fracChars_injective _ _ _ _ e2
    exact ⟨toDigits_injective _ _ e1, f1, f2⟩

theorem decBody_chars (whole : Nat) (init : List (Fin 10)) (last : Fin 9) :
    (∀ c ∈ decBody whole init last, isNumChar c = true)
    ∧ ∃ c ∈ decBody whole init last, c = '.' ∨ c = 'e' := by
  unfold decBody
  split_ifs with h
  · constructor
    · intro c hc
      simp only [List.mem_append, List.mem_cons] at hc
      rcases hc with hc | hc | hc | hc
      · rcases mantissaChars_chars _ (fracChars_digits _ _) _ hc with hh | hh
        · exact isDigit_isNumChar c hh
        · rw [hh]; decide
      · rw [hc]; decide
      · rw [hc]; decide
      · exact isDigit_isNumChar c (toDigits_digits _ c hc)
    · exact ⟨'e', by simp, Or.inr rfl⟩
  · constructor
    · intro c hc
      simp only [List.mem_append, List.mem_cons] at hc
      rcases hc with hc | hc | hc
      · exact isDigit_isNumChar c (toDigits_digits _ c hc)
      · rw [hc]; decide
      · exact isDigit_isNumChar c (fracChars_digits _ _ c hc)
    · exact ⟨'.', by simp, Or.inl rfl⟩

theorem decChars_injective (n1 n2 : Bool) (w1 w2 : Nat) (i1 i2 : List (Fin 10)) (l1 l2 : Fin 9)
    (h : decChars n1 w1 i1 l1 = decChars n2 w2 i2 l2) :
    n1 = n2 ∧ w1 = w2 ∧ i1 = i2 ∧ l1 = l2 := by
  rw [decChars_eq, decChars_eq] at h
  obtain ⟨d1, ds1, hb1, hd1⟩ := decBody_head w1 i1 l1
  obtain ⟨d2, ds2, hb2, hd2⟩ := decBody_head w2 i2 l2
  have hminus : ∀ d : Char, isDigit d = true → d ≠ '-' := by
    intro d hd he
    rw [he] at hd
    exact absurd hd (by decide)
  cases n1 <;> cases n2
  · simp only [Bool.false_eq_true, ↓reduceIte, List.nil_append] at h
    exact ⟨rfl, decBody_injective _ _ _ _ _ _ h⟩
  · simp only [Bool.false_eq_true, ↓reduceIte, List.nil_append, List.singleton_append, hb1,
      List.cons.injEq] at h
    exact absurd h.1 (hminus d1 hd1)
  · simp only [Bool.false_eq_true, ↓reduceIte, List.nil_append, List.singleton_append, hb2,
      List.cons.injEq] at h
    exact absurd h.1.symm (hminus d2 hd2)
  · simp only [↓reduceIte, List.singleton_append, List.cons.injEq, true_and] at h
    exact ⟨rfl, decBody_injective _ _ _ _ _ _ h⟩

theorem decChars_chars (neg : Bool) (whole : Nat) (init : List (Fin 10)) (last : Fin 9) :
    (∀ c ∈ decChars neg whole init last, isNumChar c = true)
    ∧ (∃ c ∈ decChars neg whole init last, c = '.' ∨ c = 'e')
    ∧ ∃ d ds, decChars neg whole init last = d :: ds ∧ (isDigit d = true ∨ d = '-') := by
  rw [decChars_eq]
  obtain ⟨h1, c, hc, hce⟩ := decBody_chars whole init last
  obtain ⟨d, ds, hb, hd⟩ := decBody_head whole init last
  refine ⟨?_, ⟨c, by simp [hc], hce⟩, ?_⟩
  · intro x hx
    rcases List.mem_append.1 hx with hx | hx
    · cases neg
      · simp at hx
      · simp only [↓reduceIte, List.mem_singleton] at hx
        rw [hx]; decide
    · exact h1 x hx
  · cases neg
    · exact ⟨d, ds, by simp [hb], Or.inl hd⟩
    · exact ⟨'-', decBody whole init last, by simp, Or.inr rfl⟩

/-! ### The text of a string -/

theorem char_of_toNat (c : Char) (n : Nat) (h : c.toNat = n) : c = Char.ofNat n := by
  rw [← h, Char.ofNat_toNat]

theorem hexVal_hexDigit (n : Nat) (h : n < 16) : hexVal (hexDigit n) = some n := by
  interval_cases n <;> rfl

theorem unescapeHead_escapeChar (c : Char) (r : List Char) :
    unescapeHead (escapeChar c ++ r) = some (c, r) := by
  unfold escapeChar
  split_ifs with h1 h2 h3 h4 h5 h6 h7 h8
  · subst h1; rfl
  · subst h2; rfl
  · rw [char_of_toNat c 8 h3]; rfl
  · rw [char_of_toNat c 9 h4]; rfl
  · rw [char_of_toNat c 10 h5]; rfl
  · rw [char_of_toNat c 12 h6]; rfl
  · rw [char_of_toNat c 13 h7]; rfl
  · have ha := hexVal_hexDigit (c.toNat / 16) (by omega)
    have hb := hexVal_hexDigit (c.toNat % 16) (Nat.mod_lt _ (by decide))
    have hc : c.toNat / 16 * 16 + c.toNat % 16 = c.toNat := by omega
    simp only [List.cons_append, List.nil_append, unescapeHead, ↓reduceIte, ha, hb, hc,
      Char.ofNat_toNat]
  · simp only [List.cons_append, List.nil_append, unescapeHead, h2, ↓reduceIte]

theorem escapeChar_head (c : Char) : ∃ h t, escapeChar c = h :: t ∧ h ≠ dquote := by
  unfold escapeChar
  split_ifs with h1 h2 h3 h4 h5 h6 h7 h8
  all_goals first
    | exact ⟨backslash, _, rfl, by decide⟩
    | exact ⟨c, [], rfl, h1⟩

theorem escapeChars_unique : ∀ (a b r1 r2 : List Char),
    escapeChars a ++ dquote :: r1 = escapeChars b ++ dquote :: r2 → a = b ∧ r1 = r2 := by
  intro a
  induction a with
  | nil =>
    intro b r1 r2 h
    cases b with
    | nil => simpa [escapeChars] using h
    | cons y ys =>
      obtain ⟨c, t, hc, hne⟩ := escapeChar_head y
      simp only [escapeChars, List.nil_append, hc, List.cons_append, List.cons.injEq] at h
      exact absurd h.1.symm hne
  | cons x xs ih =>
    intro b r1 r2 h
    cases b with
    | nil =>
      obtain ⟨c, t, hc, hne⟩ := escapeChar_head x
      simp only [escapeChars, List.nil_append, hc, List.cons_append, List.cons.injEq] at h
      exact absurd h.1 hne
    | cons y ys =>
      simp only [escapeChars, List.append_assoc] at h
      have h2 := congrArg unescapeHead h
      rw [unescapeHead_escapeChar, unescapeHead_escapeChar] at h2
      simp only [Option.some.injEq, Prod.mk.injEq] at h2
      obtain ⟨e1, e2⟩ := ih ys r1 r2 h2.2
      exact ⟨by rw [h2.1, e1], e2⟩

/-- Two string literals at the head of two equal texts are the same. -/
theorem quoteChars_unique (k1 k2 : String) (r1 r2 : List Char)
    (h : quoteChars k1 ++ r1 = quoteChars k2 ++ r2) : k1 = k2 ∧ r1 = r2 := by
  simp only [quoteChars, List.cons_append, List.append_assoc, List.singleton_append,
    List.cons.injEq, true_and] at h
  obtain ⟨e1, e2⟩ := escapeChars_unique _ _ _ _ h
  exact ⟨String.ext e1, e2⟩

/-! ### The text of a value -/

/-- The first character of the text of a number. -/
theorem number_head :
    (∀ n, ∃ d ds, stringifyChars (.num n) = d :: ds ∧ (isDigit d = true ∨ d = '-'))
    ∧ (∀ neg whole init last, ∃ d ds, stringifyChars (.dec neg whole init last) = d :: ds
        ∧ (isDigit d = true ∨ d = '-')) := by
  constructor
  · intro n
    simp only [stringifyChars]
    exact (toString_int_chars n).2
  · intro neg whole init last
    simp only [stringifyChars]
    exact (decChars_chars neg whole init last).2.2

/-- The text of a value is not empty and its first character is none of `]`, the
closing brace and `,`. -/
theorem stringifyChars_head (j : Json) :
    ∃ c rest, stringifyChars j = c :: rest ∧ c ≠ ']' ∧ c ≠ Char.ofNat 125 ∧ c ≠ ',' := by
  have hnum : ∀ d : Char, (isDigit d = true ∨ d = '-') →
      d ≠ ']' ∧ d ≠ Char.ofNat 125 ∧ d ≠ ',' := by
    intro d hd
    refine ⟨?_, ?_, ?_⟩ <;>
    · intro he
      rw [he] at hd
      rcases hd with hd | hd
      · exact absurd hd (by decide)
      · exact absurd hd (by decide)
  cases j with
  | null => exact ⟨'n', _, rfl, by decide, by decide, by decide⟩
  | bool b =>
    cases b
    · exact ⟨'f', _, rfl, by decide, by decide, by decide⟩
    · exact ⟨'t', _, rfl, by decide, by decide, by decide⟩
  | num n =>
    obtain ⟨d, ds, h, hd⟩ := number_head.1 n
    exact ⟨d, ds, h, hnum d hd⟩
  | dec neg whole init last =>
    obtain ⟨d, ds, h, hd⟩ := number_head.2 neg whole init last
    exact ⟨d, ds, h, hnum d hd⟩
  | str s => exact ⟨dquote, escapeChars s.data ++ [dquote],
      by simp [stringifyChars, quoteChars], by decide, by decide, by decide⟩
  | arr xs => exact ⟨'[', stringifyElems xs ++ [']'], by simp [stringifyChars], by decide,
      by decide, by decide⟩
  | obj kvs => exact ⟨Char.ofNat 123, stringifyFields kvs ++ [Char.ofNat 125],
      by simp [stringifyChars], by decide, by decide, by decide⟩

theorem stringifyElems_head (x : Json) (xs : List Json) :
    ∃ c rest, stringifyElems (x :: xs) = c :: rest ∧ c ≠ ']' := by
  obtain ⟨c, rest, h, h1, _, _⟩ := stringifyChars_head x
  cases xs with
  | nil => exact ⟨c, rest, by simp [stringifyElems, h], h1⟩
  | cons y ys =>
    exact ⟨c, rest ++ ',' :: stringifyElems (y :: ys), by simp [stringifyElems, h], h1⟩

theorem stringifyFields_head (kv : String × Json) (kvs : List (String × Json)) :
    ∃ rest, stringifyFields (kv :: kvs) = dquote :: rest := by
  obtain ⟨k, v⟩ := kv
  cases kvs with
  | nil =>
    exact ⟨escapeChars k.data ++ dquote :: ':' :: stringifyChars v,
      by simp [stringifyFields, quoteChars]⟩
  | cons y ys =>
    exact ⟨escapeChars k.data ++ dquote :: ':'
        :: (stringifyChars v ++ ',' :: stringifyFields (y :: ys)),
      by simp [stringifyFields, quoteChars]⟩

/-- The characters of the text of a number. -/
theorem number_chars :
    (∀ n, ∀ c ∈ stringifyChars (.num n), isNumChar c = true)
    ∧ (∀ neg whole init last, ∀ c ∈ stringifyChars (.dec neg whole init last),
        isNumChar c = true) := by
  constructor
  · intro n c hc
    simp only [stringifyChars] at hc
    rcases (toString_int_chars n).1 c hc with h | h
    · exact isDigit_isNumChar c h
    · rw [h]; decide
  · intro neg whole init last c hc
    simp only [stringifyChars] at hc
    exact (decChars_chars neg whole init last).1 c hc

/-- Two numbers with the same text are the same number. -/
theorem number_injective :
    (∀ n m, stringifyChars (.num n) = stringifyChars (.num m) → n = m)
    ∧ (∀ n neg whole init last,
        stringifyChars (.num n) ≠ stringifyChars (.dec neg whole init last))
    ∧ (∀ n1 w1 i1 l1 n2 w2 i2 l2,
        stringifyChars (.dec n1 w1 i1 l1) = stringifyChars (.dec n2 w2 i2 l2) →
        n1 = n2 ∧ w1 = w2 ∧ i1 = i2 ∧ l1 = l2) := by
  refine ⟨?_, ?_, ?_⟩
  · intro n m h
    simp only [stringifyChars] at h
    exact toString_int_injective n m h
  · intro n neg whole init last h
    simp only [stringifyChars] at h
    obtain ⟨c, hc, hce⟩ := (decChars_chars neg whole init last).2.1
    rw [← h] at hc
    rcases (toString_int_chars n).1 c hc with hd | hd
    · rcases hce with e | e <;> (rw [e] at hd; exact absurd hd (by decide))
    · rcases hce with e | e <;> (rw [e] at hd; exact absurd hd (by decide))
  · intro n1 w1 i1 l1 n2 w2 i2 l2 h
    simp only [stringifyChars] at h
    exact decChars_injective _ _ _ _ _ _ _ _ h

/-- The first character of the text of a value tells which kind of value it is. -/
theorem stringifyChars_kind (j : Json) :
    ∃ c rest, stringifyChars j = c :: rest ∧
      match j with
      | .null => c = 'n'
      | .bool true => c = 't'
      | .bool false => c = 'f'
      | .num _ => isDigit c = true ∨ c = '-'
      | .dec _ _ _ _ => isDigit c = true ∨ c = '-'
      | .str _ => c = dquote
      | .arr _ => c = '['
      | .obj _ => c = Char.ofNat 123 := by
  cases j with
  | null => exact ⟨'n', _, rfl, rfl⟩
  | bool b =>
    cases b
    · exact ⟨'f', _, rfl, rfl⟩
    · exact ⟨'t', _, rfl, rfl⟩
  | num n => exact number_head.1 n
  | dec neg whole init last => exact number_head.2 neg whole init last
  | str s => exact ⟨dquote, escapeChars s.data ++ [dquote],
      by simp [stringifyChars, quoteChars], rfl⟩
  | arr xs => exact ⟨'[', stringifyElems xs ++ [']'], by simp [stringifyChars], rfl⟩
  | obj kvs => exact ⟨Char.ofNat 123, stringifyFields kvs ++ [Char.ofNat 125],
      by simp [stringifyChars], rfl⟩

theorem terminated_cons (c : Char) (r : List Char) (h : isNumChar c = false) :
    Terminated (c :: r) := h

mutual
/-- Two values at the head of two equal texts, each followed by the end of the text or
by a character that does not go on with a number, are the same value, and what follows
them is the same. -/
theorem stringifyChars_unique (j1 j2 : Json) (r1 r2 : List Char)
    (h : stringifyChars j1 ++ r1 = stringifyChars j2 ++ r2)
    (t1 : Terminated r1) (t2 : Terminated r2) : j1 = j2 ∧ r1 = r2 := by
  obtain ⟨c1, s1, e1, k1⟩ := stringifyChars_kind j1
  obtain ⟨c2, s2, e2, k2⟩ := stringifyChars_kind j2
  have hc : c1 = c2 := by
    rw [e1, e2] at h
    exact (List.cons.inj h).1
  subst hc
  have hdig : ∀ x : Char, c1 = x → (isDigit c1 = true ∨ c1 = '-') →
      (isDigit x || x == '-') = false → False := by
    intro x hx hd hf
    subst hx
    rcases hd with hd | hd
    · simp [hd] at hf
    · simp [hd] at hf
  cases j1 with
  | null =>
    cases j2 with
    | null => exact ⟨rfl, by simpa [stringifyChars] using h⟩
    | bool b => cases b <;> (simp only at k1 k2; rw [k1] at k2; exact absurd k2 (by decide))
    | num n => exact absurd (hdig _ k1 k2 (by decide)) id
    | dec _ _ _ _ => exact absurd (hdig _ k1 k2 (by decide)) id
    | str s => simp only at k1 k2; rw [k1] at k2; exact absurd k2 (by decide)
    | arr xs => simp only at k1 k2; rw [k1] at k2; exact absurd k2 (by decide)
    | obj kvs => simp only at k1 k2; rw [k1] at k2; exact absurd k2 (by decide)
  | bool b =>
    cases j2 with
    | null => cases b <;> (simp only at k1 k2; rw [k1] at k2; exact absurd k2 (by decide))
    | bool b2 =>
      cases b <;> cases b2
      · exact ⟨rfl, by simpa [stringifyChars] using h⟩
      · simp only at k1 k2; rw [k1] at k2; exact absurd k2 (by decide)
      · simp only at k1 k2; rw [k1] at k2; exact absurd k2 (by decide)
      · exact ⟨rfl, by simpa [stringifyChars] using h⟩
    | num n => cases b <;> exact absurd (hdig _ k1 k2 (by decide)) id
    | dec _ _ _ _ => cases b <;> exact absurd (hdig _ k1 k2 (by decide)) id
    | str s => cases b <;> (simp only at k1 k2; rw [k1] at k2; exact absurd k2 (by decide))
    | arr xs => cases b <;> (simp only at k1 k2; rw [k1] at k2; exact absurd k2 (by decide))
    | obj kvs => cases b <;> (simp only at k1 k2; rw [k1] at k2; exact absurd k2 (by decide))
  | num n =>
    cases j2 with
    | null => exact absurd (hdig _ k2 k1 (by decide)) id
    | bool b => cases b <;> exact absurd (hdig _ k2 k1 (by decide)) id
    | num m =>
      obtain ⟨e, er⟩ := split_terminated _ _ _ _ (number_chars.1 n) (number_chars.1 m) t1 t2 h
      exact ⟨by rw [number_injective.1 n m e], er⟩
    | dec neg whole init last =>
      obtain ⟨e, er⟩ := split_terminated _ _ _ _ (number_chars.1 n)
        (number_chars.2 neg whole init last) t1 t2 h
      exact absurd e (number_injective.2.1 n neg whole init last)
    | str s => exact absurd (hdig _ k2 k1 (by decide)) id
    | arr xs => exact absurd (hdig _ k2 k1 (by decide)) id
    | obj kvs => exact absurd (hdig _ k2 k1 (by decide)) id
  | dec neg whole init last =>
    cases j2 with
    | null => exact absurd (hdig _ k2 k1 (by decide)) id
    | bool b => cases b <;> exact absurd (hdig _ k2 k1 (by decide)) id
    | num m =>
      obtain ⟨e, er⟩ := split_terminated _ _ _ _ (number_chars.2 neg whole init last)
        (number_chars.1 m) t1 t2 h
      exact absurd e.symm (number_injective.2.1 m neg whole init last)
    | dec n2 w2 i2 l2 =>
      obtain ⟨e, er⟩ := split_terminated _ _ _ _ (number_chars.2 neg whole init last)
        (number_chars.2 n2 w2 i2 l2) t1 t2 h
      obtain ⟨a1, a2, a3, a4⟩ := number_injective.2.2 _ _ _ _ _ _ _ _ e
      exact ⟨by rw [a1, a2, a3, a4], er⟩
    | str s => exact absurd (hdig _ k2 k1 (by decide)) id
    | arr xs => exact absurd (hdig _ k2 k1 (by decide)) id
    | obj kvs => exact absurd (hdig _ k2 k1 (by decide)) id
  | str s =>
    cases j2 with
    | null => simp only at k1 k2; rw [k1] at k2; exact absurd k2 (by decide)
    | bool b => cases b <;> (simp only at k1 k2; rw [k1] at k2; exact absurd k2 (by decide))
    | num n => exact absurd (hdig _ k1 k2 (by decide)) id
    | dec _ _ _ _ => exact absurd (hdig _ k1 k2 (by decide)) id
    | str s2 =>
      simp only [stringifyChars] at h
      obtain ⟨e, er⟩ := quoteChars_unique s s2 r1 r2 h
      exact ⟨by rw [e], er⟩
    | arr xs => simp only at k1 k2; rw [k1] at k2; exact absurd k2 (by decide)
    | obj kvs => simp only at k1 k2; rw [k1] at k2; exact absurd k2 (by decide)
  | arr xs =>
    cases j2 with
    | null => simp only at k1 k2; rw [k1] at k2; exact absurd k2 (by decide)
    | bool b => cases b <;> (simp only at k1 k2; rw [k1] at k2; exact absurd k2 (by decide))
    | num n => exact absurd (hdig _ k1 k2 (by decide)) id
    | dec _ _ _ _ => exact absurd (hdig _ k1 k2 (by decide)) id
    | str s => simp only at k1 k2; rw [k1] at k2; exact absurd k2 (by decide)
    | arr ys =>
      simp only [stringifyChars, List.cons_append, List.append_assoc, List.singleton_append,
        List.cons.injEq, true_and] at h
      obtain ⟨e, er⟩ := stringifyElems_unique xs ys r1 r2 h
      exact ⟨by rw [e], er⟩
    | obj kvs => simp only at k1 k2; rw [k1] at k2; exact absurd k2 (by decide)
  | obj kvs =>
    cases j2 with
    | null => simp only at k1 k2; rw [k1] at k2; exact absurd k2 (by decide)
    | bool b => cases b <;> (simp only at k1 k2; rw [k1] at k2; exact absurd k2 (by decide))
    | num n => exact absurd (hdig _ k1 k2 (by decide)) id
    | dec _ _ _ _ => exact absurd (hdig _ k1 k2 (by decide)) id
    | str s => simp only at k1 k2; rw [k1] at k2; exact absurd k2 (by decide)
    | arr ys => simp only at k1 k2; rw [k1] at k2; exact absurd k2 (by decide)
    | obj kvs2 =>
      simp only [stringifyChars, List.cons_append, List.append_assoc, List.singleton_append,
        List.cons.injEq, true_and] at h
      obtain ⟨e, er⟩ := stringifyFields_unique kvs kvs2 r1 r2 h
      exact ⟨by rw [e], er⟩
termination_by (sizeOf j1, 0)
/-- The elements of two arrays, each followed by its closing bracket, are the same when
the texts are. -/
theorem stringifyElems_unique (xs ys : List Json) (r1 r2 : List Char)
    (h : stringifyElems xs ++ ']' :: r1 = stringifyElems ys ++ ']' :: r2) :
    xs = ys ∧ r1 = r2 := by
  match xs, ys with
  | [], [] => exact ⟨rfl, by simpa [stringifyElems] using h⟩
  | [], y :: ys =>
    obtain ⟨c, rest, hc, hne⟩ := stringifyElems_head y ys
    simp only [stringifyElems, List.nil_append, hc, List.cons_append, List.cons.injEq] at h
    exact absurd h.1.symm hne
  | x :: xs, [] =>
    obtain ⟨c, rest, hc, hne⟩ := stringifyElems_head x xs
    simp only [stringifyElems, List.nil_append, hc, List.cons_append, List.cons.injEq] at h
    exact absurd h.1 hne
  | [x], [y] =>
    simp only [stringifyElems] at h
    obtain ⟨e, er⟩ := stringifyChars_unique x y _ _ h (terminated_cons _ _ (by decide))
      (terminated_cons _ _ (by decide))
    exact ⟨by rw [e], by simpa using er⟩
  | [x], y :: y2 :: ys =>
    simp only [stringifyElems, List.append_assoc, List.cons_append] at h
    obtain ⟨e, er⟩ := stringifyChars_unique x y _ _ h (terminated_cons _ _ (by decide))
      (terminated_cons _ _ (by decide))
    simp at er
  | x :: x2 :: xs, [y] =>
    simp only [stringifyElems, List.append_assoc, List.cons_append] at h
    obtain ⟨e, er⟩ := stringifyChars_unique x y _ _ h (terminated_cons _ _ (by decide))
      (terminated_cons _ _ (by decide))
    simp at er
  | x :: x2 :: xs, y :: y2 :: ys =>
    simp only [stringifyElems, List.append_assoc, List.cons_append] at h
    obtain ⟨e, er⟩ := stringifyChars_unique x y _ _ h (terminated_cons _ _ (by decide))
      (terminated_cons _ _ (by decide))
    simp only [List.cons.injEq, true_and] at er
    obtain ⟨e2, er2⟩ := stringifyElems_unique (x2 :: xs) (y2 :: ys) r1 r2 er
    exact ⟨by rw [e, e2], er2⟩
termination_by (sizeOf xs, 1)
/-- The properties of two objects, each followed by its closing brace, are the same
when the texts are. -/
theorem stringifyFields_unique (xs ys : List (String × Json)) (r1 r2 : List Char)
    (h : stringifyFields xs ++ Char.ofNat 125 :: r1 = stringifyFields ys ++ Char.ofNat 125 :: r2) :
    xs = ys ∧ r1 = r2 := by
  match xs, ys with
  | [], [] => exact ⟨rfl, by simpa [stringifyFields] using h⟩
  | [], y :: ys =>
    obtain ⟨rest, hc⟩ := stringifyFields_head y ys
    simp only [stringifyFields, List.nil_append, hc, List.cons_append, List.cons.injEq] at h
    exact absurd h.1 (by decide)
  | x :: xs, [] =>
    obtain ⟨rest, hc⟩ := stringifyFields_head x xs
    simp only [stringifyFields, List.nil_append, hc, List.cons_append, List.cons.injEq] at h
    exact absurd h.1 (by decide)
  | [(k, v)], [(k2, v2)] =>
    simp only [stringifyFields, List.append_assoc, List.cons_append] at h
    obtain ⟨ek, h2⟩ := quoteChars_unique k k2 _ _ h
    simp only [List.cons.injEq, true_and] at h2
    obtain ⟨e, er⟩ := stringifyChars_unique v v2 _ _ h2 (terminated_cons _ _ (by decide))
      (terminated_cons _ _ (by decide))
    exact ⟨by rw [ek, e], by simpa using er⟩
  | [(k, v)], (k2, v2) :: y2 :: ys =>
    simp only [stringifyFields, List.append_assoc, List.cons_append] at h
    obtain ⟨ek, h2⟩ := quoteChars_unique k k2 _ _ h
    simp only [List.cons.injEq, true_and] at h2
    obtain ⟨e, er⟩ := stringifyChars_unique v v2 _ _ h2 (terminated_cons _ _ (by decide))
      (terminated_cons _ _ (by decide))
    simp at er
  | (k, v) :: x2 :: xs, [(k2, v2)] =>
    simp only [stringifyFields, List.append_assoc, List.cons_append] at h
    obtain ⟨ek, h2⟩ := quoteChars_unique k k2 _ _ h
    simp only [List.cons.injEq, true_and] at h2
    obtain ⟨e, er⟩ := stringifyChars_unique v v2 _ _ h2 (terminated_cons _ _ (by decide))
      (terminated_cons _ _ (by decide))
    simp at er
  | (k, v) :: x2 :: xs, (k2, v2) :: y2 :: ys =>
    simp only [stringifyFields, List.append_assoc, List.cons_append] at h
    obtain ⟨ek, h2⟩ := quoteChars_unique k k2 _ _ h
    simp only [List.cons.injEq, true_and] at h2
    obtain ⟨e, er⟩ := stringifyChars_unique v v2 _ _ h2 (terminated_cons _ _ (by decide))
      (terminated_cons _ _ (by decide))
    simp only [List.cons.injEq, true_and] at er
    obtain ⟨e2, er2⟩ := stringifyFields_unique (x2 :: xs) (y2 :: ys) r1 r2 er
    exact ⟨by rw [ek, e, e2], er2⟩
termination_by (sizeOf xs, 1)
end

/-- `JSON.stringify` gives different texts for different values. -/
theorem stringify_injective (j1 j2 : Json) (h : stringify j1 = stringify j2) : j1 = j2 := by
  have hd : stringifyChars j1 ++ [] = stringifyChars j2 ++ [] := by
    simpa [stringify] using congrArg String.data h
  exact (stringifyChars_unique j1 j2 [] [] hd trivial trivial).1

/-- The text of a value is not empty. -/
theorem stringify_nonempty (j : Json) : stringify j ≠ "" := by
  obtain ⟨c, rest, h, _⟩ := stringifyChars_head j
  intro he
  have := congrArg String.data he
  simp [stringify, h] at this

/-! ### No text of a value ends with a colon followed by the text of a value -/

theorem scan_nil (q : Scan) : scan q [] = q := rfl

theorem scan_cons (q : Scan) (c : Char) (cs : List Char) :
    scan q (c :: cs) = scan (q.step c) cs := rfl

theorem scan_append (q : Scan) (a b : List Char) : scan q (a ++ b) = scan (scan q a) b := by
  simp [scan, List.foldl_append]

theorem colonsInside_append (d : Int) : ∀ (a b : List Char) (q : Scan),
    colonsInside d q (a ++ b) ↔ colonsInside d q a ∧ colonsInside d (scan q a) b := by
  intro a
  induction a with
  | nil => intro b q; simp [colonsInside, scan_nil]
  | cons c cs ih =>
    intro b q
    have hl : (c :: cs) ++ b = c :: (cs ++ b) := rfl
    rw [hl]
    simp only [colonsInside, scan_cons, ih, and_assoc]

theorem colonsInside_cons (d : Int) (q : Scan) (c : Char) (cs : List Char) :
    colonsInside d q (c :: cs)
      ↔ (c = ':' → (q.step c).inStr = true ∨ d < (q.step c).depth)
        ∧ colonsInside d (q.step c) cs := Iff.rfl

theorem colonsInside_mono (d d2 : Int) (hd : d ≤ d2) : ∀ (l : List Char) (q : Scan),
    colonsInside d2 q l → colonsInside d q l := by
  intro l
  induction l with
  | nil => intro q _; trivial
  | cons c cs ih =>
    intro q h
    simp only [colonsInside] at h ⊢
    refine ⟨fun hc => ?_, ih _ h.2⟩
    rcases h.1 hc with h1 | h1
    · exact Or.inl h1
    · exact Or.inr (by omega)

theorem step_plain (d : Int) (c : Char) (h : isPlainChar c = true) :
    Scan.step ⟨false, false, d⟩ c = ⟨false, false, d⟩ ∧ c ≠ ':' := by
  simp only [isPlainChar, Bool.not_eq_true', Bool.or_eq_false_iff, beq_eq_false_iff_ne,
    ne_eq] at h
  obtain ⟨⟨⟨⟨⟨⟨h1, h2⟩, h3⟩, h4⟩, h5⟩, h6⟩, h7⟩ := h
  refine ⟨?_, h7⟩
  simp [Scan.step, h1, h2, h3, h4, h5, h6]

/-- A text of plain characters leaves a reader outside a string literal as it is, and
holds no colon. -/
theorem scan_plain (d d2 : Int) : ∀ (l : List Char), (∀ c ∈ l, isPlainChar c = true) →
    scan ⟨false, false, d⟩ l = ⟨false, false, d⟩ ∧ colonsInside d2 ⟨false, false, d⟩ l := by
  intro l
  induction l with
  | nil => intro _; exact ⟨rfl, trivial⟩
  | cons c cs ih =>
    intro h
    obtain ⟨hs, hc⟩ := step_plain d c (h c (List.mem_cons_self _ _))
    obtain ⟨i1, i2⟩ := ih (fun x hx => h x (List.mem_cons_of_mem _ hx))
    rw [scan_cons, hs]
    refine ⟨i1, ?_⟩
    simp only [colonsInside, hs]
    exact ⟨fun he => absurd he hc, i2⟩

theorem isNumChar_plain (c : Char) (h : isNumChar c = true) : isPlainChar c = true := by
  by_contra hp
  simp only [isPlainChar, Bool.not_eq_true, Bool.not_eq_false', Bool.or_eq_true,
    beq_iff_eq] at hp
  rcases hp with (((((hp | hp) | hp) | hp) | hp) | hp) | hp <;>
  · rw [hp] at h
    exact absurd h (by decide)

theorem hexDigit_plain (n : Nat) (h : n < 16) :
    hexDigit n ≠ backslash ∧ hexDigit n ≠ dquote := by
  interval_cases n <;> decide

theorem step_esc (i : Bool) (d : Int) (c : Char) :
    Scan.step ⟨i, true, d⟩ c = ⟨i, false, d⟩ := by
  simp [Scan.step]

theorem step_backslash (i : Bool) (d : Int) :
    Scan.step ⟨i, false, d⟩ backslash = ⟨i, true, d⟩ := by
  simp [Scan.step]

theorem step_inside (d : Int) (c : Char) (h1 : c ≠ backslash) (h2 : c ≠ dquote) :
    Scan.step ⟨true, false, d⟩ c = ⟨true, false, d⟩ := by
  simp [Scan.step, h1, h2]

theorem step_dquote (i : Bool) (d : Int) :
    Scan.step ⟨i, false, d⟩ dquote = ⟨!i, false, d⟩ := by
  have : dquote ≠ backslash := by decide
  simp [Scan.step, this]

/-- An escaped character leaves a reader inside a string literal there, and every state
on the way is inside the literal. -/
theorem scan_escapeChar (d d2 : Int) (c : Char) :
    scan ⟨true, false, d⟩ (escapeChar c) = ⟨true, false, d⟩
    ∧ colonsInside d2 ⟨true, false, d⟩ (escapeChar c) := by
  have two : ∀ e : Char, scan ⟨true, false, d⟩ [backslash, e] = ⟨true, false, d⟩
      ∧ colonsInside d2 ⟨true, false, d⟩ [backslash, e] := by
    intro e
    simp [scan_cons, scan_nil, colonsInside, step_backslash, step_esc]
  unfold escapeChar
  split_ifs with h1 h2 h3 h4 h5 h6 h7 h8
  · exact two _
  · exact two _
  · exact two _
  · exact two _
  · exact two _
  · exact two _
  · exact two _
  · obtain ⟨a1, a2⟩ := hexDigit_plain (c.toNat / 16) (by omega)
    obtain ⟨b1, b2⟩ := hexDigit_plain (c.toNat % 16) (Nat.mod_lt _ (by decide))
    have z1 : ('0' : Char) ≠ backslash := by decide
    have z2 : ('0' : Char) ≠ dquote := by decide
    simp [scan_cons, scan_nil, colonsInside, step_backslash, step_esc, step_inside, a1, a2, b1,
      b2, z1, z2]
  · simp [scan_cons, scan_nil, colonsInside, step_inside, h1, h2]

theorem scan_escapeChars (d d2 : Int) : ∀ (l : List Char),
    scan ⟨true, false, d⟩ (escapeChars l) = ⟨true, false, d⟩
    ∧ colonsInside d2 ⟨true, false, d⟩ (escapeChars l) := by
  intro l
  induction l with
  | nil => exact ⟨rfl, trivial⟩
  | cons c cs ih =>
    obtain ⟨h1, h2⟩ := scan_escapeChar d d2 c
    simp only [escapeChars, scan_append, colonsInside_append, h1]
    exact ⟨ih.1, h2, ih.2⟩

/-- A string literal leaves a reader outside a string literal as it is, and its colons
are inside the literal. -/
theorem scan_quoteChars (d d2 : Int) (s : String) :
    scan ⟨false, false, d⟩ (quoteChars s) = ⟨false, false, d⟩
    ∧ colonsInside d2 ⟨false, false, d⟩ (quoteChars s) := by
  obtain ⟨h1, h2⟩ := scan_escapeChars d d2 s.data
  have hq : dquote ≠ ':' := by decide
  simp only [quoteChars, scan_cons, scan_append, colonsInside, colonsInside_append, step_dquote,
    Bool.not_false, Bool.not_true, h1, scan_nil]
  exact ⟨trivial, fun h => absurd h hq, h2, fun h => absurd h hq, trivial⟩

theorem literal_plain :
    (∀ c ∈ "null".data, isPlainChar c = true) ∧ (∀ c ∈ "true".data, isPlainChar c = true)
    ∧ (∀ c ∈ "false".data, isPlainChar c = true) := by
  refine ⟨?_, ?_, ?_⟩ <;> decide

theorem step_open (d : Int) :
    Scan.step ⟨false, false, d⟩ '[' = ⟨false, false, d + 1⟩
    ∧ Scan.step ⟨false, false, d⟩ (Char.ofNat 123) = ⟨false, false, d + 1⟩ := by
  constructor <;> simp [Scan.step, backslash, dquote]

theorem step_close (d : Int) :
    Scan.step ⟨false, false, d⟩ ']' = ⟨false, false, d - 1⟩
    ∧ Scan.step ⟨false, false, d⟩ (Char.ofNat 125) = ⟨false, false, d - 1⟩ := by
  constructor <;> simp [Scan.step, backslash, dquote]

theorem step_sep (d : Int) :
    Scan.step ⟨false, false, d⟩ ',' = ⟨false, false, d⟩
    ∧ Scan.step ⟨false, false, d⟩ ':' = ⟨false, false, d⟩ := by
  constructor <;> simp [Scan.step, backslash, dquote]

mutual
/-- The text of a value leaves a reader outside a string literal as it is, and its
colons are inside a string literal or inside brackets or braces. -/
theorem scan_stringifyChars (j : Json) (d : Int) :
    scan ⟨false, false, d⟩ (stringifyChars j) = ⟨false, false, d⟩
    ∧ colonsInside d ⟨false, false, d⟩ (stringifyChars j) := by
  cases j with
  | null => exact scan_plain d d _ literal_plain.1
  | bool b =>
    cases b
    · exact scan_plain d d _ literal_plain.2.2
    · exact scan_plain d d _ literal_plain.2.1
  | num n => exact scan_plain d d _ (fun c hc => isNumChar_plain c (number_chars.1 n c hc))
  | dec neg whole init last =>
    exact scan_plain d d _ (fun c hc => isNumChar_plain c (number_chars.2 _ _ _ _ c hc))
  | str s => exact scan_quoteChars d d s
  | arr xs =>
    obtain ⟨h1, h2⟩ := scan_stringifyElems xs (d + 1)
    have hb : (']' : Char) ≠ ':' := by decide
    have ho : ('[' : Char) ≠ ':' := by decide
    simp only [stringifyChars, scan_cons, scan_append, colonsInside, colonsInside_append,
      (step_open d).1, h1, (step_close (d + 1)).1, scan_nil]
    refine ⟨by congr 1; omega, fun h => absurd h ho, ?_, fun h => absurd h hb, trivial⟩
    have := h2
    simp only [Int.add_sub_cancel] at this
    exact this
  | obj kvs =>
    obtain ⟨h1, h2⟩ := scan_stringifyFields kvs (d + 1)
    have hb : Char.ofNat 125 ≠ ':' := by decide
    have ho : Char.ofNat 123 ≠ ':' := by decide
    simp only [stringifyChars, scan_cons, scan_append, colonsInside, colonsInside_append,
      (step_open d).2, h1, (step_close (d + 1)).2, scan_nil]
    refine ⟨by congr 1; omega, fun h => absurd h ho, ?_, fun h => absurd h hb, trivial⟩
    have := h2
    simp only [Int.add_sub_cancel] at this
    exact this
termination_by (sizeOf j, 0)
theorem scan_stringifyElems (xs : List Json) (d : Int) :
    scan ⟨false, false, d⟩ (stringifyElems xs) = ⟨false, false, d⟩
    ∧ colonsInside (d - 1) ⟨false, false, d⟩ (stringifyElems xs) := by
  match xs with
  | [] => exact ⟨rfl, trivial⟩
  | [x] =>
    obtain ⟨h1, h2⟩ := scan_stringifyChars x d
    simp only [stringifyElems]
    exact ⟨h1, colonsInside_mono (d - 1) d (by omega) _ _ h2⟩
  | x :: y :: ys =>
    obtain ⟨h1, h2⟩ := scan_stringifyChars x d
    obtain ⟨i1, i2⟩ := scan_stringifyElems (y :: ys) d
    have hc : (',' : Char) ≠ ':' := by decide
    simp only [stringifyElems, scan_cons, scan_append, colonsInside, colonsInside_append, h1,
      (step_sep d).1, i1]
    exact ⟨trivial, colonsInside_mono (d - 1) d (by omega) _ _ h2, fun h => absurd h hc, i2⟩
termination_by (sizeOf xs, 1)
theorem scan_stringifyFields (kvs : List (String × Json)) (d : Int) :
    scan ⟨false, false, d⟩ (stringifyFields kvs) = ⟨false, false, d⟩
    ∧ colonsInside (d - 1) ⟨false, false, d⟩ (stringifyFields kvs) := by
  match kvs with
  | [] => exact ⟨rfl, trivial⟩
  | [(k, v)] =>
    obtain ⟨k1, k2⟩ := scan_quoteChars d (d - 1) k
    obtain ⟨h1, h2⟩ := scan_stringifyChars v d
    simp only [stringifyFields]
    constructor
    · rw [scan_append, k1, scan_cons, (step_sep d).2, h1]
    · rw [colonsInside_append, k1, colonsInside_cons, (step_sep d).2]
      exact ⟨k2, fun _ => Or.inr (show d - 1 < d by omega),
        colonsInside_mono (d - 1) d (by omega) _ _ h2⟩
  | (k, v) :: kv :: rest =>
    obtain ⟨k1, k2⟩ := scan_quoteChars d (d - 1) k
    obtain ⟨h1, h2⟩ := scan_stringifyChars v d
    obtain ⟨i1, i2⟩ := scan_stringifyFields (kv :: rest) d
    have hc : (',' : Char) ≠ ':' := by decide
    simp only [stringifyFields]
    constructor
    · rw [scan_append, k1, scan_cons, (step_sep d).2, scan_append, h1, scan_cons, (step_sep d).1,
        i1]
    · rw [colonsInside_append, k1, colonsInside_cons, (step_sep d).2, colonsInside_append, h1,
        colonsInside_cons, (step_sep d).1]
      exact ⟨k2, fun _ => Or.inr (show d - 1 < d by omega),
        colonsInside_mono (d - 1) d (by omega) _ _ h2, fun h => absurd h hc, i2⟩
termination_by (sizeOf kvs, 1)
end

/-- Two readers of which one is inside a string literal and the other is not, with the
same escape state, stay so over every text. -/
theorem scan_flip : ∀ (l : List Char) (q q2 : Scan), q2.inStr = !q.inStr → q2.esc = q.esc →
    (scan q2 l).inStr = !(scan q l).inStr := by
  intro l
  induction l with
  | nil => intro q q2 h _; exact h
  | cons c cs ih =>
    intro q q2 h1 h2
    rw [scan_cons, scan_cons]
    apply ih
    · obtain ⟨i, e, d⟩ := q
      obtain ⟨i2, e2, d2⟩ := q2
      simp only at h1 h2
      subst h1 h2
      cases i <;> cases e2 <;> simp [Scan.step] <;> split_ifs <;> simp
    · obtain ⟨i, e, d⟩ := q
      obtain ⟨i2, e2, d2⟩ := q2
      simp only at h1 h2
      subst h1 h2
      cases i <;> cases e2 <;> simp [Scan.step] <;> split_ifs <;> simp

theorem step_colon_esc (q : Scan) : (q.step ':').esc = false := by
  have h1 : (':' : Char) ≠ backslash := by decide
  have h2 : (':' : Char) ≠ dquote := by decide
  have h3 : ¬ ((':' : Char) = '[' ∨ (':' : Char) = Char.ofNat 123) := by decide
  have h4 : ¬ ((':' : Char) = ']' ∨ (':' : Char) = Char.ofNat 125) := by decide
  obtain ⟨i, e, d⟩ := q
  cases i <;> cases e <;> simp [Scan.step, h1, h2, h3, h4]

/-- The text of a value does not end with a colon, and does not end with a colon
followed by the text of a value. -/
theorem no_value_after_colon (j : Json) (s : List Char) :
    stringifyChars j ≠ s ++ [':']
    ∧ ∀ j2, stringifyChars j ≠ s ++ ':' :: stringifyChars j2 := by
  obtain ⟨h1, h2⟩ := scan_stringifyChars j 0
  have key : ∀ t : List Char, stringifyChars j = s ++ ':' :: t →
      scan (Scan.step (scan ⟨false, false, 0⟩ s) ':') t = ⟨false, false, 0⟩
      ∧ ((Scan.step (scan ⟨false, false, 0⟩ s) ':').inStr = true
        ∨ 0 < (Scan.step (scan ⟨false, false, 0⟩ s) ':').depth) := by
    intro t ht
    rw [ht, scan_append, scan_cons] at h1
    rw [ht, colonsInside_append] at h2
    exact ⟨h1, h2.2.1 rfl⟩
  constructor
  · intro he
    obtain ⟨k1, k2⟩ := key [] he
    rw [scan_nil] at k1
    rw [k1] at k2
    simp at k2
  · intro j2 he
    obtain ⟨k1, k2⟩ := key _ he
    have hesc := step_colon_esc (scan ⟨false, false, 0⟩ s)
    generalize Scan.step (scan ⟨false, false, 0⟩ s) ':' = q at k1 k2 hesc
    obtain ⟨i, e, d⟩ := q
    simp only at hesc k2
    subst hesc
    cases i with
    | true =>
      have hf := scan_flip (stringifyChars j2) ⟨false, false, 0⟩ ⟨true, false, d⟩ rfl rfl
      rw [k1, (scan_stringifyChars j2 0).1] at hf
      simp at hf
    | false =>
      rw [(scan_stringifyChars j2 d).1] at k1
      simp only [Bool.false_eq_true, false_or] at k2
      have := congrArg Scan.depth k1
      simp only at this
      omega

/-! ### The cache key tells requests apart -/

theorem getCacheKey_data (url : String) (options : Options) :
    (getCacheKey url options).data
      = (methodOf options).data ++ ':' :: (url.data ++ ':' :: (bodyOf options).data) := by
  simp [getCacheKey, String.data_append]

/-- The body part of a key is empty, or the text of the body, which is then truthy. -/
theorem bodyOf_cases (o : Options) :
    ((bodyOf o).data = [] ∧ (o.body = none ∨ ∃ b, o.body = some b ∧ b.truthy = false))
    ∨ ∃ b, o.body = some b ∧ b.truthy = true ∧ (bodyOf o).data = stringifyChars b := by
  unfold bodyOf
  cases hb : o.body with
  | none => exact Or.inl ⟨rfl, Or.inl rfl⟩
  | some b =>
    cases ht : b.truthy with
    | false => exact Or.inl ⟨by simp [ht], Or.inr ⟨b, rfl, ht⟩⟩
    | true => exact Or.inr ⟨b, rfl, ht, by simp [ht, stringify]⟩

/-- Two keys for one address of which the first method part is the head of the second:
the method parts are the same and so are the body parts, when each body part is empty
or the text of a value. -/
theorem key_parts_aux (x u b1 b2 : List Char)
    (h : ':' :: (u ++ ':' :: b1) = x ++ ':' :: (u ++ ':' :: b2))
    (h1 : b1 = [] ∨ ∃ j, b1 = stringifyChars j)
    (h2 : b2 = [] ∨ ∃ j, b2 = stringifyChars j) : x = [] ∧ b1 = b2 := by
  have hlen := congrArg List.length h
  simp only [List.length_cons, List.length_append] at hlen
  have h3 : (':' :: (u ++ [':'])) ++ b1 = (x ++ ':' :: (u ++ [':'])) ++ b2 := by
    simpa using h
  rcases List.append_eq_append_iff.1 h3 with ⟨a, ha, hb⟩ | ⟨c, hc, hb⟩
  · rcases List.eq_nil_or_concat a with ha0 | ⟨l, e, hle⟩
    · subst ha0
      simp only [List.nil_append] at hb
      subst hb
      have : x.length = 0 := by omega
      exact ⟨List.length_eq_zero.1 this, rfl⟩
    · exfalso
      subst hle
      have h4 : (x ++ ':' :: u) ++ [':'] = ((':' :: (u ++ [':'])) ++ l) ++ [e] := by
        simpa using ha
      have h5 := (List.append_inj' h4 rfl).2
      simp only [List.cons.injEq, and_true] at h5
      subst h5
      have hb1 : b1 = l ++ ':' :: b2 := by simpa using hb
      rcases h1 with h1 | ⟨j, hj⟩
      · rw [h1] at hb1
        simp at hb1
      · rw [hj] at hb1
        rcases h2 with h2 | ⟨j2, hj2⟩
        · rw [h2] at hb1
          exact (no_value_after_colon j l).1 hb1
        · rw [hj2] at hb1
          exact (no_value_after_colon j l).2 j2 hb1
  · have hl := congrArg List.length hc
    simp only [List.length_cons, List.length_append, List.length_nil] at hl
    have hx : x.length = 0 := by omega
    have hc0 : c.length = 0 := by omega
    rw [List.length_eq_zero.1 hc0] at hb
    exact ⟨List.length_eq_zero.1 hx, by simpa using hb.symm⟩

/-- The key determines its method part and its body part, whatever characters the
method part and the address hold. -/
theorem getCacheKey_parts (url : String) (o1 o2 : Options)
    (h : getCacheKey url o1 = getCacheKey url o2) :
    methodOf o1 = methodOf o2 ∧ bodyOf o1 = bodyOf o2 := by
  have hd := congrArg String.data h
  rw [getCacheKey_data, getCacheKey_data] at hd
  have v1 : (bodyOf o1).data = [] ∨ ∃ j, (bodyOf o1).data = stringifyChars j := by
    rcases bodyOf_cases o1 with ⟨e, _⟩ | ⟨b, _, _, e⟩
    · exact Or.inl e
    · exact Or.inr ⟨b, e⟩
  have v2 : (bodyOf o2).data = [] ∨ ∃ j, (bodyOf o2).data = stringifyChars j := by
    rcases bodyOf_cases o2 with ⟨e, _⟩ | ⟨b, _, _, e⟩
    · exact Or.inl e
    · exact Or.inr ⟨b, e⟩
  rcases List.append_eq_append_iff.1 hd with ⟨x, hx, hr⟩ | ⟨x, hx, hr⟩
  · obtain ⟨e1, e2⟩ := key_parts_aux x _ _ _ hr v1 v2
    subst e1
    exact ⟨String.ext (by simpa using hx.symm), String.ext e2⟩
  · obtain ⟨e1, e2⟩ := key_parts_aux x _ _ _ hr v2 v1
    subst e1
    exact ⟨String.ext (by simpa using hx), String.ext e2.symm⟩

/-- C13 (amended). `getCacheKey` depends on the options through the method part (the
method in upper case, `GET` by default) and the body part (`JSON.stringify(body)`, or
the empty string for a body that is absent, `0`, `false`, `null` or `""`) only. For one
address and two option sets, the two keys are different strings as soon as the method
parts differ, or the bodies are two different truthy JSON values, or one body is truthy
and the other is absent or falsy; this holds for every address and every method,
whatever characters they hold. An absent body and a falsy one give the same body
part. -/
theorem cache_key_distinct (url : String) (o1 o2 : Options) :
    (o1.method = o2.method → o1.body = o2.body → getCacheKey url o1 = getCacheKey url o2)
    ∧ (methodOf o1 = methodOf o2 → bodyOf o1 = bodyOf o2 →
        getCacheKey url o1 = getCacheKey url o2)
    ∧ (methodOf o1 ≠ methodOf o2 → getCacheKey url o1 ≠ getCacheKey url o2)
    ∧ (∀ b1 b2, o1.body = some b1 → o2.body = some b2 → b1.truthy = true →
        b2.truthy = true → b1 ≠ b2 → getCacheKey url o1 ≠ getCacheKey url o2)
    ∧ (∀ b1, o1.body = some b1 → b1.truthy = true →
        (o2.body = none ∨ ∃ b2, o2.body = some b2 ∧ b2.truthy = false) →
        getCacheKey url o1 ≠ getCacheKey url o2 ∧ getCacheKey url o2 ≠ getCacheKey url o1)
    ∧ (∀ b, b.truthy = false →
        bodyOf { o1 with body := some b } = bodyOf { o1 with body := none }) := by
  refine ⟨?_, ?_, ?_, ?_, ?_, ?_⟩
  · intro hm hb
    simp only [getCacheKey, methodOf, bodyOf, hm, hb]
  · intro hm hb
    simp only [getCacheKey, hm, hb]
  · intro hne heq
    exact hne (getCacheKey_parts url o1 o2 heq).1
  · intro b1 b2 e1 e2 t1 t2 hne heq
    have hb := (getCacheKey_parts url o1 o2 heq).2
    simp only [bodyOf, e1, e2, t1, t2, ↓reduceIte] at hb
    exact hne (stringify_injective b1 b2 hb)
  · intro b1 e1 t1 h2
    have hb2 : bodyOf o2 = "" := by
      rcases h2 with h2 | ⟨b2, e2, t2⟩
      · simp only [bodyOf, h2]
      · simp only [bodyOf, e2, t2, Bool.false_eq_true, ↓reduceIte]
    have hb1 : bodyOf o1 = stringify b1 := by
      simp only [bodyOf, e1, t1, ↓reduceIte]
    constructor
    · intro heq
      have hb := (getCacheKey_parts url o1 o2 heq).2
      rw [hb1, hb2] at hb
      exact stringify_nonempty b1 hb
    · intro heq
      have hb := (getCacheKey_parts url o2 o1 heq).2
      rw [hb1, hb2] at hb
      exact stringify_nonempty b1 hb.symm
  · intro b hb
    simp only [bodyOf, hb, Bool.false_eq_true, ↓reduceIte]

/-- C13 at concrete inputs: `GET` and `POST` give different keys; so do the methods
`x` and `x:/a`, which hold the separator of the key; so do the bodies `1` and `2`, the
bodies `{"a":1.5}` and `{"a":1.25}`, and the body `1` and no body; the methods `get`
and `GET` give the same key. -/
theorem cache_key_distinct_witness :
    getCacheKey "/a" (methodBody "GET" none) ≠ getCacheKey "/a" (methodBody "POST" none)
    ∧ getCacheKey "/a" (methodBody "x" none) ≠ getCacheKey "/a" (methodBody "x:/a" none)
    ∧ getCacheKey "/a" (methodBody "POST" (some (.num 1)))
      ≠ getCacheKey "/a" (methodBody "POST" (some (.num 2)))
    ∧ getCacheKey "/a" (methodBody "POST" (some (.obj [("a", .dec false 1 [] 4)])))
      ≠ getCacheKey "/a" (methodBody "POST" (some (.obj [("a", .dec false 1 [2] 4)])))
    ∧ getCacheKey "/a" (methodBody "POST" (some (.num 1)))
      ≠ getCacheKey "/a" (methodBody "POST" none)
    ∧ getCacheKey "/a" (methodBody "get" none) = getCacheKey "/a" (methodBody "GET" none) :=
  ⟨(cache_key_distinct "/a" (methodBody "GET" none) (methodBody "POST" none)).2.2.1
      (by decide),
    (cache_key_distinct "/a" (methodBody "x" none) (methodBody "x:/a" none)).2.2.1
      (by decide),
    (cache_key_distinct "/a" (methodBody "POST" (some (.num 1)))
      (methodBody "POST" (some (.num 2)))).2.2.2.1 (.num 1) (.num 2) rfl rfl rfl rfl
      (by simp),
    (cache_key_distinct "/a" (methodBody "POST" (some (.obj [("a", .dec false 1 [] 4)])))
      (methodBody "POST" (some (.obj [("a", .dec false 1 [2] 4)])))).2.2.2.1
      (.obj [("a", .dec false 1 [] 4)]) (.obj [("a", .dec false 1 [2] 4)]) rfl rfl rfl rfl
      (by simp),
    ((cache_key_distinct "/a" (methodBody "POST" (some (.num 1)))
      (methodBody "POST" none)).2.2.2.2.1 (.num 1) rfl rfl (Or.inl rfl)).1,
    (cache_key_distinct "/a" (methodBody "get" none) (methodBody "GET" none)).2.1
      (by decide) (by decide)⟩

end MDC
